import Mathlib

/-!
# Tree_structure_display: spatial indexes

Shallow embedding of the spatial index structures of
`Tree_structure_display` (`main_staticquadtree.cpp`, `main_trees.cpp`,
`main_dynamicquadtree.cpp`, `src/App.h`).

Modelling conventions.

* A `float` is a value of `F32`: a finite IEEE-754 binary32 number, subnormals
  included. Each of the operations `+`, `-`, `*`, `/` rounds its exact result
  to the nearest float, ties to the even significand, as the source's `float`
  arithmetic does when every operation is evaluated in `float`
  (`FLT_EVAL_METHOD` 0, no fused operations); comparisons compare the values;
  a `size_t` that meets a `float` is converted (rounded) to `float` first. The
  exponent range of `F32` is not bounded above: results beyond the largest
  `float` (which the source turns into infinities, and those into NaN) are
  outside the model, so the development speaks of the executions in which no
  operation overflows; `x / 0` is `0`, and is only ever computed for the
  member `_cellSize` of a grid without cells.
* A `std::shared_ptr<Node>` is a value of an inductive type whose first
  constructor `null` is the null pointer.
* Member names drop the leading underscore (`_area` is `area`).
* The `color` member of `Rect` and the `vel`, `size`, `color` members of
  `CObject` are only read by the renderer and are left out.
* Dereferencing a null root is undefined behaviour in the source; the public
  operations that do so return `none` there.
-/

namespace TreeDisplay

/-! ## `float` -/

/-- A finite `float` value (IEEE-754 binary32), identified by its position in
the increasing enumeration of the finite floats: for a non-negative float the
ordinal is the integer that its bit pattern encodes
(`exponent field * 2 ^ 23 + fraction field`), for a negative float it is minus
the ordinal of its magnitude. -/
structure F32 where
  ord : Int
deriving DecidableEq

namespace F32

/-- The floor of the binary logarithm, by halving; the first argument bounds the
number of halvings. -/
def log2F : Nat → Nat → Nat
  | 0, _ => 0
  | fuel + 1, n => if n < 2 then 0 else log2F fuel (n / 2) + 1

/-- The magnitude with ordinal `n`, in units of `2 ^ (-149)`: the significand
(`n` itself for a subnormal, `2 ^ 23 + fraction` for a normal) shifted by the
exponent field minus one. -/
def scaled (n : Nat) : Nat :=
  (if n < 2 ^ 23 then n else 2 ^ 23 + n % 2 ^ 23) * 2 ^ (n / 2 ^ 23 - 1)

/-- The ordinal of the greatest magnitude that is at most `t` units of
`2 ^ (-149)`. -/
def floorOrd (t : Nat) : Nat :=
  (log2F t t - 23) * 2 ^ 23 + t / 2 ^ (log2F t t - 23)

/-- Round to nearest, ties to the even significand, of a non-negative rational:
the ordinal of the result. -/
def roundNN (q : ℚ) : Nat :=
  if q * 2 ^ 149 - (scaled (floorOrd ⌊q * 2 ^ 149⌋₊) : ℚ)
      < (scaled (floorOrd ⌊q * 2 ^ 149⌋₊ + 1) : ℚ) - q * 2 ^ 149 then
    floorOrd ⌊q * 2 ^ 149⌋₊
  else if (scaled (floorOrd ⌊q * 2 ^ 149⌋₊ + 1) : ℚ) - q * 2 ^ 149
      < q * 2 ^ 149 - (scaled (floorOrd ⌊q * 2 ^ 149⌋₊) : ℚ) then
    floorOrd ⌊q * 2 ^ 149⌋₊ + 1
  else if floorOrd ⌊q * 2 ^ 149⌋₊ % 2 = 0 then floorOrd ⌊q * 2 ^ 149⌋₊
  else floorOrd ⌊q * 2 ^ 149⌋₊ + 1

/-- The float nearest to a rational (round to nearest, ties to even), as every
`float` operation of the source rounds its exact result. -/
def ofRat (q : ℚ) : F32 :=
  if q < 0 then ⟨-(roundNN (-q) : Int)⟩ else ⟨(roundNN q : Int)⟩

/-- The rational value of a float. -/
def val (a : F32) : ℚ :=
  if a.ord < 0 then -((scaled a.ord.natAbs : ℚ) / 2 ^ 149)
  else (scaled a.ord.natAbs : ℚ) / 2 ^ 149

instance : Add F32 := ⟨fun a b => ofRat (a.val + b.val)⟩
instance : Sub F32 := ⟨fun a b => ofRat (a.val - b.val)⟩
instance : Mul F32 := ⟨fun a b => ofRat (a.val * b.val)⟩
instance : Div F32 := ⟨fun a b => ofRat (a.val / b.val)⟩
instance : Neg F32 := ⟨fun a => ⟨-a.ord⟩⟩
instance (n : Nat) : OfNat F32 n := ⟨ofRat n⟩

/-- Conversion of a `size_t` to `float`. -/
def ofNat (n : Nat) : F32 := ofRat n

instance : LinearOrder F32 :=
  LinearOrder.lift' (fun a => a.ord) (fun a b h => by cases a; cases b; simpa using h)

/-- The sum `a + b` is computed without rounding error. -/
def ExactAdd (a b : F32) : Prop := (a + b).val = a.val + b.val

/-- The difference `a - b` is computed without rounding error. -/
def ExactSub (a b : F32) : Prop := (a - b).val = a.val - b.val

instance (a b : F32) : Decidable (ExactAdd a b) := by unfold ExactAdd; infer_instance

instance (a b : F32) : Decidable (ExactSub a b) := by unfold ExactSub; infer_instance

end F32

/-! ## `Vec2<float>` (src/App.h) -/

/-- Two-component vector, `Vec2<float>` of `App.h`. -/
structure Vec2 where
  x : F32
  y : F32
deriving DecidableEq

namespace Vec2

/-- Models `Vec2::operator/(const T& d)`. -/
def div (v : Vec2) (d : F32) : Vec2 := ⟨v.x / d, v.y / d⟩

/-- Models `Vec2::operator+(const Vec2<T>& v)`. -/
def add (u v : Vec2) : Vec2 := ⟨u.x + v.x, u.y + v.y⟩

/-- Models `Vec2::operator-(const Vec2<T>& v)`. -/
def sub (u v : Vec2) : Vec2 := ⟨u.x - v.x, u.y - v.y⟩

/-- Models `Vec2::operator-(const T& d)`. -/
def subScalar (u : Vec2) (d : F32) : Vec2 := ⟨u.x - d, u.y - d⟩

/-- Models `Vec2::operator[](int i)`: `x` for index 0, `y` otherwise. -/
def get (u : Vec2) (i : Nat) : F32 := if i = 0 then u.x else u.y

end Vec2

/-! ## `Rect` -/

/-- Axis-aligned rectangle, `struct Rect`. -/
structure Rect where
  pos : Vec2
  size : Vec2
deriving DecidableEq

namespace Rect

/-- Models `Rect::contains(const Vec2<float>& point)`. -/
def containsPoint (self : Rect) (point : Vec2) : Bool :=
  !(decide (point.x < self.pos.x) ||
    decide (point.y < self.pos.y) ||
    decide (point.x ≥ self.pos.x + self.size.x) ||
    decide (point.y ≥ self.pos.y + self.size.y))

/-- Models `Rect::contains(const Rect& rect)`. -/
def contains (self rect : Rect) : Bool :=
  decide (rect.pos.x ≥ self.pos.x) &&
  decide (rect.pos.x + rect.size.x < self.pos.x + self.size.x) &&
  decide (rect.pos.y ≥ self.pos.y) &&
  decide (rect.pos.y + rect.size.y < self.pos.y + self.size.y)

/-- Models `Rect::overlaps(const Rect& rect)`. -/
def overlaps (self rect : Rect) : Bool :=
  decide (self.pos.x < rect.pos.x + rect.size.x) &&
  decide (self.pos.x + self.size.x ≥ rect.pos.x) &&
  decide (self.pos.y < rect.pos.y + rect.size.y) &&
  decide (self.pos.y + self.size.y ≥ rect.pos.y)

/-- Models `Rect::leftRect(point)` (main_trees.cpp). -/
def leftRect (self : Rect) (point : Vec2) : Rect :=
  ⟨self.pos, ⟨point.x - self.pos.x, self.size.y⟩⟩

/-- Models `Rect::rightRect(point)` (main_trees.cpp). -/
def rightRect (self : Rect) (point : Vec2) : Rect :=
  ⟨⟨point.x, self.pos.y⟩, ⟨self.pos.x + self.size.x - point.x, self.size.y⟩⟩

/-- Models `Rect::upperRect(point)` (main_trees.cpp). -/
def upperRect (self : Rect) (point : Vec2) : Rect :=
  ⟨⟨self.pos.x, point.y⟩, ⟨self.size.x, self.pos.y + self.size.y - point.y⟩⟩

/-- Models `Rect::lowerRect(point)` (main_trees.cpp). -/
def lowerRect (self : Rect) (point : Vec2) : Rect :=
  ⟨self.pos, ⟨self.size.x, point.y - self.pos.y⟩⟩

/-- Both components of the size are strictly positive. -/
def PosSize (r : Rect) : Prop := 0 < r.size.x ∧ 0 < r.size.y

/-- Both components of the size are non-negative. -/
def NonNegSize (r : Rect) : Prop := 0 ≤ r.size.x ∧ 0 ≤ r.size.y

/-- The far corner `pos + size`, as `contains` and `overlaps` compute it (the
rounded sums), lies strictly beyond `pos` on both axes: the rect has an extent
the comparisons can see. A size that the sum absorbs (`pos + size == pos` with
`size > 0`) does not count. -/
def Spans (r : Rect) : Prop :=
  r.pos.x < r.pos.x + r.size.x ∧ r.pos.y < r.pos.y + r.size.y

/-- The computed far corner `pos + size` coincides with `pos` on both axes. -/
def Pointlike (r : Rect) : Prop :=
  r.pos.x + r.size.x = r.pos.x ∧ r.pos.y + r.size.y = r.pos.y

/-- The rect `c` lies within the edges of `D` as the comparisons compute them:
its origin is at or after the origin of `D` and its far corner `pos + size` is
at or before the far corner of `D`, on both axes. -/
def Within (c D : Rect) : Prop :=
  D.pos.x ≤ c.pos.x ∧ c.pos.x + c.size.x ≤ D.pos.x + D.size.x ∧
    D.pos.y ≤ c.pos.y ∧ c.pos.y + c.size.y ≤ D.pos.y + D.size.y

instance (r : Rect) : Decidable r.Spans := by unfold Spans; infer_instance

instance (c D : Rect) : Decidable (c.Within D) := by unfold Within; infer_instance

instance (r : Rect) : Decidable r.Pointlike := by unfold Pointlike; infer_instance

instance (r : Rect) : Decidable r.PosSize := by unfold PosSize; infer_instance

instance (r : Rect) : Decidable r.NonNegSize := by unfold NonNegSize; infer_instance

end Rect

/-! ## Indexed objects -/

/-- What the index templates require of `OBJ_T`: a member `pos` and a member
function `GetArea()`. -/
class SpatialObject (OBJ_T : Type) where
  /-- the member `pos` -/
  pos : OBJ_T → Vec2
  /-- the member function `GetArea()` -/
  GetArea : OBJ_T → Rect

export SpatialObject (GetArea)

/-- Models `TreeApp::CObject`: a circle with centre `pos` and radius `r`. -/
structure CObject where
  pos : Vec2
  r : F32
deriving DecidableEq

/-- Models `CObject::GetArea()`: `{pos - r, {r * 2.0f, r * 2.0f}}`. -/
def CObject.GetArea (o : CObject) : Rect := ⟨o.pos.subScalar o.r, ⟨o.r * 2, o.r * 2⟩⟩

instance : SpatialObject CObject where
  pos := CObject.pos
  GetArea := CObject.GetArea

/-- An object that is just its bounding rectangle, positioned at the
rectangle's origin: the most general `OBJ_T` as far as `GetArea()` goes. -/
instance : SpatialObject Rect where
  pos := Rect.pos
  GetArea := id

/-- The constant `MAX_DEPTH`, defined as 8 in each source file. -/
def MAX_DEPTH : Nat := 8

/-! ## Region quadtree node (shared by the static and dynamic variants) -/

/-- Models `struct Node` of `StaticQuadTree` / `DynamicQuadTree`, behind a
`std::shared_ptr`: `null` is the null pointer; `mk` carries `_area`, `_depth`,
`_vSubAreas[0..3]`, `_vSubNodes[0..3]` and `_vObjects`. -/
inductive Node (T : Type) where
  | null : Node T
  | mk (area : Rect) (depth : Nat) (sa0 sa1 sa2 sa3 : Rect)
      (n0 n1 n2 n3 : Node T) (vObjects : List T) : Node T

namespace Node

variable {T : Type}

/-- Models `if (node)`: the pointer is not null. -/
def isSome : Node T → Bool
  | null => false
  | mk .. => true

/-- Models `childSize = _area.size / 2.0f`. -/
def childSize (area : Rect) : Vec2 := area.size.div 2

/-- Models `_vSubAreas[0]`, top left. -/
def quad0 (area : Rect) : Rect := ⟨area.pos, childSize area⟩

/-- Models `_vSubAreas[1]`, top right. -/
def quad1 (area : Rect) : Rect := ⟨area.pos.add ⟨(childSize area).x, 0⟩, childSize area⟩

/-- Models `_vSubAreas[2]`, bottom left. -/
def quad2 (area : Rect) : Rect := ⟨area.pos.add ⟨0, (childSize area).y⟩, childSize area⟩

/-- Models `_vSubAreas[3]`, bottom right. -/
def quad3 (area : Rect) : Rect := ⟨area.pos.add (childSize area), childSize area⟩

/-- The far corner of the bottom-right quadrant, `(pos + size / 2) + size / 2`
as the comparisons compute it, is at or beyond the far corner `pos + size` of
the area on both axes: the rounding of the two sums leaves no strip of the area
outside the quadrants. -/
def QuadsReach (area : Rect) : Prop :=
  area.pos.x + area.size.x ≤ (quad3 area).pos.x + (quad3 area).size.x ∧
    area.pos.y + area.size.y ≤ (quad3 area).pos.y + (quad3 area).size.y

instance (area : Rect) : Decidable (QuadsReach area) := by unfold QuadsReach; infer_instance

/-- The constructor `Node(const Rect& r, int depth)`: no children, no objects. -/
def make (r : Rect) (depth : Nat) : Node T :=
  mk r depth (quad0 r) (quad1 r) (quad2 r) (quad3 r) null null null null []

/-- Recursive `items(node, result)`: the objects appended to `result`. -/
def items : Node T → List T
  | null => []
  | mk _ _ _ _ _ _ n0 n1 n2 n3 objs => objs ++ (items n0 ++ (items n1 ++ (items n2 ++ items n3)))

/-- Recursive `size(node)`. The source reads `node->_vObjects` without a null
test and only recurses into non-null children; the `null` case (value 0) is
reached from a child slot only and contributes nothing there. -/
def size : Node T → Nat
  | null => 0
  | mk _ _ _ _ _ _ n0 n1 n2 n3 objs => objs.length + size n0 + size n1 + size n2 + size n3

/-- One turn of the child loop of `search` for slot `i`, with `sub` the
sub-area `_vSubAreas[i]`, `child` the pointer `_vSubNodes[i]` and `deeper` what
the recursive call `search(child, r, result)` appends: nothing for a null
child, all `items(child)` when `r.contains(sub)`, else the recursive result
when `sub.overlaps(r)`. -/
def searchChild (r sub : Rect) (child : Node T) (deeper : List T) : List T :=
  if child.isSome then
    (if r.contains sub then child.items
     else if sub.overlaps r then deeper else [])
  else []

/-- The turn of `searchChild` without its `r.contains(sub)` branch. -/
def searchChildNoShortcut (r sub : Rect) (child : Node T) (deeper : List T) : List T :=
  if child.isSome then (if sub.overlaps r then deeper else []) else []

end Node

/-! ## Static region quadtree (main_staticquadtree.cpp, main_trees.cpp) -/

namespace StaticQuadTree

variable {OBJ_T : Type} [SpatialObject OBJ_T]

/-- Recursive `insert(node, r, obj, depth)` on a null `node`: the node is
created with `Node(r, depth)` (all four child slots null) and the quadrant loop
runs on it. The first argument counts the levels left below `MAX_DEPTH`; it is
`MAX_DEPTH - depth` at every call, so at 0 the test `_depth + 1 < MAX_DEPTH`
is false and the object is stored. -/
def insertNew : Nat → Rect → OBJ_T → Nat → Node OBJ_T
  | 0, r, obj, depth =>
      Node.mk r depth (Node.quad0 r) (Node.quad1 r) (Node.quad2 r) (Node.quad3 r)
        Node.null Node.null Node.null Node.null [obj]
  | k + 1, r, obj, depth =>
      if (Node.quad0 r).contains (GetArea obj) && decide (depth + 1 < MAX_DEPTH) then
        Node.mk r depth (Node.quad0 r) (Node.quad1 r) (Node.quad2 r) (Node.quad3 r)
          (insertNew k (Node.quad0 r) obj (depth + 1)) Node.null Node.null Node.null []
      else if (Node.quad1 r).contains (GetArea obj) && decide (depth + 1 < MAX_DEPTH) then
        Node.mk r depth (Node.quad0 r) (Node.quad1 r) (Node.quad2 r) (Node.quad3 r)
          Node.null (insertNew k (Node.quad1 r) obj (depth + 1)) Node.null Node.null []
      else if (Node.quad2 r).contains (GetArea obj) && decide (depth + 1 < MAX_DEPTH) then
        Node.mk r depth (Node.quad0 r) (Node.quad1 r) (Node.quad2 r) (Node.quad3 r)
          Node.null Node.null (insertNew k (Node.quad2 r) obj (depth + 1)) Node.null []
      else if (Node.quad3 r).contains (GetArea obj) && decide (depth + 1 < MAX_DEPTH) then
        Node.mk r depth (Node.quad0 r) (Node.quad1 r) (Node.quad2 r) (Node.quad3 r)
          Node.null Node.null Node.null (insertNew k (Node.quad3 r) obj (depth + 1)) []
      else
        Node.mk r depth (Node.quad0 r) (Node.quad1 r) (Node.quad2 r) (Node.quad3 r)
          Node.null Node.null Node.null Node.null [obj]

/-- Recursive `insert(node, r, obj, depth)`: the node after the call. The
quadrants are tried in the order 0, 1, 2, 3; the first one that contains the
object's area while `_depth + 1 < MAX_DEPTH` receives it (a null child slot is
filled with `Node(_vSubAreas[i], _depth + 1)` first); otherwise the object is
appended to `_vObjects`. -/
def insertNode : Node OBJ_T → Rect → OBJ_T → Nat → Node OBJ_T
  | Node.null, r, obj, depth => insertNew (MAX_DEPTH - depth) r obj depth
  | Node.mk area d s0 s1 s2 s3 n0 n1 n2 n3 objs, _, obj, _ =>
      if s0.contains (GetArea obj) && decide (d + 1 < MAX_DEPTH) then
        Node.mk area d s0 s1 s2 s3 (insertNode n0 s0 obj (d + 1)) n1 n2 n3 objs
      else if s1.contains (GetArea obj) && decide (d + 1 < MAX_DEPTH) then
        Node.mk area d s0 s1 s2 s3 n0 (insertNode n1 s1 obj (d + 1)) n2 n3 objs
      else if s2.contains (GetArea obj) && decide (d + 1 < MAX_DEPTH) then
        Node.mk area d s0 s1 s2 s3 n0 n1 (insertNode n2 s2 obj (d + 1)) n3 objs
      else if s3.contains (GetArea obj) && decide (d + 1 < MAX_DEPTH) then
        Node.mk area d s0 s1 s2 s3 n0 n1 n2 (insertNode n3 s3 obj (d + 1)) objs
      else
        Node.mk area d s0 s1 s2 s3 n0 n1 n2 n3 (objs ++ [obj])

/-- Recursive `search(node, r, result)`: the objects appended to `result`.
It is only ever called on a non-null node (the children are tested first);
the `null` case is the empty contribution of an absent child. -/
def searchNode : Node OBJ_T → Rect → List OBJ_T
  | Node.null, _ => []
  | Node.mk area _ s0 s1 s2 s3 n0 n1 n2 n3 objs, r =>
      if r.overlaps area then
        objs.filter (fun obj => r.overlaps (GetArea obj)) ++
        (Node.searchChild r s0 n0 (searchNode n0 r) ++
        (Node.searchChild r s1 n1 (searchNode n1 r) ++
        (Node.searchChild r s2 n2 (searchNode n2 r) ++
         Node.searchChild r s3 n3 (searchNode n3 r))))
      else []

end StaticQuadTree

/-- Models `class StaticQuadTree<OBJ_T>`: the members `_root` and `_area`. -/
structure StaticQuadTree (OBJ_T : Type) where
  root : Node OBJ_T
  area : Rect

namespace StaticQuadTree

variable {OBJ_T : Type} [SpatialObject OBJ_T]

/-- The constructor `StaticQuadTree()`: null root, default area
`{{0, 0}, {100, 100}}`. -/
def empty : StaticQuadTree OBJ_T := ⟨Node.null, ⟨⟨0, 0⟩, ⟨100, 100⟩⟩⟩

/-- Models `SetArea(r)`. -/
def SetArea (t : StaticQuadTree OBJ_T) (r : Rect) : StaticQuadTree OBJ_T := { t with area := r }

/-- Public `insert(obj)`: `insert(_root, _area, obj, 0)`. -/
def insert (t : StaticQuadTree OBJ_T) (obj : OBJ_T) : StaticQuadTree OBJ_T :=
  { t with root := insertNode t.root t.area obj 0 }

/-- Public `search(r)`: `search(_root, r, result)`; the recursive function
dereferences `_root` at once, so a null root has no defined result. -/
def search (t : StaticQuadTree OBJ_T) (r : Rect) : Option (List OBJ_T) :=
  if t.root.isSome then some (searchNode t.root r) else none

/-- Public `items()`. -/
def items (t : StaticQuadTree OBJ_T) : List OBJ_T := t.root.items

/-- Public `size()`: `size(_root)`, which dereferences `_root` at once. -/
def size (t : StaticQuadTree OBJ_T) : Option Nat :=
  if t.root.isSome then some t.root.size else none

/-- The tree over domain `area` after inserting `objs` in order. -/
def build (area : Rect) (objs : List OBJ_T) : StaticQuadTree OBJ_T :=
  objs.foldl insert (SetArea empty area)

/-- The traversal of `search(node, r, result)` with the branch
`if (r.contains(node->_vSubAreas[i])) items(node->_vSubNodes[i], result);`
taken out: a present child is always entered through the remaining test
`_vSubAreas[i].overlaps(r)` and its objects are tested one by one. -/
def searchNodeNoShortcut : Node OBJ_T → Rect → List OBJ_T
  | Node.null, _ => []
  | Node.mk area _ s0 s1 s2 s3 n0 n1 n2 n3 objs, r =>
      if r.overlaps area then
        objs.filter (fun obj => r.overlaps (GetArea obj)) ++
        (Node.searchChildNoShortcut r s0 n0 (searchNodeNoShortcut n0 r) ++
        (Node.searchChildNoShortcut r s1 n1 (searchNodeNoShortcut n1 r) ++
        (Node.searchChildNoShortcut r s2 n2 (searchNodeNoShortcut n2 r) ++
         Node.searchChildNoShortcut r s3 n3 (searchNodeNoShortcut n3 r))))
      else []

/-- Public `search(r)` over the traversal without the short-circuit. -/
def searchNoShortcut (t : StaticQuadTree OBJ_T) (r : Rect) : Option (List OBJ_T) :=
  if t.root.isSome then some (searchNodeNoShortcut t.root r) else none

end StaticQuadTree

/-! ## Uniform grid (main_trees.cpp) -/

/-- Models `GridTree::Node`: `_area`, `_cellSize`, `_cellCounts`, `_vCellAreas` and
`_vCellObjects`; cell `(x, y)` is entry `y * _cellCounts.x + x` of both
vectors. The member `_vCellNodes` is never written or read. -/
structure GridNode (T : Type) where
  area : Rect
  cellSize : Vec2
  cellCounts : Nat × Nat
  vCellAreas : List Rect
  vCellObjects : List (List T)

namespace GridNode

variable {T : Type}

/-- The cell size computed by the constructor:
`r.size.x / _cellCounts.x`, `r.size.y / _cellCounts.y`. -/
def cellSizeOf (r : Rect) (cellCounts : Nat × Nat) : Vec2 :=
  ⟨r.size.x / F32.ofNat cellCounts.1, r.size.y / F32.ofNat cellCounts.2⟩

/-- The area the constructor assigns to cell `(x, y)`:
`Rect(r.pos + {x * _cellSize.x, y * _cellSize.y}, _cellSize)`. -/
def cellArea (r : Rect) (cellCounts : Nat × Nat) (x y : Nat) : Rect :=
  ⟨r.pos.add ⟨F32.ofNat x * (cellSizeOf r cellCounts).x,
      F32.ofNat y * (cellSizeOf r cellCounts).y⟩,
   cellSizeOf r cellCounts⟩

/-- The constructor `Node(Rect& r, Vec2<size_t> cellCounts)`: the rows
`y = 0 .. cellCounts.y - 1` one after the other, each with
`x = 0 .. cellCounts.x - 1`, and as many empty object lists. -/
def make (r : Rect) (cellCounts : Nat × Nat) : GridNode T where
  area := r
  cellSize := cellSizeOf r cellCounts
  cellCounts := cellCounts
  vCellAreas :=
    (List.range cellCounts.2).flatMap fun y =>
      (List.range cellCounts.1).map fun x => cellArea r cellCounts x y
  vCellObjects := List.replicate (cellCounts.1 * cellCounts.2) []

/-- The cells cover the area: every point of `_area` (`Rect::contains(point)`)
is a point of some cell of `_vCellAreas`. -/
def Covers (n : GridNode T) : Prop :=
  ∀ p : Vec2, n.area.containsPoint p = true → ∃ c ∈ n.vCellAreas, c.containsPoint p = true

/-- Every cell of `_vCellAreas` has an extent the comparisons can see and lies
within the edges of `_area`. -/
def CellsInside (n : GridNode T) : Prop :=
  ∀ c ∈ n.vCellAreas, c.Spans ∧ c.Within n.area

instance (n : GridNode T) : Decidable n.CellsInside := by unfold CellsInside; infer_instance

end GridNode

/-- Models `class GridTree<OBJ_T>`: `_root` (`none` is the null pointer), `_area`
and `_cellCounts`. -/
structure GridTree (OBJ_T : Type) where
  root : Option (GridNode OBJ_T)
  area : Rect
  cellCounts : Nat × Nat

namespace GridTree

variable {OBJ_T : Type} [SpatialObject OBJ_T]

/-- The loop of the private `insert(node, obj)` on a non-null node: the object
is appended to the list of every cell that contains or overlaps its area. -/
def insertCells (node : GridNode OBJ_T) (obj : OBJ_T) : GridNode OBJ_T :=
  { node with
    vCellObjects :=
      List.zipWith
        (fun cell objs =>
          if cell.contains (GetArea obj) || cell.overlaps (GetArea obj) then objs ++ [obj]
          else objs)
        node.vCellAreas node.vCellObjects }

/-- The loop of the private `search(node, r, result)`: per cell, first all its
objects when `r.contains(cell)`, then (a second, independent `if`) the objects
with `r.overlaps(area) || r.contains(area)` when `r.overlaps(cell)`. -/
def searchCells (node : GridNode OBJ_T) (r : Rect) : List OBJ_T :=
  (List.zip node.vCellAreas node.vCellObjects).flatMap fun p =>
    (if r.contains p.1 then p.2 else []) ++
    (if r.overlaps p.1 then
       p.2.filter (fun obj => r.overlaps (GetArea obj) || r.contains (GetArea obj))
     else [])

/-- The constructor `GridTree()`: null root, default area, cell counts
`{0, 0}`. -/
def empty : GridTree OBJ_T := ⟨none, ⟨⟨0, 0⟩, ⟨100, 100⟩⟩, (0, 0)⟩

/-- Models `SetArea(r, cellCounts)`. -/
def SetArea (t : GridTree OBJ_T) (r : Rect) (cellCounts : Nat × Nat) : GridTree OBJ_T :=
  { t with area := r, cellCounts := cellCounts }

/-- Public `insert(obj)`: a null root is first built from `_area` and
`_cellCounts`. -/
def insert (t : GridTree OBJ_T) (obj : OBJ_T) : GridTree OBJ_T :=
  match t.root with
  | none => { t with root := some (insertCells (GridNode.make t.area t.cellCounts) obj) }
  | some node => { t with root := some (insertCells node obj) }

/-- Public `search(r)`; the private function dereferences `_root` at once. -/
def search (t : GridTree OBJ_T) (r : Rect) : Option (List OBJ_T) :=
  t.root.map fun node => searchCells node r

/-- Public `size()`: the sum of the cell list lengths, read through `_root`. -/
def size (t : GridTree OBJ_T) : Option Nat :=
  t.root.map fun node => (node.vCellObjects.map List.length).sum

/-- The grid over domain `area` with `cellCounts` cells after inserting `objs`
in order. -/
def build (area : Rect) (cellCounts : Nat × Nat) (objs : List OBJ_T) : GridTree OBJ_T :=
  objs.foldl insert (SetArea empty area cellCounts)

end GridTree

/-! ## K-d tree (main_trees.cpp) -/

/-- Models `KDTree::Node` behind a `std::shared_ptr`: `null` is the null pointer; `mk`
carries `_area`, `_object`, `_left`, `_right`, `_vRects[0]`, `_vRects[1]` and
`_depth`. -/
inductive KDNode (T : Type) where
  | null : KDNode T
  | mk (area : Rect) (object : T) (left right : KDNode T) (vRects0 vRects1 : Rect)
      (depth : Nat) : KDNode T

namespace KDNode

variable {T : Type}

/-- The constructor `Node(ob, r, d)`: no children; the two half rects are cut
at `ob.pos` along x for even depth and along y for odd depth. -/
def make [SpatialObject T] (ob : T) (r : Rect) (d : Nat) : KDNode T :=
  if d % 2 = 0 then
    mk r ob null null (r.leftRect (SpatialObject.pos ob)) (r.rightRect (SpatialObject.pos ob)) d
  else
    mk r ob null null (r.lowerRect (SpatialObject.pos ob)) (r.upperRect (SpatialObject.pos ob)) d

/-- Recursive `items(node, results)`. -/
def items : KDNode T → List T
  | null => []
  | mk _ ob l r _ _ _ => ob :: (items l ++ items r)

/-- Recursive `size(node)` on a non-null node: one for the node plus the sizes
of the non-null children. The `null` case (value 0) stands for a child that is
skipped. -/
def size : KDNode T → Nat
  | null => 0
  | mk _ _ l r _ _ _ => 1 + size l + size r

/-- The pointer is not null. -/
def isSome : KDNode T → Bool
  | null => false
  | mk .. => true

/-- The member `_left`; null below the null pointer. -/
def left : KDNode T → KDNode T
  | null => null
  | mk _ _ l _ _ _ _ => l

/-- The member `_vRects[0]` of a non-null node. -/
def vRects0 : KDNode T → Option Rect
  | null => none
  | mk _ _ _ _ v0 _ _ => some v0

/-- The member `_vRects[1]` of a non-null node. -/
def vRects1 : KDNode T → Option Rect
  | null => none
  | mk _ _ _ _ _ v1 _ => some v1

/-- At every node, along the split axis `_depth % 2`: the far edge
`pos + size` of `_vRects[0]`, as the comparisons compute it, is at or beyond the
coordinate of the node's object, and the far edge of `_vRects[1]` is at or
beyond the far edge of `_area`. The widths `point - pos` and
`pos + size - point` of the half rects are rounded, and so are the sums that
give the far edges; the test says that this rounding leaves no gap before the
split line or before the far edge of the area. -/
def halvesReach [SpatialObject T] : KDNode T → Bool
  | null => true
  | mk area ob l r v0 v1 d =>
      decide ((SpatialObject.pos ob).get (d % 2) ≤ v0.pos.get (d % 2) + v0.size.get (d % 2)) &&
      decide (area.pos.get (d % 2) + area.size.get (d % 2)
        ≤ v1.pos.get (d % 2) + v1.size.get (d % 2)) &&
      halvesReach l && halvesReach r

end KDNode

/-- Models `class KDTree<OBJ_T>`: `_root` and `_area`. -/
structure KDTree (OBJ_T : Type) where
  root : KDNode OBJ_T
  area : Rect

namespace KDTree

variable {OBJ_T : Type} [SpatialObject OBJ_T]

/-- Recursive `insert(node, r, ob, depth)`: the node after the call. -/
def insertNode : KDNode OBJ_T → Rect → OBJ_T → Nat → KDNode OBJ_T
  | KDNode.null, r, ob, depth => KDNode.make ob r depth
  | KDNode.mk area object left right v0 v1 d, _, ob, depth =>
      if (SpatialObject.pos ob).get (depth % 2) < (SpatialObject.pos object).get (depth % 2) then
        KDNode.mk area object (insertNode left v0 ob (depth + 1)) right v0 v1 d
      else
        KDNode.mk area object left (insertNode right v1 ob (depth + 1)) v0 v1 d

/-- Recursive `search(node, r, results)`: the objects appended to `results`. -/
def searchNode : KDNode OBJ_T → Rect → List OBJ_T
  | KDNode.null, _ => []
  | KDNode.mk _ object left right v0 v1 _, r =>
      (if r.overlaps (GetArea object) then [object] else []) ++
      ((if r.contains v0 then left.items
        else if r.overlaps v0 then searchNode left r else []) ++
       (if r.contains v1 then right.items
        else if r.overlaps v1 then searchNode right r else []))

/-- The constructor `KDTree()`. -/
def empty : KDTree OBJ_T := ⟨KDNode.null, ⟨⟨0, 0⟩, ⟨100, 100⟩⟩⟩

/-- Models `SetArea(r)`. -/
def SetArea (t : KDTree OBJ_T) (r : Rect) : KDTree OBJ_T := { t with area := r }

/-- Public `insert(ob)`: `insert(_root, _area, ob, 0)`. -/
def insert (t : KDTree OBJ_T) (ob : OBJ_T) : KDTree OBJ_T :=
  { t with root := insertNode t.root t.area ob 0 }

/-- Public `search(r)`; the recursive function returns at once on null. -/
def search (t : KDTree OBJ_T) (r : Rect) : List OBJ_T := searchNode t.root r

/-- Public `size()`: `size(_root)` reads `node->_left` whatever `node` is. -/
def size (t : KDTree OBJ_T) : Option Nat :=
  if t.root.isSome then some t.root.size else none

/-- The tree over domain `area` after inserting `objs` in order. -/
def build (area : Rect) (objs : List OBJ_T) : KDTree OBJ_T :=
  objs.foldl insert (SetArea empty area)

end KDTree

/-! ## Dynamic region quadtree (main_dynamicquadtree.cpp)

The top-level `std::list<ObjectListItem> _vObjects` is a list of records, each
with a `key` that stands for the identity of its list node: an iterator
`objType` (a handle) is such a key, and keys are never reused. A node of the
tree holds handles. The address `_pObjects` of a node's object list is the path
of child indices from the root to that node, and the iterator `_objIt` into
that list is identified by the handle held in the entry it points to. Using a
handle that is not live, or a back-reference that designates nothing, is
undefined behaviour in the source; `remove` returns `none` there. -/

/-- Models `ObjectInfo<objType>`: `_pObjects` and `_objIt`. -/
structure ObjectInfo where
  pObjects : List Nat
  objIt : Nat
deriving DecidableEq

/-- Models `ObjectListItem`: `_obj` and `_locationInTree`, with the identity `key` of
the list node that holds the record. -/
structure ObjectListItem (OBJ_T : Type) where
  key : Nat
  obj : OBJ_T
  locationInTree : ObjectInfo

/-- Models `class DynamicQuadTree<OBJ_T>`: `_vObjects`, `_root`, `_area`, and the next
unused list-node identity. -/
structure DynamicQuadTree (OBJ_T : Type) where
  vObjects : List (ObjectListItem OBJ_T)
  root : Node Nat
  area : Rect
  nextKey : Nat

namespace DynamicQuadTree

variable {OBJ_T : Type} [SpatialObject OBJ_T]

/-- Dereference of a handle, `obj->`: the record with that identity. -/
def deref (vObjects : List (ObjectListItem OBJ_T)) (h : Nat) : Option (ObjectListItem OBJ_T) :=
  vObjects.find? fun item => item.key == h

/-- Models `obj->_obj.GetArea()` for a handle `obj`. -/
def areaOf (vObjects : List (ObjectListItem OBJ_T)) (h : Nat) : Option Rect :=
  (deref vObjects h).map fun item => GetArea item.obj

/-- The handles of the live records, in list order. -/
def handles (t : DynamicQuadTree OBJ_T) : List Nat := t.vObjects.map fun item => item.key

/-- Recursive `insert(node, r, obj, depth)` on a null `node`, for the handle
`obj` whose `obj->_obj.GetArea()` is `a`: the new node and the path from it to
the node whose list received the handle. The first argument counts the levels
left below `MAX_DEPTH`, as in the static variant. -/
def insertNew : Nat → Rect → Nat → Rect → Nat → Node Nat × List Nat
  | 0, r, obj, _, depth =>
      (Node.mk r depth (Node.quad0 r) (Node.quad1 r) (Node.quad2 r) (Node.quad3 r)
        Node.null Node.null Node.null Node.null [obj], [])
  | k + 1, r, obj, a, depth =>
      if (Node.quad0 r).contains a && decide (depth + 1 < MAX_DEPTH) then
        (Node.mk r depth (Node.quad0 r) (Node.quad1 r) (Node.quad2 r) (Node.quad3 r)
          (insertNew k (Node.quad0 r) obj a (depth + 1)).1 Node.null Node.null Node.null [],
         0 :: (insertNew k (Node.quad0 r) obj a (depth + 1)).2)
      else if (Node.quad1 r).contains a && decide (depth + 1 < MAX_DEPTH) then
        (Node.mk r depth (Node.quad0 r) (Node.quad1 r) (Node.quad2 r) (Node.quad3 r)
          Node.null (insertNew k (Node.quad1 r) obj a (depth + 1)).1 Node.null Node.null [],
         1 :: (insertNew k (Node.quad1 r) obj a (depth + 1)).2)
      else if (Node.quad2 r).contains a && decide (depth + 1 < MAX_DEPTH) then
        (Node.mk r depth (Node.quad0 r) (Node.quad1 r) (Node.quad2 r) (Node.quad3 r)
          Node.null Node.null (insertNew k (Node.quad2 r) obj a (depth + 1)).1 Node.null [],
         2 :: (insertNew k (Node.quad2 r) obj a (depth + 1)).2)
      else if (Node.quad3 r).contains a && decide (depth + 1 < MAX_DEPTH) then
        (Node.mk r depth (Node.quad0 r) (Node.quad1 r) (Node.quad2 r) (Node.quad3 r)
          Node.null Node.null Node.null (insertNew k (Node.quad3 r) obj a (depth + 1)).1 [],
         3 :: (insertNew k (Node.quad3 r) obj a (depth + 1)).2)
      else
        (Node.mk r depth (Node.quad0 r) (Node.quad1 r) (Node.quad2 r) (Node.quad3 r)
          Node.null Node.null Node.null Node.null [obj], [])

/-- Recursive `insert(node, r, obj, depth)` for the handle `obj` whose
`obj->_obj.GetArea()` is `a`: the node after the call and the path from it to
the node whose `_vObjects` received the handle (at the back). -/
def insertNode : Node Nat → Rect → Nat → Rect → Nat → Node Nat × List Nat
  | Node.null, r, obj, a, depth => insertNew (MAX_DEPTH - depth) r obj a depth
  | Node.mk area d s0 s1 s2 s3 n0 n1 n2 n3 objs, _, obj, a, _ =>
      if s0.contains a && decide (d + 1 < MAX_DEPTH) then
        (Node.mk area d s0 s1 s2 s3 (insertNode n0 s0 obj a (d + 1)).1 n1 n2 n3 objs,
         0 :: (insertNode n0 s0 obj a (d + 1)).2)
      else if s1.contains a && decide (d + 1 < MAX_DEPTH) then
        (Node.mk area d s0 s1 s2 s3 n0 (insertNode n1 s1 obj a (d + 1)).1 n2 n3 objs,
         1 :: (insertNode n1 s1 obj a (d + 1)).2)
      else if s2.contains a && decide (d + 1 < MAX_DEPTH) then
        (Node.mk area d s0 s1 s2 s3 n0 n1 (insertNode n2 s2 obj a (d + 1)).1 n3 objs,
         2 :: (insertNode n2 s2 obj a (d + 1)).2)
      else if s3.contains a && decide (d + 1 < MAX_DEPTH) then
        (Node.mk area d s0 s1 s2 s3 n0 n1 n2 (insertNode n3 s3 obj a (d + 1)).1 objs,
         3 :: (insertNode n3 s3 obj a (d + 1)).2)
      else
        (Node.mk area d s0 s1 s2 s3 n0 n1 n2 n3 (objs ++ [obj]), [])

/-- The test `r.overlaps(obj->_obj.GetArea())` on a handle. -/
def hit (vObjects : List (ObjectListItem OBJ_T)) (r : Rect) (h : Nat) : Bool :=
  match areaOf vObjects h with
  | some a => r.overlaps a
  | none => false

/-- Recursive `search(node, r, result)`: the handles appended to `result`. -/
def searchNode (vObjects : List (ObjectListItem OBJ_T)) : Node Nat → Rect → List Nat
  | Node.null, _ => []
  | Node.mk area _ s0 s1 s2 s3 n0 n1 n2 n3 objs, r =>
      if r.overlaps area then
        objs.filter (fun obj => hit vObjects r obj) ++
        (Node.searchChild r s0 n0 (searchNode vObjects n0 r) ++
        (Node.searchChild r s1 n1 (searchNode vObjects n1 r) ++
        (Node.searchChild r s2 n2 (searchNode vObjects n2 r) ++
         Node.searchChild r s3 n3 (searchNode vObjects n3 r))))
      else []

/-- Models `_pObjects->erase(_objIt)`: the entry holding handle `h` is taken out of the
object list of the node at `path`; `none` when the path leads to no node or the
list has no such entry. -/
def eraseAt : Node Nat → List Nat → Nat → Option (Node Nat)
  | Node.null, _, _ => none
  | Node.mk area d s0 s1 s2 s3 n0 n1 n2 n3 objs, [], h =>
      if h ∈ objs then some (Node.mk area d s0 s1 s2 s3 n0 n1 n2 n3 (objs.erase h)) else none
  | Node.mk area d s0 s1 s2 s3 n0 n1 n2 n3 objs, i :: path, h =>
      if i = 0 then (eraseAt n0 path h).map fun n => Node.mk area d s0 s1 s2 s3 n n1 n2 n3 objs
      else if i = 1 then (eraseAt n1 path h).map fun n => Node.mk area d s0 s1 s2 s3 n0 n n2 n3 objs
      else if i = 2 then (eraseAt n2 path h).map fun n => Node.mk area d s0 s1 s2 s3 n0 n1 n n3 objs
      else if i = 3 then (eraseAt n3 path h).map fun n => Node.mk area d s0 s1 s2 s3 n0 n1 n2 n objs
      else none

/-- The constructor `DynamicQuadTree()`. -/
def empty : DynamicQuadTree OBJ_T := ⟨[], Node.null, ⟨⟨0, 0⟩, ⟨100, 100⟩⟩, 0⟩

/-- Models `SetArea(r)`. -/
def SetArea (t : DynamicQuadTree OBJ_T) (r : Rect) : DynamicQuadTree OBJ_T := { t with area := r }

/-- Public `insert(obj)`: a record for `obj` is appended to `_vObjects`, its
handle is inserted into the tree from the root, and the returned location is
stored in the record. -/
def insert (t : DynamicQuadTree OBJ_T) (obj : OBJ_T) : DynamicQuadTree OBJ_T :=
  { t with
    vObjects := t.vObjects ++
      [⟨t.nextKey, obj, ⟨(insertNode t.root t.area t.nextKey (GetArea obj) 0).2, t.nextKey⟩⟩]
    root := (insertNode t.root t.area t.nextKey (GetArea obj) 0).1
    nextKey := t.nextKey + 1 }

/-- Public `remove(objType& obj)`: the entry designated by the record's
back-reference is erased from its node list, then the record is erased from
`_vObjects`. -/
def remove (t : DynamicQuadTree OBJ_T) (h : Nat) : Option (DynamicQuadTree OBJ_T) :=
  match deref t.vObjects h with
  | none => none
  | some item =>
      match eraseAt t.root item.locationInTree.pObjects item.locationInTree.objIt with
      | none => none
      | some root =>
          some { t with root := root, vObjects := t.vObjects.filter fun it => it.key != h }

/-- Public `search(r)`: handles; the recursive function dereferences `_root`
at once. -/
def search (t : DynamicQuadTree OBJ_T) (r : Rect) : Option (List Nat) :=
  if t.root.isSome then some (searchNode t.vObjects t.root r) else none

/-- Public `size()`: `size(_root)`. -/
def size (t : DynamicQuadTree OBJ_T) : Option Nat :=
  if t.root.isSome then some t.root.size else none

/-- The tree over domain `area` after inserting `objs` in order. -/
def build (area : Rect) (objs : List OBJ_T) : DynamicQuadTree OBJ_T :=
  objs.foldl insert (SetArea empty area)

/-- Removal of the handles `hs` one after the other; `none` as soon as one
removal is undefined. -/
def removeAll (t : DynamicQuadTree OBJ_T) : List Nat → Option (DynamicQuadTree OBJ_T)
  | [] => some t
  | h :: hs => (remove t h).bind fun t1 => removeAll t1 hs

/-- The states reached from a fresh tree over some domain by inserts and by
removals of live handles. -/
inductive Reachable : DynamicQuadTree OBJ_T → Prop where
  | init (area : Rect) : Reachable (SetArea empty area)
  | insert {t : DynamicQuadTree OBJ_T} (obj : OBJ_T) : Reachable t → Reachable (insert t obj)
  | remove {t t1 : DynamicQuadTree OBJ_T} (h : Nat) :
      Reachable t → h ∈ handles t → remove t h = some t1 → Reachable t1

/-- The object list of the node at `path` below `node`, when there is one. -/
def listAt : Node Nat → List Nat → Option (List Nat)
  | Node.null, _ => none
  | Node.mk _ _ _ _ _ _ _ _ _ _ objs, [] => some objs
  | Node.mk _ _ _ _ _ _ n0 n1 n2 n3 _, i :: path =>
      if i = 0 then listAt n0 path
      else if i = 1 then listAt n1 path
      else if i = 2 then listAt n2 path
      else if i = 3 then listAt n3 path
      else none

end DynamicQuadTree

/-! ## Invariants of the region quadtree -/

namespace Node

variable {T : Type}

/-- The area of a non-null node is `s`. -/
def AreaIs : Node T → Rect → Prop
  | null, _ => True
  | mk area _ _ _ _ _ _ _ _ _ _, s => area = s

/-- Every object below child `i` of a node has its area contained
(`Rect::contains`) in `_vSubAreas[i]`, at every node of the tree. -/
def SubIn [SpatialObject T] : Node T → Prop
  | null => True
  | mk _ _ s0 s1 s2 s3 n0 n1 n2 n3 _ =>
      ((∀ o ∈ n0.items, s0.contains (GetArea o) = true) ∧ SubIn n0) ∧
      ((∀ o ∈ n1.items, s1.contains (GetArea o) = true) ∧ SubIn n1) ∧
      ((∀ o ∈ n2.items, s2.contains (GetArea o) = true) ∧ SubIn n2) ∧
      ((∀ o ∈ n3.items, s3.contains (GetArea o) = true) ∧ SubIn n3)

/-- The shape the constructor and `insert` give a tree: the four sub-areas are
the quadrants of the node's area, a child's area is the sub-area of its slot,
and a child that exists holds at least one object in its subtree. -/
def Shaped : Node T → Prop
  | null => True
  | mk area _ s0 s1 s2 s3 n0 n1 n2 n3 _ =>
      (s0 = quad0 area ∧ s1 = quad1 area ∧ s2 = quad2 area ∧ s3 = quad3 area) ∧
      (AreaIs n0 s0 ∧ (n0.isSome = true → n0.items ≠ []) ∧ Shaped n0) ∧
      (AreaIs n1 s1 ∧ (n1.isSome = true → n1.items ≠ []) ∧ Shaped n1) ∧
      (AreaIs n2 s2 ∧ (n2.isSome = true → n2.items ≠ []) ∧ Shaped n2) ∧
      (AreaIs n3 s3 ∧ (n3.isSome = true → n3.items ≠ []) ∧ Shaped n3)

end Node

namespace StaticQuadTree

variable {OBJ_T : Type} [SpatialObject OBJ_T]

/-- A subtree all of whose objects the query contains is reported in full by
the traversal without the short-circuit (stated for the induction over the
subtree). -/
def FullyReported (r : Rect) (n : Node OBJ_T) : Prop :=
  n.Shaped → n.SubIn → (∀ o ∈ n.items, (GetArea o).Spans) →
    ∀ s, n.AreaIs s → (∀ o ∈ n.items, s.contains (GetArea o) = true) → n.items ≠ [] →
      (∀ o ∈ n.items, r.contains (GetArea o) = true) → searchNodeNoShortcut n r = n.items

end StaticQuadTree

/-! ## Invariant of the dynamic quadtree -/

namespace Node

variable {T : Type}

/-- The tree with every node's object list filtered by `p`; the nodes
themselves stay. -/
def filterObjs (p : T → Bool) : Node T → Node T
  | null => null
  | mk area d s0 s1 s2 s3 n0 n1 n2 n3 objs =>
      mk area d s0 s1 s2 s3 (filterObjs p n0) (filterObjs p n1) (filterObjs p n2)
        (filterObjs p n3) (objs.filter p)

end Node

namespace DynamicQuadTree

variable {OBJ_T : Type} [SpatialObject OBJ_T]

/-- What holds in every state reached by inserts and removals of live handles:
live handles are pairwise distinct and below `nextKey`; no handle sits twice in
the tree; every handle in the tree is live; and every live record's
back-reference designates a node list with an entry for that record. -/
structure Inv (t : DynamicQuadTree OBJ_T) : Prop where
  nodupHandles : (handles t).Nodup
  fresh : ∀ h ∈ handles t, h < t.nextKey
  nodupItems : t.root.items.Nodup
  live : ∀ h ∈ t.root.items, h ∈ handles t
  backRef : ∀ item ∈ t.vObjects,
    item.locationInTree.objIt = item.key ∧
      ∃ l, listAt t.root item.locationInTree.pObjects = some l ∧ item.key ∈ l

end DynamicQuadTree

/-! ## Contents of the grid cells -/

namespace GridNode

variable {T : Type} [SpatialObject T]

/-- The grid node over `r` in which every cell lists, in order, the objects of
`objs` whose area the cell contains or overlaps. -/
def filled (r : Rect) (cellCounts : Nat × Nat) (objs : List T) : GridNode T :=
  { (make r cellCounts : GridNode T) with
    vCellObjects :=
      (make r cellCounts : GridNode T).vCellAreas.map fun cell =>
        objs.filter fun o => cell.contains (GetArea o) || cell.overlaps (GetArea o) }

end GridNode

/-! ## Invariant of the k-d tree -/

namespace KDNode

variable {T : Type} [SpatialObject T]

/-- A tree as `insert` builds it below a slot with area `A` at depth `dep`:
the node records `A` and `dep`, its two half rects are those the constructor
computes, its object's position lies in `A` (`Rect::contains(point)`), every
object of the subtree on a side has its position in the half rect of that
side, and the children are built the same way below the half rects. -/
def Inv : KDNode T → Rect → Nat → Prop
  | null, _, _ => True
  | mk area ob l r v0 v1 d, A, dep =>
      area = A ∧ d = dep ∧
      v0 = (if dep % 2 = 0 then A.leftRect (SpatialObject.pos ob)
            else A.lowerRect (SpatialObject.pos ob)) ∧
      v1 = (if dep % 2 = 0 then A.rightRect (SpatialObject.pos ob)
            else A.upperRect (SpatialObject.pos ob)) ∧
      A.containsPoint (SpatialObject.pos ob) = true ∧
      (∀ o ∈ l.items, v0.containsPoint (SpatialObject.pos o) = true) ∧
      (∀ o ∈ r.items, v1.containsPoint (SpatialObject.pos o) = true) ∧
      Inv l v0 (dep + 1) ∧ Inv r v1 (dep + 1)

/-- At every node, every object of the subtree on a side has its position at
or after the origin of the half rect of that side, on both axes. -/
def OriginBelow : KDNode T → Prop
  | null => True
  | mk _ _ l r v0 v1 _ =>
      (∀ o ∈ l.items, v0.pos.x ≤ (SpatialObject.pos o).x ∧ v0.pos.y ≤ (SpatialObject.pos o).y) ∧
      (∀ o ∈ r.items, v1.pos.x ≤ (SpatialObject.pos o).x ∧ v1.pos.y ≤ (SpatialObject.pos o).y) ∧
      OriginBelow l ∧ OriginBelow r

end KDNode

/-- The position lies in the closed rectangle `r`:
`r.pos ≤ p ≤ r.pos + r.size` on both axes. -/
def Rect.ClosedHas (r : Rect) (p : Vec2) : Prop :=
  r.pos.x ≤ p.x ∧ p.x ≤ r.pos.x + r.size.x ∧ r.pos.y ≤ p.y ∧ p.y ≤ r.pos.y + r.size.y

instance (r : Rect) (p : Vec2) : Decidable (r.ClosedHas p) := by
  unfold Rect.ClosedHas; infer_instance

/-! ## Correspondence between the dynamic and the static quadtree -/

namespace DynamicQuadTree

variable {OBJ_T : Type}

/-- The object a handle refers to, `obj->_obj`, when the handle is live. -/
def objOf (vObjects : List (ObjectListItem OBJ_T)) (h : Nat) : Option OBJ_T :=
  (deref vObjects h).map fun item => item.obj

end DynamicQuadTree

namespace Node

variable {T : Type}

/-- A tree of handles and a tree of objects are the same tree up to `f`, which
sends a handle to the object it refers to: same nodes, areas, depths and
sub-areas, and node by node the handles refer, in order, to the objects. -/
def Corr (f : Nat → Option T) : Node Nat → Node T → Prop
  | null, null => True
  | mk a d s0 s1 s2 s3 c0 c1 c2 c3 objs, mk a1 d1 t0 t1 t2 t3 e0 e1 e2 e3 objs1 =>
      a = a1 ∧ d = d1 ∧ s0 = t0 ∧ s1 = t1 ∧ s2 = t2 ∧ s3 = t3 ∧
      objs.map f = objs1.map some ∧
      Corr f c0 e0 ∧ Corr f c1 e1 ∧ Corr f c2 e2 ∧ Corr f c3 e3
  | null, mk .. => False
  | mk .., null => False

end Node

/-! ## Paths, levels and placement in the region quadtree -/

namespace Node

variable {T : Type}

/-- The child pointer `_vSubNodes[i]`; null below a null node and for an index
that is not 0, 1, 2 or 3. -/
def child : Node T → Nat → Node T
  | null, _ => null
  | mk _ _ _ _ _ _ c0 c1 c2 c3 _, i =>
      if i = 0 then c0 else if i = 1 then c1 else if i = 2 then c2 else if i = 3 then c3
      else null

/-- The sub-area `_vSubAreas[i]` of a non-null node. -/
def subArea : Node T → Nat → Option Rect
  | null, _ => none
  | mk _ _ s0 s1 s2 s3 _ _ _ _ _, i =>
      if i = 0 then some s0 else if i = 1 then some s1 else if i = 2 then some s2
      else if i = 3 then some s3 else none

/-- The node reached from `n` by following the child indices of `path`; null
when the path leaves the tree. -/
def nodeAt : Node T → List Nat → Node T
  | n, [] => n
  | n, i :: path => nodeAt (child n i) path

/-- The object list `_vObjects` of a node; empty for the null pointer. -/
def objects : Node T → List T
  | null => []
  | mk _ _ _ _ _ _ _ _ _ _ objs => objs

/-- Every step of `path` from `n` enters a quadrant whose sub-area contains
(`Rect::contains`) the rect `a`. -/
def Descends (a : Rect) : Node T → List Nat → Prop
  | _, [] => True
  | n, i :: path =>
      (∃ s, subArea n i = some s ∧ s.contains a = true) ∧ Descends a (child n i) path

/-- The node is one at which `insert` stops for bounds `a`: it exists, and
either its depth plus one is `MAX_DEPTH` or none of its four sub-areas contains
`a`. -/
def Rests (a : Rect) : Node T → Prop
  | null => False
  | mk _ d s0 s1 s2 s3 _ _ _ _ _ =>
      d + 1 = MAX_DEPTH ∨
        (s0.contains a = false ∧ s1.contains a = false ∧ s2.contains a = false ∧
          s3.contains a = false)

/-- Below a slot at level `d`: the node records depth `d`, `d` is at most
`MAX_DEPTH - 1`, and the children are at level `d + 1`. -/
def Levelled : Node T → Nat → Prop
  | null, _ => True
  | mk _ depth _ _ _ _ c0 c1 c2 c3 _, d =>
      depth = d ∧ d + 1 ≤ MAX_DEPTH ∧
      Levelled c0 (d + 1) ∧ Levelled c1 (d + 1) ∧ Levelled c2 (d + 1) ∧ Levelled c3 (d + 1)

/-- Every stored object rests where `insert` stops for it: at each node, an
object of the node's list that some sub-area of the node contains sits at depth
`MAX_DEPTH - 1`. -/
def Settled [SpatialObject T] : Node T → Prop
  | null => True
  | mk _ d s0 s1 s2 s3 c0 c1 c2 c3 objs =>
      (∀ o ∈ objs,
        (s0.contains (GetArea o) = true ∨ s1.contains (GetArea o) = true ∨
          s2.contains (GetArea o) = true ∨ s3.contains (GetArea o) = true) →
        d + 1 = MAX_DEPTH) ∧
      Settled c0 ∧ Settled c1 ∧ Settled c2 ∧ Settled c3

/-- The tree without its object lists: the nodes with their areas, depths,
sub-areas and child slots. -/
def skeleton : Node T → Node Unit
  | null => null
  | mk a d s0 s1 s2 s3 c0 c1 c2 c3 _ =>
      mk a d s0 s1 s2 s3 (skeleton c0) (skeleton c1) (skeleton c2) (skeleton c3) []

end Node

/-! ## Ordering in the k-d tree -/

namespace KDNode

variable {T : Type} [SpatialObject T]

/-- Below a slot at depth `dep`: the node records depth `dep`; along the axis
`dep % 2` every object of the left subtree lies strictly before the node's
object and every object of the right subtree lies at or after it; and the
children are ordered the same way at depth `dep + 1`. -/
def Ordered : KDNode T → Nat → Prop
  | null, _ => True
  | mk _ ob l r _ _ d, dep =>
      d = dep ∧
      (∀ o ∈ l.items,
        (SpatialObject.pos o).get (dep % 2) < (SpatialObject.pos ob).get (dep % 2)) ∧
      (∀ o ∈ r.items,
        (SpatialObject.pos ob).get (dep % 2) ≤ (SpatialObject.pos o).get (dep % 2)) ∧
      Ordered l (dep + 1) ∧ Ordered r (dep + 1)

end KDNode

/-! ## Half rects and closed containment in the k-d tree -/

namespace KDNode

variable {T : Type} [SpatialObject T]

/-- Below a slot that hands down area `A` at depth `dep`: the node records
area `A` and depth `dep`; its two half rects are `A` cut at the object's
position, `leftRect` and `rightRect` for even depth, `lowerRect` and
`upperRect` for odd depth; and each child is built the same way below the half
rect of its side, at depth `dep + 1`. -/
def Split : KDNode T → Rect → Nat → Prop
  | null, _, _ => True
  | mk area ob l r v0 v1 d, A, dep =>
      area = A ∧ d = dep ∧
      v0 = (if dep % 2 = 0 then A.leftRect (SpatialObject.pos ob)
            else A.lowerRect (SpatialObject.pos ob)) ∧
      v1 = (if dep % 2 = 0 then A.rightRect (SpatialObject.pos ob)
            else A.upperRect (SpatialObject.pos ob)) ∧
      Split l v0 (dep + 1) ∧ Split r v1 (dep + 1)

/-- Below a slot that hands down area `A`: the node's area is `A` and its
object's position lies in the closed rectangle `A`; both half rects have
non-negative size; every object of the subtree on a side has its position in
the closed half rect of that side; and the same holds below each child, whose
slot hands down the half rect of its side. -/
def ClosedInv : KDNode T → Rect → Prop
  | null, _ => True
  | mk area ob l r v0 v1 _, A =>
      area = A ∧ A.ClosedHas (SpatialObject.pos ob) ∧ v0.NonNegSize ∧ v1.NonNegSize ∧
      (∀ o ∈ l.items, v0.ClosedHas (SpatialObject.pos o)) ∧
      (∀ o ∈ r.items, v1.ClosedHas (SpatialObject.pos o)) ∧
      ClosedInv l v0 ∧ ClosedInv r v1

end KDNode

/-! ## The quadrant loop of `insert` run in another order

`insertNodeOrd ord` is `insertNode` with the loop `for (int i = 0; i < 4; i++)`
visiting the indices in the order `ord`; it is compared with `insertNode`, the
embedding of the source. -/

namespace StaticQuadTree

variable {OBJ_T : Type} [SpatialObject OBJ_T]

/-- The first index of `ord` whose sub-area contains `a` while
`d + 1 < MAX_DEPTH`: the quadrant a loop over `ord` descends into. -/
def firstFit (ord : List Nat) (s0 s1 s2 s3 a : Rect) (d : Nat) : Option Nat :=
  ord.find? fun i =>
    (if i = 0 then s0 else if i = 1 then s1 else if i = 2 then s2 else s3).contains a &&
      decide (d + 1 < MAX_DEPTH)

/-- The variant of `insertNew` whose loop visits the quadrants in the order
`ord`. -/
def insertNewOrd (ord : List Nat) : Nat → Rect → OBJ_T → Nat → Node OBJ_T
  | 0, r, obj, depth =>
      Node.mk r depth (Node.quad0 r) (Node.quad1 r) (Node.quad2 r) (Node.quad3 r)
        Node.null Node.null Node.null Node.null [obj]
  | k + 1, r, obj, depth =>
      if firstFit ord (Node.quad0 r) (Node.quad1 r) (Node.quad2 r) (Node.quad3 r)
          (GetArea obj) depth = some 0 then
        Node.mk r depth (Node.quad0 r) (Node.quad1 r) (Node.quad2 r) (Node.quad3 r)
          (insertNewOrd ord k (Node.quad0 r) obj (depth + 1)) Node.null Node.null Node.null []
      else if firstFit ord (Node.quad0 r) (Node.quad1 r) (Node.quad2 r) (Node.quad3 r)
          (GetArea obj) depth = some 1 then
        Node.mk r depth (Node.quad0 r) (Node.quad1 r) (Node.quad2 r) (Node.quad3 r)
          Node.null (insertNewOrd ord k (Node.quad1 r) obj (depth + 1)) Node.null Node.null []
      else if firstFit ord (Node.quad0 r) (Node.quad1 r) (Node.quad2 r) (Node.quad3 r)
          (GetArea obj) depth = some 2 then
        Node.mk r depth (Node.quad0 r) (Node.quad1 r) (Node.quad2 r) (Node.quad3 r)
          Node.null Node.null (insertNewOrd ord k (Node.quad2 r) obj (depth + 1)) Node.null []
      else if firstFit ord (Node.quad0 r) (Node.quad1 r) (Node.quad2 r) (Node.quad3 r)
          (GetArea obj) depth = some 3 then
        Node.mk r depth (Node.quad0 r) (Node.quad1 r) (Node.quad2 r) (Node.quad3 r)
          Node.null Node.null Node.null (insertNewOrd ord k (Node.quad3 r) obj (depth + 1)) []
      else
        Node.mk r depth (Node.quad0 r) (Node.quad1 r) (Node.quad2 r) (Node.quad3 r)
          Node.null Node.null Node.null Node.null [obj]

/-- The variant of `insertNode` whose loop visits the quadrants in the order
`ord`. -/
def insertNodeOrd (ord : List Nat) : Node OBJ_T → Rect → OBJ_T → Nat → Node OBJ_T
  | Node.null, r, obj, depth => insertNewOrd ord (MAX_DEPTH - depth) r obj depth
  | Node.mk area d s0 s1 s2 s3 n0 n1 n2 n3 objs, _, obj, _ =>
      if firstFit ord s0 s1 s2 s3 (GetArea obj) d = some 0 then
        Node.mk area d s0 s1 s2 s3 (insertNodeOrd ord n0 s0 obj (d + 1)) n1 n2 n3 objs
      else if firstFit ord s0 s1 s2 s3 (GetArea obj) d = some 1 then
        Node.mk area d s0 s1 s2 s3 n0 (insertNodeOrd ord n1 s1 obj (d + 1)) n2 n3 objs
      else if firstFit ord s0 s1 s2 s3 (GetArea obj) d = some 2 then
        Node.mk area d s0 s1 s2 s3 n0 n1 (insertNodeOrd ord n2 s2 obj (d + 1)) n3 objs
      else if firstFit ord s0 s1 s2 s3 (GetArea obj) d = some 3 then
        Node.mk area d s0 s1 s2 s3 n0 n1 n2 (insertNodeOrd ord n3 s3 obj (d + 1)) objs
      else
        Node.mk area d s0 s1 s2 s3 n0 n1 n2 n3 (objs ++ [obj])

/-- The variant of the public `insert(obj)` over `insertNodeOrd`. -/
def insertOrd (ord : List Nat) (t : StaticQuadTree OBJ_T) (obj : OBJ_T) : StaticQuadTree OBJ_T :=
  { t with root := insertNodeOrd ord t.root t.area obj 0 }

end StaticQuadTree

/-! ## Trees up to the order of the node lists -/

namespace Node

variable {T : Type}

/-- The two trees have the same nodes (areas, depths, sub-areas, child slots)
and, node by node, object lists that are permutations of each other. -/
def PermEq : Node T → Node T → Prop
  | null, null => True
  | mk a d s0 s1 s2 s3 c0 c1 c2 c3 objs, mk a1 d1 t0 t1 t2 t3 e0 e1 e2 e3 objs1 =>
      a = a1 ∧ d = d1 ∧ s0 = t0 ∧ s1 = t1 ∧ s2 = t2 ∧ s3 = t3 ∧ objs.Perm objs1 ∧
      PermEq c0 e0 ∧ PermEq c1 e1 ∧ PermEq c2 e2 ∧ PermEq c3 e3
  | null, mk .. => False
  | mk .., null => False

end Node

namespace StaticQuadTree

variable {OBJ_T : Type} [SpatialObject OBJ_T]

/-- The slot the quadrant loop of `insert` chooses for `o` at a node with area
`r` and depth `d`: the first index 0..3 whose quadrant contains the object's
area while `d + 1 < MAX_DEPTH`, and 4 when the object stays at the node. -/
def slot (r : Rect) (d : Nat) (o : OBJ_T) : Nat :=
  if (Node.quad0 r).contains (GetArea o) && decide (d + 1 < MAX_DEPTH) then 0
  else if (Node.quad1 r).contains (GetArea o) && decide (d + 1 < MAX_DEPTH) then 1
  else if (Node.quad2 r).contains (GetArea o) && decide (d + 1 < MAX_DEPTH) then 2
  else if (Node.quad3 r).contains (GetArea o) && decide (d + 1 < MAX_DEPTH) then 3
  else 4

/-- The tree that holds the objects `l` below a slot with area `r` at depth `d`,
described top-down: no node for no objects; otherwise a node that keeps the
objects of slot 4 and has, for each quadrant, the tree of the objects of that
slot. The first argument counts the levels left, as in `insertNew`. It is the
tree `insert` builds from `l` (proved below) and serves to compare two insert
orders. -/
def canon : Nat → Rect → Nat → List OBJ_T → Node OBJ_T
  | 0, r, d, l =>
      if l.isEmpty then Node.null
      else Node.mk r d (Node.quad0 r) (Node.quad1 r) (Node.quad2 r) (Node.quad3 r)
        Node.null Node.null Node.null Node.null l
  | k + 1, r, d, l =>
      if l.isEmpty then Node.null
      else Node.mk r d (Node.quad0 r) (Node.quad1 r) (Node.quad2 r) (Node.quad3 r)
        (canon k (Node.quad0 r) (d + 1) (l.filter fun o => decide (slot r d o = 0)))
        (canon k (Node.quad1 r) (d + 1) (l.filter fun o => decide (slot r d o = 1)))
        (canon k (Node.quad2 r) (d + 1) (l.filter fun o => decide (slot r d o = 2)))
        (canon k (Node.quad3 r) (d + 1) (l.filter fun o => decide (slot r d o = 3)))
        (l.filter fun o => decide (slot r d o = 4))

end StaticQuadTree

/-! ## Concrete inputs -/

namespace Example

/-- The domain `{{0, 0}, {100, 100}}`. -/
def domain : Rect := ⟨⟨0, 0⟩, ⟨100, 100⟩⟩

/-- Circle at `(10, 10)` with radius 5. -/
def objA : CObject := ⟨⟨10, 10⟩, 5⟩

/-- Circle at `(90, 90)` with radius 5. -/
def objB : CObject := ⟨⟨90, 90⟩, 5⟩

/-- Circle at `(55, 55)` with radius 5: area `{{50, 50}, {10, 10}}`. -/
def objTouch : CObject := ⟨⟨55, 55⟩, 5⟩

/-- Circle at `(0, 0)` with radius 0: area `{{0, 0}, {0, 0}}`. -/
def objPoint : CObject := ⟨⟨0, 0⟩, 0⟩

/-- The query `{{0, 0}, {50, 50}}`. -/
def queryHalf : Rect := ⟨⟨0, 0⟩, ⟨50, 50⟩⟩

/-- The query `{{0, 0}, {60, 60}}`. -/
def querySixty : Rect := ⟨⟨0, 0⟩, ⟨60, 60⟩⟩

/-- The query `{{0, 0}, {20, 20}}`. -/
def queryTwenty : Rect := ⟨⟨0, 0⟩, ⟨20, 20⟩⟩

/-- Circle at `(50, 50)` with radius 5. -/
def objMid : CObject := ⟨⟨50, 50⟩, 5⟩

/-- Circle at `(48, 50)` with radius 5: area `{{43, 45}, {10, 10}}`. -/
def objLeft : CObject := ⟨⟨48, 50⟩, 5⟩

/-- The query `{{51, 40}, {10, 20}}`. -/
def queryRight : Rect := ⟨⟨51, 40⟩, ⟨10, 20⟩⟩

/-- The query `{{0, 0}, {60, 110}}`. -/
def queryTall : Rect := ⟨⟨0, 0⟩, ⟨60, 110⟩⟩

/-- An object that is the rect `{{0, 45}, {0, 10}}`: zero width, height 10. -/
def objSliver : Rect := ⟨⟨0, 45⟩, ⟨0, 10⟩⟩

/-- An object that is the rect `{{10, 45}, {10, 10}}`. -/
def objBox : Rect := ⟨⟨10, 45⟩, ⟨10, 10⟩⟩

/-- The query `{{-10, 40}, {20, 20}}`. -/
def queryEdge : Rect := ⟨⟨-10, 40⟩, ⟨20, 20⟩⟩

/-- The query `{{0, 0}, {100, 100}}`, the whole domain. -/
def queryAll : Rect := ⟨⟨0, 0⟩, ⟨100, 100⟩⟩

/-- The query `{{10, 10}, {0, 0}}` of size zero at the centre of circle A. -/
def queryPointA : Rect := ⟨⟨10, 10⟩, ⟨0, 0⟩⟩

/-- The query `{{70, 70}, {0, 0}}` of size zero, inside no stored bounds. -/
def queryPointFree : Rect := ⟨⟨70, 70⟩, ⟨0, 0⟩⟩

/-- Circle at `(1, 1)` with radius 5: area `{{-4, -4}, {10, 10}}`, which sticks
out of the domain. -/
def objNearCorner : CObject := ⟨⟨1, 1⟩, 5⟩

/-- The query `{{-10, -10}, {8, 8}}`, left of and above the domain. -/
def queryOutside : Rect := ⟨⟨-10, -10⟩, ⟨8, 8⟩⟩

/-- An object that is the rect `{{10, 10}, {10, 10}}`, in the interior of the
first cell of the 2 x 2 grid. -/
def objInner : Rect := ⟨⟨10, 10⟩, ⟨10, 10⟩⟩

/-- The rect `{{0, 0}, {10, 10}}`. -/
def rectWest : Rect := ⟨⟨0, 0⟩, ⟨10, 10⟩⟩

/-- The rect `{{10, 0}, {10, 10}}`, whose left edge is the right edge of
`rectWest`. -/
def rectEast : Rect := ⟨⟨10, 0⟩, ⟨10, 10⟩⟩

/-- Circle at `(100, 100)` with radius 5: its position is the far corner of
the domain, in the closed domain but not in the half-open one. -/
def objFarCorner : CObject := ⟨⟨100, 100⟩, 5⟩

/-- The rect `{{-50, -50}, {30, 30}}`, away from the domain. -/
def areaElsewhere : Rect := ⟨⟨-50, -50⟩, ⟨30, 30⟩⟩

/-- Circle at `(50, 50)` with radius `5e-8f`: the bounds `{{50, 50}, {1e-7, 1e-7}}`
have positive size, and `50 + 1e-7` rounds to `50`. -/
def objSpeck : CObject := ⟨⟨50, 50⟩, F32.ofRat (1 / 20000000)⟩

/-- The query `{{50, 50}, {60, 60}}`. -/
def queryCorner : Rect := ⟨⟨50, 50⟩, ⟨60, 60⟩⟩

/-- The query `{{50, -10}, {60, 120}}`. -/
def queryStrip : Rect := ⟨⟨50, -10⟩, ⟨60, 120⟩⟩

/-- The rect `{{50, 50}, {50, 50}}`, the bottom-right quadrant of the domain. -/
def rectQuarter : Rect := ⟨⟨50, 50⟩, ⟨50, 50⟩⟩

/-- The rect `{{50, 50}, {1e-7f, 1e-7f}}`: positive size that the sum
`pos + size` absorbs. -/
def rectSpeck : Rect := ⟨⟨50, 50⟩, ⟨F32.ofRat (1 / 10000000), F32.ofRat (1 / 10000000)⟩⟩

/-- The domain `{{-2^24, 0}, {2^25, 100}}`. -/
def domainWide : Rect := ⟨⟨-16777216, 0⟩, ⟨33554432, 100⟩⟩

/-- Circle at `(0.6f, 50)` with radius `0.05f`. -/
def objSix : CObject := ⟨⟨F32.ofRat (6 / 10), 50⟩, F32.ofRat (5 / 100)⟩

/-- Circle at `(0.3f, 50)` with radius `0.05f`. -/
def objThree : CObject := ⟨⟨F32.ofRat (3 / 10), 50⟩, F32.ofRat (5 / 100)⟩

/-- The query `{{0.2f, 40}, {0.2f, 20}}`. -/
def queryGap : Rect := ⟨⟨F32.ofRat (2 / 10), 40⟩, ⟨F32.ofRat (2 / 10), 20⟩⟩

/-- The domain `{{50, 0}, {100, 100}}`. -/
def domainShifted : Rect := ⟨⟨50, 0⟩, ⟨100, 100⟩⟩

/-- An object that is the rect `{{50, 45}, {1e-7f, 10}}`: positive size, a
width that the sum `50 + 1e-7` absorbs. -/
def objThin : Rect := ⟨⟨50, 45⟩, ⟨F32.ofRat (1 / 10000000), 10⟩⟩

/-- The query `{{40, 40}, {20, 20}}`. -/
def queryForty : Rect := ⟨⟨40, 40⟩, ⟨20, 20⟩⟩

/-- The domain `{{2^24, 0}, {0.5, 100}}`: positive size, and `2^24 + 0.5`
rounds to `2^24`. -/
def domainFar : Rect := ⟨⟨16777216, 0⟩, ⟨F32.ofRat (1 / 2), 100⟩⟩

/-- An object that is the rect `{{2^24 - 10, 10}, {20, 20}}`. -/
def objAstride : Rect := ⟨⟨16777206, 10⟩, ⟨20, 20⟩⟩

/-- The query `{{2^24, -1}, {10, 200}}`. -/
def queryFar : Rect := ⟨⟨16777216, -1⟩, ⟨10, 200⟩⟩

/-- The area `{{1, 0}, {5 * 2^-23, 1}}`. -/
def areaNarrow : Rect := ⟨⟨1, 0⟩, ⟨F32.ofRat (5 / 8388608), 1⟩⟩

/-- The point `(1 + 4 * 2^-23, 0.25)`. -/
def pointNarrow : Vec2 := ⟨F32.ofRat (1 + 4 / 8388608), F32.ofRat (1 / 4)⟩

end Example

/-! # Theorems -/

/-! ## Floats: the enumeration is increasing and rounding is monotone -/

namespace F32

theorem log2F_spec (fuel n : Nat) (h : n ≤ fuel) (hn : n ≠ 0) :
    2 ^ log2F fuel n ≤ n ∧ n < 2 ^ (log2F fuel n + 1) := by
  induction fuel generalizing n with
  | zero => omega
  | succ fuel ih =>
    unfold log2F
    split_ifs with h2
    · have : n = 1 := by omega
      subst this
      simp
    · obtain ⟨i1, i2⟩ := ih (n / 2) (by omega) (by omega)
      have e1 : 2 ^ (log2F fuel (n / 2) + 1) = 2 * 2 ^ log2F fuel (n / 2) := by ring
      have e2 : 2 ^ (log2F fuel (n / 2) + 1 + 1) = 2 * 2 ^ (log2F fuel (n / 2) + 1) := by ring
      rw [e1] at i2
      rw [e2, e1]
      generalize 2 ^ log2F fuel (n / 2) = p at *
      omega

theorem scaled_of_lt (n : Nat) (h : n < 2 ^ 24) : scaled n = n := by
  unfold scaled
  norm_num at h ⊢
  split_ifs with h1
  · have : n / 8388608 = 0 := by omega
    simp [this]
  · have e1 : n / 8388608 = 1 := by omega
    have e2 : 8388608 + n % 8388608 = n := by omega
    simp [e1, e2]

theorem scaled_succ (n : Nat) : scaled (n + 1) = scaled n + 2 ^ (n / 2 ^ 23 - 1) := by
  by_cases h : n + 1 < 2 ^ 24
  · rw [scaled_of_lt _ h, scaled_of_lt _ (by omega)]
    norm_num at h ⊢
    have : n / 8388608 - 1 = 0 := by omega
    simp [this]
  · unfold scaled
    norm_num at h ⊢
    have h1 : ¬ n + 1 < 8388608 := by omega
    have h2 : ¬ n < 8388608 := by omega
    rw [if_neg h1, if_neg h2]
    by_cases hf : n % 8388608 + 1 < 8388608
    · have e1 : (n + 1) / 8388608 = n / 8388608 := by omega
      have e2 : (n + 1) % 8388608 = n % 8388608 + 1 := by omega
      rw [e1, e2]
      ring
    · have e1 : (n + 1) / 8388608 = n / 8388608 + 1 := by omega
      have e2 : (n + 1) % 8388608 = 0 := by omega
      have e3 : n % 8388608 = 8388607 := by omega
      have e4 : n / 8388608 + 1 - 1 = (n / 8388608 - 1) + 1 := by omega
      rw [e1, e2, e3, e4, pow_succ]
      ring

theorem scaled_lt_succ (n : Nat) : scaled n < scaled (n + 1) := by
  rw [scaled_succ]
  have : 0 < 2 ^ (n / 2 ^ 23 - 1) := by positivity
  omega

theorem scaled_strictMono : StrictMono scaled := strictMono_nat_of_lt_succ scaled_lt_succ

theorem scaled_zero : scaled 0 = 0 := by decide

theorem floorOrd_spec (t : Nat) : scaled (floorOrd t) ≤ t ∧ t < scaled (floorOrd t + 1) := by
  by_cases ht : t < 2 ^ 24
  · have hl : log2F t t - 23 = 0 := by
      by_cases h0 : t = 0
      · subst h0; rfl
      · have := (log2F_spec t t (le_refl _) h0).1
        have h3 : 2 ^ log2F t t < 2 ^ 24 := lt_of_le_of_lt this ht
        have := (Nat.pow_lt_pow_iff_right (by norm_num : 1 < 2)).1 h3
        omega
    have e : floorOrd t = t := by
      unfold floorOrd
      rw [hl]
      simp
    rw [e, scaled_succ, scaled_of_lt _ ht]
    norm_num at ht ⊢
  · have h0 : t ≠ 0 := by
      intro h; subst h; norm_num at ht
    obtain ⟨l1, l2⟩ := log2F_spec t t (le_refl _) h0
    have hL : 24 ≤ log2F t t := by
      by_contra hc
      have h3 : 2 ^ (log2F t t + 1) ≤ 2 ^ 24 :=
        Nat.pow_le_pow_right (by norm_num) (by omega)
      omega
    obtain ⟨s, hs⟩ : ∃ s, log2F t t = s + 23 := ⟨log2F t t - 23, by omega⟩
    have hs1 : 1 ≤ s := by omega
    rw [hs] at l1 l2
    have p1 : 2 ^ (s + 23) = 8388608 * 2 ^ s := by rw [pow_add]; norm_num; ring
    have p2 : 2 ^ (s + 23 + 1) = 16777216 * 2 ^ s := by rw [pow_add, pow_add]; norm_num; ring
    rw [p1] at l1
    rw [p2] at l2
    have hpos : 0 < 2 ^ s := by positivity
    have m1 : 8388608 ≤ t / 2 ^ s := (Nat.le_div_iff_mul_le hpos).2 l1
    have m2 : t / 2 ^ s < 16777216 := (Nat.div_lt_iff_lt_mul hpos).2 l2
    have e : floorOrd t = s * 8388608 + t / 2 ^ s := by
      unfold floorOrd
      rw [hs]
      norm_num
    have d1 : (s * 8388608 + t / 2 ^ s) / 8388608 = s + 1 := by omega
    have d2 : (s * 8388608 + t / 2 ^ s) % 8388608 = t / 2 ^ s - 8388608 := by omega
    have sc : scaled (s * 8388608 + t / 2 ^ s) = t / 2 ^ s * 2 ^ s := by
      unfold scaled
      norm_num
      have hn : ¬ s * 8388608 + t / 2 ^ s < 8388608 := by omega
      rw [if_neg hn, d1, d2]
      have : 8388608 + (t / 2 ^ s - 8388608) = t / 2 ^ s := by omega
      rw [this]
      simp
    rw [e, scaled_succ, sc]
    norm_num
    rw [d1]
    simp only [Nat.add_sub_cancel]
    refine ⟨Nat.div_mul_le_self t (2 ^ s), ?_⟩
    have := Nat.div_add_mod t (2 ^ s)
    have hm := Nat.mod_lt t hpos
    nlinarith

theorem floorOrd_unique (t n : Nat) (h1 : scaled n ≤ t) (h2 : t < scaled (n + 1)) :
    floorOrd t = n := by
  obtain ⟨s1, s2⟩ := floorOrd_spec t
  rcases lt_trichotomy (floorOrd t) n with h | h | h
  · have := scaled_strictMono.monotone (show floorOrd t + 1 ≤ n by omega)
    omega
  · exact h
  · have := scaled_strictMono.monotone (show n + 1 ≤ floorOrd t by omega)
    omega

theorem floorOrd_mono {t1 t2 : Nat} (h : t1 ≤ t2) : floorOrd t1 ≤ floorOrd t2 := by
  obtain ⟨a1, _⟩ := floorOrd_spec t1
  obtain ⟨_, b2⟩ := floorOrd_spec t2
  by_contra hc
  have := scaled_strictMono.monotone (show floorOrd t2 + 1 ≤ floorOrd t1 by omega)
  omega

end F32

namespace F32

/-- The two neighbours between which a non-negative rational lies. -/
theorem bracket (q : ℚ) (h0 : 0 ≤ q) :
    (scaled (floorOrd ⌊q * 2 ^ 149⌋₊) : ℚ) ≤ q * 2 ^ 149 ∧
      q * 2 ^ 149 < (scaled (floorOrd ⌊q * 2 ^ 149⌋₊ + 1) : ℚ) := by
  have ht : (0 : ℚ) ≤ q * 2 ^ 149 := by positivity
  obtain ⟨s1, s2⟩ := floorOrd_spec ⌊q * 2 ^ 149⌋₊
  constructor
  · calc (scaled (floorOrd ⌊q * 2 ^ 149⌋₊) : ℚ) ≤ (⌊q * 2 ^ 149⌋₊ : ℚ) := by exact_mod_cast s1
      _ ≤ q * 2 ^ 149 := Nat.floor_le ht
  · calc q * 2 ^ 149 < (⌊q * 2 ^ 149⌋₊ : ℚ) + 1 := Nat.lt_floor_add_one _
      _ ≤ (scaled (floorOrd ⌊q * 2 ^ 149⌋₊ + 1) : ℚ) := by exact_mod_cast s2

theorem roundNN_ge (q : ℚ) : floorOrd ⌊q * 2 ^ 149⌋₊ ≤ roundNN q := by
  unfold roundNN
  split_ifs <;> omega

theorem roundNN_le (q : ℚ) : roundNN q ≤ floorOrd ⌊q * 2 ^ 149⌋₊ + 1 := by
  unfold roundNN
  split_ifs <;> omega

theorem roundNN_mono (q1 q2 : ℚ) (h : q1 ≤ q2) : roundNN q1 ≤ roundNN q2 := by
  have ht : q1 * 2 ^ 149 ≤ q2 * 2 ^ 149 := by
    apply mul_le_mul_of_nonneg_right h; positivity
  have hT : ⌊q1 * 2 ^ 149⌋₊ ≤ ⌊q2 * 2 ^ 149⌋₊ := Nat.floor_mono ht
  have hlo := floorOrd_mono hT
  rcases Nat.lt_or_ge (floorOrd ⌊q1 * 2 ^ 149⌋₊) (floorOrd ⌊q2 * 2 ^ 149⌋₊) with hlt | hge
  · have := roundNN_le q1
    have := roundNN_ge q2
    omega
  · have he : floorOrd ⌊q1 * 2 ^ 149⌋₊ = floorOrd ⌊q2 * 2 ^ 149⌋₊ := by omega
    unfold roundNN
    rw [he]
    split_ifs with a1 a2 a3 a4 a5 a6 a7 a8 <;> first | omega | (exfalso; linarith)

theorem roundNN_scaled (n : Nat) : roundNN ((scaled n : ℚ) / 2 ^ 149) = n := by
  have e : (scaled n : ℚ) / 2 ^ 149 * 2 ^ 149 = (scaled n : ℚ) := by
    field_simp
  have hf : floorOrd ⌊((scaled n : ℚ) / 2 ^ 149) * 2 ^ 149⌋₊ = n := by
    rw [e, Nat.floor_natCast]
    exact floorOrd_unique _ _ (le_refl _) (scaled_lt_succ n)
  unfold roundNN
  rw [hf, e]
  have : (scaled n : ℚ) < (scaled (n + 1) : ℚ) := by exact_mod_cast scaled_lt_succ n
  rw [if_pos (by linarith)]

theorem ofRat_val (a : F32) : ofRat a.val = a := by
  obtain ⟨i⟩ := a
  unfold val ofRat
  by_cases hi : i < 0
  · have hpos : (0 : ℚ) < (scaled i.natAbs : ℚ) / 2 ^ 149 := by
      have : 0 < scaled i.natAbs := by
        have := scaled_strictMono (show 0 < i.natAbs by omega)
        rw [scaled_zero] at this
        exact this
      have : (0 : ℚ) < (scaled i.natAbs : ℚ) := by exact_mod_cast this
      positivity
    simp only [hi, if_true]
    rw [if_pos (by linarith), neg_neg, roundNN_scaled]
    congr 1
    omega
  · have hnn : (0 : ℚ) ≤ (scaled i.natAbs : ℚ) / 2 ^ 149 := by positivity
    simp only [hi, if_false]
    rw [if_neg (by linarith), roundNN_scaled]
    congr 1
    omega

theorem ofRat_mono {q1 q2 : ℚ} (h : q1 ≤ q2) : ofRat q1 ≤ ofRat q2 := by
  show (ofRat q1).ord ≤ (ofRat q2).ord
  unfold ofRat
  by_cases h1 : q1 < 0
  · by_cases h2 : q2 < 0
    · rw [if_pos h1, if_pos h2]
      have := roundNN_mono (-q2) (-q1) (by linarith)
      show -(roundNN (-q1) : Int) ≤ -(roundNN (-q2) : Int)
      omega
    · rw [if_pos h1, if_neg h2]
      show -(roundNN (-q1) : Int) ≤ (roundNN q2 : Int)
      omega
  · have h2 : ¬ q2 < 0 := by linarith
    rw [if_neg h1, if_neg h2]
    have := roundNN_mono q1 q2 h
    show (roundNN q1 : Int) ≤ (roundNN q2 : Int)
    omega

theorem le_iff_ord {a b : F32} : a ≤ b ↔ a.ord ≤ b.ord := Iff.rfl

theorem lt_iff_ord {a b : F32} : a < b ↔ a.ord < b.ord := Iff.rfl

theorem eq_iff_ord {a b : F32} : a = b ↔ a.ord = b.ord := by
  constructor
  · intro h; rw [h]
  · intro h; cases a; cases b; simpa using h

theorem val_strictMono : StrictMono val := by
  intro a b hab
  have hab : a.ord < b.ord := hab
  have cast_lt : ∀ m n : Nat, m < n → ((scaled m : ℚ) / 2 ^ 149) < ((scaled n : ℚ) / 2 ^ 149) := by
    intro m n hmn
    have : (scaled m : ℚ) < (scaled n : ℚ) := by exact_mod_cast scaled_strictMono hmn
    apply div_lt_div_of_pos_right this; positivity
  have cast_nn : ∀ m : Nat, (0 : ℚ) ≤ (scaled m : ℚ) / 2 ^ 149 := fun m => by positivity
  unfold val
  by_cases ha : a.ord < 0
  · by_cases hb : b.ord < 0
    · rw [if_pos ha, if_pos hb]
      have := cast_lt b.ord.natAbs a.ord.natAbs (by omega)
      linarith
    · rw [if_pos ha, if_neg hb]
      have h1 := cast_lt 0 a.ord.natAbs (by omega)
      have h2 := cast_nn b.ord.natAbs
      have h3 := cast_nn 0
      linarith
  · have hb : ¬ b.ord < 0 := by omega
    rw [if_neg ha, if_neg hb]
    exact cast_lt _ _ (by omega)

theorem val_le_val {a b : F32} : a.val ≤ b.val ↔ a ≤ b := val_strictMono.le_iff_le

theorem val_lt_val {a b : F32} : a.val < b.val ↔ a < b := val_strictMono.lt_iff_lt

theorem val_zero : (0 : F32).val = 0 := by decide!

theorem add_val (a b : F32) : a + b = ofRat (a.val + b.val) := rfl

theorem sub_val (a b : F32) : a - b = ofRat (a.val - b.val) := rfl

theorem mul_val (a b : F32) : a * b = ofRat (a.val * b.val) := rfl

theorem div_val (a b : F32) : a / b = ofRat (a.val / b.val) := rfl

/-- Adding zero is exact. -/
theorem add_zero_eq (a : F32) : a + 0 = a := by
  rw [add_val, val_zero, add_zero, ofRat_val]

theorem zero_add_eq (a : F32) : 0 + a = a := by
  rw [add_val, val_zero, zero_add, ofRat_val]

/-- A rounded sum with a non-negative term is not below the other term. -/
theorem le_add_of_nonneg (a w : F32) (h : 0 ≤ w) : a ≤ a + w := by
  have hw : (0 : ℚ) ≤ w.val := by rw [← val_zero]; exact val_le_val.2 h
  calc a = ofRat a.val := (ofRat_val a).symm
    _ ≤ ofRat (a.val + w.val) := ofRat_mono (by linarith)

theorem add_le_of_nonpos (a w : F32) (h : w ≤ 0) : a + w ≤ a := by
  have hw : w.val ≤ 0 := by rw [← val_zero]; exact val_le_val.2 h
  calc a + w = ofRat (a.val + w.val) := rfl
    _ ≤ ofRat a.val := ofRat_mono (by linarith)
    _ = a := ofRat_val a

theorem add_le_add_of_le {a b c d : F32} (h1 : a ≤ b) (h2 : c ≤ d) : a + c ≤ b + d := by
  have := val_le_val.2 h1
  have := val_le_val.2 h2
  exact ofRat_mono (by linarith)

/-- A rounded difference of a value and a smaller one is not negative. -/
theorem sub_nonneg_of_le {a b : F32} (h : b ≤ a) : 0 ≤ a - b := by
  have := val_le_val.2 h
  calc (0 : F32) = ofRat (0 : F32).val := (ofRat_val 0).symm
    _ ≤ ofRat (a.val - b.val) := ofRat_mono (by rw [val_zero]; linarith)

theorem sub_le_of_nonneg (a w : F32) (h : 0 ≤ w) : a - w ≤ a := by
  have hw : (0 : ℚ) ≤ w.val := by rw [← val_zero]; exact val_le_val.2 h
  calc a - w = ofRat (a.val - w.val) := rfl
    _ ≤ ofRat a.val := ofRat_mono (by linarith)
    _ = a := ofRat_val a

end F32

/-! ## `Rect` predicates as propositions -/

theorem Rect.contains_eq_true (a b : Rect) :
    a.contains b = true ↔
      a.pos.x ≤ b.pos.x ∧ b.pos.x + b.size.x < a.pos.x + a.size.x ∧
      a.pos.y ≤ b.pos.y ∧ b.pos.y + b.size.y < a.pos.y + a.size.y := by
  simp [Rect.contains, and_assoc]

theorem Rect.overlaps_eq_true (a b : Rect) :
    a.overlaps b = true ↔
      a.pos.x < b.pos.x + b.size.x ∧ b.pos.x ≤ a.pos.x + a.size.x ∧
      a.pos.y < b.pos.y + b.size.y ∧ b.pos.y ≤ a.pos.y + a.size.y := by
  simp [Rect.overlaps, and_assoc]

theorem Rect.containsPoint_eq_true (a : Rect) (p : Vec2) :
    a.containsPoint p = true ↔
      a.pos.x ≤ p.x ∧ a.pos.y ≤ p.y ∧ p.x < a.pos.x + a.size.x ∧ p.y < a.pos.y + a.size.y := by
  simp [Rect.containsPoint, and_assoc]

/-- A rect with an extent, inside a rect that the query contains, overlaps the
query. -/
theorem Rect.overlaps_of_contains_of_contains {r s a : Rect}
    (hrs : r.contains s = true) (hsa : s.contains a = true) (ha : a.Spans) :
    r.overlaps a = true := by
  rw [Rect.contains_eq_true] at hrs hsa
  rw [Rect.overlaps_eq_true]
  obtain ⟨hx, hy⟩ := ha
  simp only [F32.le_iff_ord, F32.lt_iff_ord] at *
  refine ⟨?_, ?_, ?_, ?_⟩ <;> omega

/-- Containment of rects is transitive. -/
theorem Rect.contains_of_contains_of_contains {r s a : Rect}
    (hrs : r.contains s = true) (hsa : s.contains a = true) : r.contains a = true := by
  rw [Rect.contains_eq_true] at hrs hsa ⊢
  simp only [F32.le_iff_ord, F32.lt_iff_ord] at *
  refine ⟨?_, ?_, ?_, ?_⟩ <;> omega

/-- A rect that contains a rect with an extent overlaps it. -/
theorem Rect.overlaps_of_contains_spans {r a : Rect} (h : r.contains a = true) (ha : a.Spans) :
    r.overlaps a = true := by
  rw [Rect.contains_eq_true] at h
  rw [Rect.overlaps_eq_true]
  obtain ⟨hx, hy⟩ := ha
  simp only [F32.le_iff_ord, F32.lt_iff_ord] at *
  refine ⟨?_, ?_, ?_, ?_⟩ <;> omega

/-- Two rects that both contain a rect with an extent overlap. -/
theorem Rect.overlaps_of_common {r s a : Rect} (hr : r.contains a = true)
    (hs : s.contains a = true) (ha : a.Spans) : r.overlaps s = true := by
  rw [Rect.contains_eq_true] at hr hs
  rw [Rect.overlaps_eq_true]
  obtain ⟨hx, hy⟩ := ha
  simp only [F32.le_iff_ord, F32.lt_iff_ord] at *
  refine ⟨?_, ?_, ?_, ?_⟩ <;> omega

/-! ## Static quadtree: structure of `insert` -/

namespace StaticQuadTree

variable {OBJ_T : Type} [SpatialObject OBJ_T]

theorem size_insertNew (k : Nat) (r : Rect) (obj : OBJ_T) (depth : Nat) :
    (insertNew k r obj depth).size = 1 := by
  induction k generalizing r depth with
  | zero => simp [insertNew, Node.size]
  | succ k ih =>
    unfold insertNew
    split_ifs <;> simp [Node.size, ih]

theorem size_insertNode (n : Node OBJ_T) (r : Rect) (obj : OBJ_T) (depth : Nat) :
    (insertNode n r obj depth).size = n.size + 1 := by
  induction n generalizing r depth with
  | null => simp [insertNode, size_insertNew, Node.size]
  | mk area d s0 s1 s2 s3 n0 n1 n2 n3 objs ih0 ih1 ih2 ih3 =>
    unfold insertNode
    split_ifs <;> simp [Node.size, ih0, ih1, ih2, ih3] <;> omega

theorem isSome_insertNew (k : Nat) (r : Rect) (obj : OBJ_T) (depth : Nat) :
    (insertNew k r obj depth).isSome = true := by
  cases k with
  | zero => simp [insertNew, Node.isSome]
  | succ k =>
    unfold insertNew
    split_ifs <;> simp [Node.isSome]

theorem isSome_insertNode (n : Node OBJ_T) (r : Rect) (obj : OBJ_T) (depth : Nat) :
    (insertNode n r obj depth).isSome = true := by
  cases n with
  | null => simp [insertNode, isSome_insertNew]
  | mk area d s0 s1 s2 s3 n0 n1 n2 n3 objs =>
    unfold insertNode
    split_ifs <;> simp [Node.isSome]

theorem build_append (area : Rect) (objs : List OBJ_T) (obj : OBJ_T) :
    build area (objs ++ [obj]) = insert (build area objs) obj := by
  simp [build, List.foldl_append]

theorem area_build (area : Rect) (objs : List OBJ_T) : (build area objs).area = area := by
  induction objs using List.reverseRecOn with
  | nil => simp [build, SetArea]
  | append_singleton objs obj ih => rw [build_append]; simpa [insert] using ih

theorem root_build_snoc (area : Rect) (objs : List OBJ_T) (obj : OBJ_T) :
    (build area (objs ++ [obj])).root = insertNode (build area objs).root area obj 0 := by
  rw [build_append]; simp [insert, area_build]

theorem size_root_build (area : Rect) (objs : List OBJ_T) :
    (build area objs).root.size = objs.length := by
  induction objs using List.reverseRecOn with
  | nil => simp [build, SetArea, empty, Node.size]
  | append_singleton objs obj ih => rw [root_build_snoc, size_insertNode, ih]; simp

theorem isSome_root_build (area : Rect) (objs : List OBJ_T) (h : objs ≠ []) :
    (build area objs).root.isSome = true := by
  induction objs using List.reverseRecOn with
  | nil => exact absurd rfl h
  | append_singleton objs obj _ => rw [root_build_snoc]; exact isSome_insertNode _ _ _ _

/-- C10: for every domain and every non-empty sequence of inserted objects,
whatever their bounds, `size()` is the number of inserts. -/
theorem size_build_eq_length (area : Rect) (objs : List OBJ_T) (h : objs ≠ []) :
    (build area objs).size = some objs.length := by
  simp [size, isSome_root_build area objs h, size_root_build]

/-- C10 at a concrete input: two circles, one of them outside the domain. -/
theorem size_build_eq_length_witness :
    ([Example.objA, ⟨⟨500, 500⟩, 5⟩] : List CObject) ≠ [] ∧
      (build Example.domain [Example.objA, ⟨⟨500, 500⟩, 5⟩]).size = some 2 :=
  ⟨by simp, size_build_eq_length Example.domain [Example.objA, ⟨⟨500, 500⟩, 5⟩] (by simp)⟩

end StaticQuadTree

namespace StaticQuadTree

variable {OBJ_T : Type} [SpatialObject OBJ_T]

/-- The level counter of `insertNew` never cuts the descent short: any value
of at least `MAX_DEPTH - depth` gives the same node. -/
theorem insertNew_counter_irrelevant (k1 : Nat) :
    ∀ (k2 : Nat) (r : Rect) (obj : OBJ_T) (depth : Nat),
      MAX_DEPTH - depth ≤ k1 → MAX_DEPTH - depth ≤ k2 →
        insertNew k1 r obj depth = insertNew k2 r obj depth := by
  induction k1 with
  | zero =>
    intro k2 r obj depth h1 _
    have hd : ¬ depth + 1 < MAX_DEPTH := by omega
    cases k2 with
    | zero => rfl
    | succ k2 => simp [insertNew, hd]
  | succ k1 ih =>
    intro k2 r obj depth h1 h2
    cases k2 with
    | zero =>
      have hd : ¬ depth + 1 < MAX_DEPTH := by omega
      simp [insertNew, hd]
    | succ k2 =>
      by_cases hd : depth + 1 < MAX_DEPTH
      · have e : ∀ (s : Rect), insertNew k1 s obj (depth + 1) = insertNew k2 s obj (depth + 1) :=
          fun s => ih k2 s obj (depth + 1) (by omega) (by omega)
        simp only [insertNew, e]
      · simp [insertNew, hd]

end StaticQuadTree

namespace DynamicQuadTree

/-- The level counter of the dynamic `insertNew` never cuts the descent
short. -/
theorem dyn_insertNew_counter_irrelevant (k1 : Nat) :
    ∀ (k2 : Nat) (r : Rect) (obj : Nat) (a : Rect) (depth : Nat),
      MAX_DEPTH - depth ≤ k1 → MAX_DEPTH - depth ≤ k2 →
        insertNew k1 r obj a depth = insertNew k2 r obj a depth := by
  induction k1 with
  | zero =>
    intro k2 r obj a depth h1 _
    have hd : ¬ depth + 1 < MAX_DEPTH := by omega
    cases k2 with
    | zero => rfl
    | succ k2 => simp [insertNew, hd]
  | succ k1 ih =>
    intro k2 r obj a depth h1 h2
    cases k2 with
    | zero =>
      have hd : ¬ depth + 1 < MAX_DEPTH := by omega
      simp [insertNew, hd]
    | succ k2 =>
      by_cases hd : depth + 1 < MAX_DEPTH
      · have e : ∀ (s : Rect),
            insertNew k1 s obj a (depth + 1) = insertNew k2 s obj a (depth + 1) :=
          fun s => ih k2 s obj a (depth + 1) (by omega) (by omega)
        simp only [insertNew, e]
      · simp [insertNew, hd]

end DynamicQuadTree

namespace StaticQuadTree

variable {OBJ_T : Type} [SpatialObject OBJ_T]

theorem items_insertNew (k : Nat) (r : Rect) (obj : OBJ_T) (depth : Nat) :
    (insertNew k r obj depth).items = [obj] := by
  induction k generalizing r depth with
  | zero => simp [insertNew, Node.items]
  | succ k ih =>
    unfold insertNew
    split_ifs <;> simp [Node.items, ih]

theorem mem_items_insertNode (n : Node OBJ_T) (r : Rect) (obj : OBJ_T) (depth : Nat) (o : OBJ_T) :
    o ∈ (insertNode n r obj depth).items ↔ o ∈ n.items ∨ o = obj := by
  induction n generalizing r depth with
  | null => simp [insertNode, items_insertNew, Node.items]
  | mk area d s0 s1 s2 s3 n0 n1 n2 n3 objs ih0 ih1 ih2 ih3 =>
    unfold insertNode
    split_ifs <;> simp [Node.items, ih0, ih1, ih2, ih3] <;> tauto

theorem mem_items_build (area : Rect) (objs : List OBJ_T) (o : OBJ_T) :
    o ∈ (build area objs).root.items ↔ o ∈ objs := by
  induction objs using List.reverseRecOn with
  | nil => simp [build, SetArea, empty, Node.items]
  | append_singleton objs obj ih => rw [root_build_snoc, mem_items_insertNode, ih]; simp

theorem subIn_insertNew (k : Nat) (r : Rect) (obj : OBJ_T) (depth : Nat) :
    (insertNew k r obj depth).SubIn := by
  induction k generalizing r depth with
  | zero => simp [insertNew, Node.SubIn, Node.items]
  | succ k ih =>
    unfold insertNew
    split_ifs with h0 h1 h2 h3 <;>
      simp [Node.SubIn, Node.items, items_insertNew, ih] <;>
      simp_all

theorem subIn_insertNode (n : Node OBJ_T) (r : Rect) (obj : OBJ_T) (depth : Nat)
    (h : n.SubIn) : (insertNode n r obj depth).SubIn := by
  induction n generalizing r depth with
  | null => simp [insertNode, subIn_insertNew]
  | mk area d s0 s1 s2 s3 n0 n1 n2 n3 objs ih0 ih1 ih2 ih3 =>
    obtain ⟨⟨a0, b0⟩, ⟨a1, b1⟩, ⟨a2, b2⟩, a3, b3⟩ := h
    unfold insertNode
    split_ifs with h0 h1 h2 h3
    · simp only [Bool.and_eq_true] at h0
      refine ⟨⟨?_, ih0 _ _ b0⟩, ⟨a1, b1⟩, ⟨a2, b2⟩, a3, b3⟩
      intro o ho
      rcases (mem_items_insertNode _ _ _ _ _).1 ho with ho | rfl
      · exact a0 o ho
      · exact h0.1
    · simp only [Bool.and_eq_true] at h1
      refine ⟨⟨a0, b0⟩, ⟨?_, ih1 _ _ b1⟩, ⟨a2, b2⟩, a3, b3⟩
      intro o ho
      rcases (mem_items_insertNode _ _ _ _ _).1 ho with ho | rfl
      · exact a1 o ho
      · exact h1.1
    · simp only [Bool.and_eq_true] at h2
      refine ⟨⟨a0, b0⟩, ⟨a1, b1⟩, ⟨?_, ih2 _ _ b2⟩, a3, b3⟩
      intro o ho
      rcases (mem_items_insertNode _ _ _ _ _).1 ho with ho | rfl
      · exact a2 o ho
      · exact h2.1
    · simp only [Bool.and_eq_true] at h3
      refine ⟨⟨a0, b0⟩, ⟨a1, b1⟩, ⟨a2, b2⟩, ?_, ih3 _ _ b3⟩
      intro o ho
      rcases (mem_items_insertNode _ _ _ _ _).1 ho with ho | rfl
      · exact a3 o ho
      · exact h3.1
    · exact ⟨⟨a0, b0⟩, ⟨a1, b1⟩, ⟨a2, b2⟩, a3, b3⟩

theorem subIn_build (area : Rect) (objs : List OBJ_T) : (build area objs).root.SubIn := by
  induction objs using List.reverseRecOn with
  | nil => simp [build, SetArea, empty, Node.SubIn]
  | append_singleton objs obj ih => rw [root_build_snoc]; exact subIn_insertNode _ _ _ _ ih

theorem mem_searchChild {T : Type} {r sub : Rect} {child : Node T} {deeper : List T} {o : T}
    (h : o ∈ Node.searchChild r sub child deeper) :
    (r.contains sub = true ∧ o ∈ child.items) ∨ o ∈ deeper := by
  unfold Node.searchChild at h
  split_ifs at h with h1 h2 h3
  · exact Or.inl ⟨h2, h⟩
  · exact Or.inr h
  all_goals simp at h

theorem searchNode_sound (n : Node OBJ_T) (r : Rect) (h : n.SubIn) (o : OBJ_T)
    (ho : o ∈ searchNode n r) (hp : (GetArea o).Spans) : r.overlaps (GetArea o) = true := by
  induction n with
  | null => simp [searchNode] at ho
  | mk area d s0 s1 s2 s3 n0 n1 n2 n3 objs ih0 ih1 ih2 ih3 =>
    obtain ⟨⟨a0, b0⟩, ⟨a1, b1⟩, ⟨a2, b2⟩, a3, b3⟩ := h
    rw [searchNode] at ho
    by_cases hov : r.overlaps area = true
    · rw [if_pos hov] at ho
      simp only [List.mem_append, List.mem_filter] at ho
      rcases ho with ho | ho | ho | ho | ho
      · simpa using ho.2
      · rcases mem_searchChild ho with ⟨hc, hi⟩ | hd
        · exact Rect.overlaps_of_contains_of_contains hc (a0 o hi) hp
        · exact ih0 b0 hd
      · rcases mem_searchChild ho with ⟨hc, hi⟩ | hd
        · exact Rect.overlaps_of_contains_of_contains hc (a1 o hi) hp
        · exact ih1 b1 hd
      · rcases mem_searchChild ho with ⟨hc, hi⟩ | hd
        · exact Rect.overlaps_of_contains_of_contains hc (a2 o hi) hp
        · exact ih2 b2 hd
      · rcases mem_searchChild ho with ⟨hc, hi⟩ | hd
        · exact Rect.overlaps_of_contains_of_contains hc (a3 o hi) hp
        · exact ih3 b3 hd
    · rw [if_neg hov] at ho
      simp at ho

/-- C2 (as amended): for every domain, every non-empty sequence of inserted
objects and every query rect `r`, `search(r)` returns a list, and each returned
object whose bounding rect has a far corner `pos + size` that the `float`
comparisons see strictly beyond `pos` on both axes satisfies
`r.overlaps(GetArea())`, the objects emitted through the
fully-contained-quadrant short-circuit included. -/
theorem search_sound_of_spans (area : Rect) (objs : List OBJ_T) (r : Rect) (hne : objs ≠ []) :
    ∃ res, (build area objs).search r = some res ∧
      ∀ o ∈ res, (GetArea o).Spans → r.overlaps (GetArea o) = true := by
  refine ⟨searchNode (build area objs).root r, ?_, ?_⟩
  · unfold search
    rw [isSome_root_build area objs hne, if_pos rfl]
  · intro o ho hp
    exact searchNode_sound _ r (subIn_build area objs) o ho hp

end StaticQuadTree

namespace StaticQuadTree

/-- C1 (failing input): the circle at `(55, 55)` with radius 5 lies inside the
domain `{{0, 0}, {100, 100}}` and is reported by the linear scan for the query
`{{0, 0}, {50, 50}}`, yet `search` returns nothing. -/
theorem search_misses_touching_object :
    Example.domain.contains (GetArea Example.objTouch) = true ∧
      Example.queryHalf.overlaps (GetArea Example.objTouch) = true ∧
      (build Example.domain [Example.objTouch]).search Example.queryHalf = some [] := by
  decide!

/-- C2 (counterexample): the circle of radius 0 at `(0, 0)` is returned for the
query `{{0, 0}, {60, 60}}`, which does not overlap its (non-negative size)
area; and the circle of radius `5e-8f` at `(50, 50)`, whose bounds
`{{50, 50}, {1e-7, 1e-7}}` have positive size, is returned for the query
`{{50, 50}, {60, 60}}`, which does not overlap its bounds because `50 + 1e-7`
rounds to `50`. -/
theorem search_returns_non_overlapping :
    ((GetArea Example.objPoint).NonNegSize ∧
      (build Example.domain [Example.objPoint]).search Example.querySixty
        = some [Example.objPoint] ∧
      Example.querySixty.overlaps (GetArea Example.objPoint) = false) ∧
    ((GetArea Example.objSpeck).PosSize ∧
      (build Example.domain [Example.objSpeck]).search Example.queryCorner
        = some [Example.objSpeck] ∧
      Example.queryCorner.overlaps (GetArea Example.objSpeck) = false) := by
  decide!

/-- C2 (as amended) at a concrete input: circle A sits in the top-left quadrant,
which the query `{{0, 0}, {60, 60}}` contains. -/
theorem search_sound_of_spans_witness :
    ([Example.objA, Example.objB] : List CObject) ≠ [] ∧
      (GetArea Example.objA).Spans ∧
      (build Example.domain [Example.objA, Example.objB]).search Example.querySixty
        = some [Example.objA] ∧
      ∃ res, (build Example.domain [Example.objA, Example.objB]).search Example.querySixty
          = some res ∧
        ∀ o ∈ res, (GetArea o).Spans → Example.querySixty.overlaps (GetArea o) = true :=
  ⟨by decide, by decide!, by decide!,
    search_sound_of_spans Example.domain [Example.objA, Example.objB] Example.querySixty
      (by decide)⟩

end StaticQuadTree

namespace StaticQuadTree

variable {OBJ_T : Type} [SpatialObject OBJ_T]

theorem areaIs_insertNew (k : Nat) (r : Rect) (obj : OBJ_T) (depth : Nat) :
    (insertNew k r obj depth).AreaIs r := by
  cases k with
  | zero => simp [insertNew, Node.AreaIs]
  | succ k =>
    unfold insertNew
    split_ifs <;> simp [Node.AreaIs]

theorem areaIs_insertNode (n : Node OBJ_T) (r : Rect) (obj : OBJ_T) (depth : Nat)
    (h : n.AreaIs r) : (insertNode n r obj depth).AreaIs r := by
  cases n with
  | null => simp [insertNode, areaIs_insertNew]
  | mk area d s0 s1 s2 s3 n0 n1 n2 n3 objs =>
    unfold insertNode
    split_ifs <;> simpa [Node.AreaIs] using h

theorem items_insertNode_ne_nil (n : Node OBJ_T) (r : Rect) (obj : OBJ_T) (depth : Nat) :
    (insertNode n r obj depth).items ≠ [] := by
  intro h
  have : obj ∈ (insertNode n r obj depth).items := (mem_items_insertNode _ _ _ _ _).2 (Or.inr rfl)
  rw [h] at this
  simp at this

theorem shaped_insertNew (k : Nat) (r : Rect) (obj : OBJ_T) (depth : Nat) :
    (insertNew k r obj depth).Shaped := by
  induction k generalizing r depth with
  | zero => simp [insertNew, Node.Shaped, Node.AreaIs, Node.isSome]
  | succ k ih =>
    unfold insertNew
    split_ifs <;> refine ⟨⟨rfl, rfl, rfl, rfl⟩, ?_, ?_, ?_, ?_⟩ <;>
      first
      | exact ⟨areaIs_insertNew _ _ _ _, fun _ => by simp [items_insertNew], ih _ _⟩
      | exact ⟨trivial, fun h => by simp [Node.isSome] at h, trivial⟩

theorem shaped_insertNode (n : Node OBJ_T) (r : Rect) (obj : OBJ_T) (depth : Nat)
    (h : n.Shaped) : (insertNode n r obj depth).Shaped := by
  induction n generalizing r depth with
  | null => simp [insertNode, shaped_insertNew]
  | mk area d s0 s1 s2 s3 n0 n1 n2 n3 objs ih0 ih1 ih2 ih3 =>
    obtain ⟨hq, ⟨a0, e0, b0⟩, ⟨a1, e1, b1⟩, ⟨a2, e2, b2⟩, a3, e3, b3⟩ := h
    unfold insertNode
    split_ifs
    · exact ⟨hq, ⟨areaIs_insertNode _ _ _ _ a0, fun _ => items_insertNode_ne_nil _ _ _ _,
        ih0 _ _ b0⟩, ⟨a1, e1, b1⟩, ⟨a2, e2, b2⟩, a3, e3, b3⟩
    · exact ⟨hq, ⟨a0, e0, b0⟩, ⟨areaIs_insertNode _ _ _ _ a1,
        fun _ => items_insertNode_ne_nil _ _ _ _, ih1 _ _ b1⟩, ⟨a2, e2, b2⟩, a3, e3, b3⟩
    · exact ⟨hq, ⟨a0, e0, b0⟩, ⟨a1, e1, b1⟩, ⟨areaIs_insertNode _ _ _ _ a2,
        fun _ => items_insertNode_ne_nil _ _ _ _, ih2 _ _ b2⟩, a3, e3, b3⟩
    · exact ⟨hq, ⟨a0, e0, b0⟩, ⟨a1, e1, b1⟩, ⟨a2, e2, b2⟩, areaIs_insertNode _ _ _ _ a3,
        fun _ => items_insertNode_ne_nil _ _ _ _, ih3 _ _ b3⟩
    · exact ⟨hq, ⟨a0, e0, b0⟩, ⟨a1, e1, b1⟩, ⟨a2, e2, b2⟩, a3, e3, b3⟩

theorem shaped_build (area : Rect) (objs : List OBJ_T) : (build area objs).root.Shaped := by
  induction objs using List.reverseRecOn with
  | nil => simp [build, SetArea, empty, Node.Shaped]
  | append_singleton objs obj ih => rw [root_build_snoc]; exact shaped_insertNode _ _ _ _ ih

theorem childNoShortcut_eq_items {r s : Rect} {n : Node OBJ_T} (ih : FullyReported r n)
    (hsh : n.AreaIs s ∧ (n.isSome = true → n.items ≠ []) ∧ n.Shaped)
    (hsub : (∀ o ∈ n.items, s.contains (GetArea o) = true) ∧ n.SubIn)
    (hpos : ∀ o ∈ n.items, (GetArea o).Spans)
    (hrc : ∀ o ∈ n.items, r.contains (GetArea o) = true) :
    Node.searchChildNoShortcut r s n (searchNodeNoShortcut n r) = n.items := by
  unfold Node.searchChildNoShortcut
  by_cases hn : n.isSome = true
  · rw [if_pos hn]
    have hne := hsh.2.1 hn
    obtain ⟨o, ho⟩ := List.exists_mem_of_ne_nil _ hne
    rw [if_pos (Rect.overlaps_of_common (hsub.1 o ho) (hrc o ho) (hpos o ho))]
    exact ih hsh.2.2 hsub.2 hpos s hsh.1 hsub.1 hne hrc
  · rw [if_neg hn]
    cases n with
    | null => rfl
    | mk => simp [Node.isSome] at hn

theorem fullyReported (r : Rect) (n : Node OBJ_T) : FullyReported r n := by
  induction n with
  | null => intro _ _ _ s _ _ hne; exact absurd rfl hne
  | mk area d s0 s1 s2 s3 n0 n1 n2 n3 objs ih0 ih1 ih2 ih3 =>
    intro hsh hsub hpos s hs hin hne hrc
    obtain ⟨_, c0, c1, c2, c3⟩ := hsh
    obtain ⟨d0, d1, d2, d3⟩ := hsub
    have hs' : area = s := hs
    subst hs'
    obtain ⟨o, ho⟩ := List.exists_mem_of_ne_nil _ hne
    have hfilter : objs.filter (fun obj => r.overlaps (GetArea obj)) = objs := by
      rw [List.filter_eq_self]
      intro a ha
      have hm : a ∈ (Node.mk area d s0 s1 s2 s3 n0 n1 n2 n3 objs).items := by
        simp [Node.items, ha]
      exact Rect.overlaps_of_contains_spans (hrc a hm) (hpos a hm)
    have p0 : ∀ a ∈ n0.items, (GetArea a).Spans := fun a ha =>
      hpos a (by simp [Node.items, ha])
    have p1 : ∀ a ∈ n1.items, (GetArea a).Spans := fun a ha =>
      hpos a (by simp [Node.items, ha])
    have p2 : ∀ a ∈ n2.items, (GetArea a).Spans := fun a ha =>
      hpos a (by simp [Node.items, ha])
    have p3 : ∀ a ∈ n3.items, (GetArea a).Spans := fun a ha =>
      hpos a (by simp [Node.items, ha])
    have k0 : ∀ a ∈ n0.items, r.contains (GetArea a) = true := fun a ha =>
      hrc a (by simp [Node.items, ha])
    have k1 : ∀ a ∈ n1.items, r.contains (GetArea a) = true := fun a ha =>
      hrc a (by simp [Node.items, ha])
    have k2 : ∀ a ∈ n2.items, r.contains (GetArea a) = true := fun a ha =>
      hrc a (by simp [Node.items, ha])
    have k3 : ∀ a ∈ n3.items, r.contains (GetArea a) = true := fun a ha =>
      hrc a (by simp [Node.items, ha])
    rw [searchNodeNoShortcut,
      if_pos (Rect.overlaps_of_common (hrc o ho) (hin o ho) (hpos o ho)), hfilter,
      childNoShortcut_eq_items ih0 c0 d0 p0 k0,
      childNoShortcut_eq_items ih1 c1 d1 p1 k1,
      childNoShortcut_eq_items ih2 c2 d2 p2 k2,
      childNoShortcut_eq_items ih3 c3 d3 p3 k3]
    rfl

theorem searchChild_eq_noShortcut {r s : Rect} {n : Node OBJ_T}
    (ih : n.Shaped → n.SubIn → (∀ o ∈ n.items, (GetArea o).Spans) →
      searchNode n r = searchNodeNoShortcut n r)
    (hsh : n.AreaIs s ∧ (n.isSome = true → n.items ≠ []) ∧ n.Shaped)
    (hsub : (∀ o ∈ n.items, s.contains (GetArea o) = true) ∧ n.SubIn)
    (hpos : ∀ o ∈ n.items, (GetArea o).Spans) :
    Node.searchChild r s n (searchNode n r) =
      Node.searchChildNoShortcut r s n (searchNodeNoShortcut n r) := by
  by_cases hrc : r.contains s = true
  · rw [childNoShortcut_eq_items (fullyReported r n) hsh hsub hpos
      (fun o ho => Rect.contains_of_contains_of_contains hrc (hsub.1 o ho))]
    unfold Node.searchChild
    by_cases hn : n.isSome = true
    · rw [if_pos hn, if_pos hrc]
    · rw [if_neg hn]
      cases n with
      | null => rfl
      | mk => simp [Node.isSome] at hn
  · unfold Node.searchChild Node.searchChildNoShortcut
    rw [if_neg hrc, ih hsh.2.2 hsub.2 hpos]

theorem searchNode_eq_noShortcut (r : Rect) (n : Node OBJ_T) (hsh : n.Shaped) (hsub : n.SubIn)
    (hpos : ∀ o ∈ n.items, (GetArea o).Spans) :
    searchNode n r = searchNodeNoShortcut n r := by
  induction n with
  | null => rfl
  | mk area d s0 s1 s2 s3 n0 n1 n2 n3 objs ih0 ih1 ih2 ih3 =>
    obtain ⟨_, c0, c1, c2, c3⟩ := hsh
    obtain ⟨d0, d1, d2, d3⟩ := hsub
    have p0 : ∀ a ∈ n0.items, (GetArea a).Spans := fun a ha =>
      hpos a (by simp [Node.items, ha])
    have p1 : ∀ a ∈ n1.items, (GetArea a).Spans := fun a ha =>
      hpos a (by simp [Node.items, ha])
    have p2 : ∀ a ∈ n2.items, (GetArea a).Spans := fun a ha =>
      hpos a (by simp [Node.items, ha])
    have p3 : ∀ a ∈ n3.items, (GetArea a).Spans := fun a ha =>
      hpos a (by simp [Node.items, ha])
    rw [searchNode, searchNodeNoShortcut,
      searchChild_eq_noShortcut ih0 c0 d0 p0, searchChild_eq_noShortcut ih1 c1 d1 p1,
      searchChild_eq_noShortcut ih2 c2 d2 p2, searchChild_eq_noShortcut ih3 c3 d3 p3]

/-- C3 (as amended): for every tree built by inserts of objects whose bounds
have a far corner `pos + size` that the `float` comparisons see strictly beyond
`pos` on both axes, and every query rect, `search` returns the same list (the
same objects in the same order) as the traversal without the
`r.contains(quadrant)` branch. -/
theorem search_eq_searchNoShortcut (area : Rect) (objs : List OBJ_T) (r : Rect)
    (hpos : ∀ o ∈ objs, (GetArea o).Spans) :
    (build area objs).search r = (build area objs).searchNoShortcut r := by
  unfold search searchNoShortcut
  rw [searchNode_eq_noShortcut r _ (shaped_build area objs) (subIn_build area objs)
    (fun o ho => hpos o ((mem_items_build area objs o).1 ho))]

end StaticQuadTree

namespace StaticQuadTree

/-- C3 (counterexample): with the circle of radius 0 at `(0, 0)` in the tree,
`search` of `{{0, 0}, {60, 60}}` returns it through the short-circuit and the
traversal without the short-circuit returns nothing; the same happens with the
circle of radius `5e-8f` at `(50, 50)`, whose bounds have positive size, and
the query `{{50, 50}, {60, 60}}`. -/
theorem shortcut_changes_result :
    ((GetArea Example.objPoint).NonNegSize ∧
      (build Example.domain [Example.objPoint]).search Example.querySixty
        = some [Example.objPoint] ∧
      (build Example.domain [Example.objPoint]).searchNoShortcut Example.querySixty
        = some []) ∧
    ((GetArea Example.objSpeck).PosSize ∧
      (build Example.domain [Example.objSpeck]).search Example.queryCorner
        = some [Example.objSpeck] ∧
      (build Example.domain [Example.objSpeck]).searchNoShortcut Example.queryCorner
        = some []) := by
  decide!

/-- C3 (as amended) at a concrete input: two circles of radius 5, the first
one reported through the short-circuit. -/
theorem search_eq_searchNoShortcut_witness :
    (∀ o ∈ [Example.objA, Example.objB], (GetArea o).Spans) ∧
      (build Example.domain [Example.objA, Example.objB]).search Example.querySixty
        = some [Example.objA] ∧
      (build Example.domain [Example.objA, Example.objB]).search Example.querySixty
        = (build Example.domain [Example.objA, Example.objB]).searchNoShortcut
            Example.querySixty :=
  ⟨by decide!, by decide!, search_eq_searchNoShortcut Example.domain
    [Example.objA, Example.objB] Example.querySixty (by decide!)⟩

end StaticQuadTree

/-! ## K-d tree -/

namespace KDTree

variable {OBJ_T : Type} [SpatialObject OBJ_T]

theorem kd_build_append (area : Rect) (objs : List OBJ_T) (ob : OBJ_T) :
    build area (objs ++ [ob]) = insert (build area objs) ob := by
  simp [build, List.foldl_append]

theorem kd_area_build (area : Rect) (objs : List OBJ_T) : (build area objs).area = area := by
  induction objs using List.reverseRecOn with
  | nil => simp [build, SetArea]
  | append_singleton objs ob ih => rw [kd_build_append]; simpa [insert] using ih

theorem kd_root_build_snoc (area : Rect) (objs : List OBJ_T) (ob : OBJ_T) :
    (build area (objs ++ [ob])).root = insertNode (build area objs).root area ob 0 := by
  rw [kd_build_append]; simp [insert, kd_area_build]

theorem kd_mem_items_insertNode (n : KDNode OBJ_T) (r : Rect) (ob : OBJ_T) (depth : Nat)
    (o : OBJ_T) : o ∈ (insertNode n r ob depth).items ↔ o ∈ n.items ∨ o = ob := by
  induction n generalizing r depth with
  | null =>
    simp only [insertNode, KDNode.make]
    split_ifs <;> simp [KDNode.items]
  | mk area object left right v0 v1 d ihl ihr =>
    unfold insertNode
    split_ifs <;> simp [KDNode.items, ihl, ihr] <;> tauto

theorem kd_mem_items_build (area : Rect) (objs : List OBJ_T) (o : OBJ_T) :
    o ∈ (build area objs).root.items ↔ o ∈ objs := by
  induction objs using List.reverseRecOn with
  | nil => simp [build, SetArea, empty, KDNode.items]
  | append_singleton objs ob ih => rw [kd_root_build_snoc, kd_mem_items_insertNode, ih]; simp

/-- A point of `A` strictly before the split point lies in the first half, when
the computed far edge of the first half reaches the split point. -/
theorem containsPoint_first_half {A : Rect} {p q : Vec2} {dep : Nat}
    (hq : A.containsPoint q = true) (hlt : q.get (dep % 2) < p.get (dep % 2))
    (hreach : p.get (dep % 2) ≤
      (if dep % 2 = 0 then A.leftRect p else A.lowerRect p).pos.get (dep % 2) +
        (if dep % 2 = 0 then A.leftRect p else A.lowerRect p).size.get (dep % 2)) :
    (if dep % 2 = 0 then A.leftRect p else A.lowerRect p).containsPoint q = true := by
  rw [Rect.containsPoint_eq_true] at hq
  by_cases h : dep % 2 = 0
  · simp only [h, Vec2.get, if_true, Rect.leftRect] at hlt hreach ⊢
    simp only [Rect.containsPoint_eq_true]
    simp only [F32.le_iff_ord, F32.lt_iff_ord] at *
    refine ⟨?_, ?_, ?_, ?_⟩ <;> omega
  · simp only [h, Vec2.get, if_false, Rect.lowerRect] at hlt hreach ⊢
    simp only [Rect.containsPoint_eq_true]
    simp only [F32.le_iff_ord, F32.lt_iff_ord] at *
    refine ⟨?_, ?_, ?_, ?_⟩ <;> omega

/-- A point of `A` at or after the split point lies in the second half, when
the computed far edge of the second half reaches the far edge of `A`. -/
theorem containsPoint_second_half {A : Rect} {p q : Vec2} {dep : Nat}
    (hq : A.containsPoint q = true) (hge : ¬ q.get (dep % 2) < p.get (dep % 2))
    (hreach : A.pos.get (dep % 2) + A.size.get (dep % 2) ≤
      (if dep % 2 = 0 then A.rightRect p else A.upperRect p).pos.get (dep % 2) +
        (if dep % 2 = 0 then A.rightRect p else A.upperRect p).size.get (dep % 2)) :
    (if dep % 2 = 0 then A.rightRect p else A.upperRect p).containsPoint q = true := by
  rw [Rect.containsPoint_eq_true] at hq
  by_cases h : dep % 2 = 0
  · simp only [h, Vec2.get, if_true, Rect.rightRect, not_lt] at hge hreach ⊢
    simp only [Rect.containsPoint_eq_true]
    simp only [F32.le_iff_ord, F32.lt_iff_ord] at *
    refine ⟨?_, ?_, ?_, ?_⟩ <;> omega
  · simp only [h, Vec2.get, if_false, Rect.upperRect, not_lt] at hge hreach ⊢
    simp only [Rect.containsPoint_eq_true]
    simp only [F32.le_iff_ord, F32.lt_iff_ord] at *
    refine ⟨?_, ?_, ?_, ?_⟩ <;> omega

theorem kd_inv_make (ob : OBJ_T) (A : Rect) (dep : Nat)
    (h : A.containsPoint (SpatialObject.pos ob) = true) : (KDNode.make ob A dep).Inv A dep := by
  unfold KDNode.make
  by_cases hd : dep % 2 = 0
  · simp [hd, KDNode.Inv, KDNode.items, h]
  · simp [hd, KDNode.Inv, KDNode.items, h]

/-- The nodes of a tree are nodes of the tree after an insert, unchanged: if the
half rects reach in the tree after the insert, they reach in the tree
before. -/
theorem kd_halvesReach_insertNode (n : KDNode OBJ_T) (A : Rect) (ob : OBJ_T) (dep : Nat)
    (h : (insertNode n A ob dep).halvesReach = true) : n.halvesReach = true := by
  induction n generalizing A dep with
  | null => rfl
  | mk area object left right v0 v1 d ihl ihr =>
    unfold insertNode at h
    split_ifs at h with hlt
    · simp only [KDNode.halvesReach, Bool.and_eq_true] at h ⊢
      exact ⟨⟨⟨h.1.1.1, h.1.1.2⟩, ihl _ _ h.1.2⟩, h.2⟩
    · simp only [KDNode.halvesReach, Bool.and_eq_true] at h ⊢
      exact ⟨⟨⟨h.1.1.1, h.1.1.2⟩, h.1.2⟩, ihr _ _ h.2⟩

theorem kd_halvesReach_build_init (area : Rect) (objs : List OBJ_T) (ob : OBJ_T)
    (h : (build area (objs ++ [ob])).root.halvesReach = true) :
    (build area objs).root.halvesReach = true := by
  rw [kd_root_build_snoc] at h
  exact kd_halvesReach_insertNode _ _ _ _ h

theorem kd_inv_insertNode (n : KDNode OBJ_T) (A : Rect) (ob : OBJ_T) (dep : Nat)
    (hn : n.Inv A dep) (h : A.containsPoint (SpatialObject.pos ob) = true)
    (hr : (insertNode n A ob dep).halvesReach = true) :
    (insertNode n A ob dep).Inv A dep := by
  induction n generalizing A dep with
  | null => exact kd_inv_make ob A dep h
  | mk area object left right v0 v1 d ihl ihr =>
    obtain ⟨ha, hd, hv0, hv1, hp, m0, m1, hl, hr'⟩ := hn
    subst hd
    subst ha
    unfold insertNode at hr ⊢
    split_ifs at hr ⊢ with hlt
    · simp only [KDNode.halvesReach, Bool.and_eq_true, decide_eq_true_eq] at hr
      obtain ⟨⟨⟨r0, _⟩, rl⟩, _⟩ := hr
      have hin : v0.containsPoint (SpatialObject.pos ob) = true := by
        rw [hv0] at r0 ⊢
        exact containsPoint_first_half h hlt r0
      refine ⟨rfl, rfl, hv0, hv1, hp, ?_, m1, ihl v0 (d + 1) hl hin rl, hr'⟩
      intro o ho
      rcases (kd_mem_items_insertNode _ _ _ _ o).1 ho with ho | rfl
      · exact m0 o ho
      · exact hin
    · simp only [KDNode.halvesReach, Bool.and_eq_true, decide_eq_true_eq] at hr
      obtain ⟨⟨⟨_, r1⟩, _⟩, rr⟩ := hr
      have hin : v1.containsPoint (SpatialObject.pos ob) = true := by
        rw [hv1] at r1 ⊢
        exact containsPoint_second_half h hlt r1
      refine ⟨rfl, rfl, hv0, hv1, hp, m0, ?_, hl, ihr v1 (d + 1) hr' hin rr⟩
      intro o ho
      rcases (kd_mem_items_insertNode _ _ _ _ o).1 ho with ho | rfl
      · exact m1 o ho
      · exact hin

theorem kd_inv_build (area : Rect) (objs : List OBJ_T)
    (h : ∀ o ∈ objs, area.containsPoint (SpatialObject.pos o) = true)
    (hr : (build area objs).root.halvesReach = true) :
    (build area objs).root.Inv area 0 := by
  induction objs using List.reverseRecOn with
  | nil => simp [build, SetArea, empty, KDNode.Inv]
  | append_singleton objs ob ih =>
    have hpre := kd_halvesReach_build_init area objs ob hr
    rw [kd_root_build_snoc] at hr ⊢
    exact kd_inv_insertNode _ _ _ _ (ih (fun o ho => h o (by simp [ho])) hpre)
      (h ob (by simp)) hr

/-- A query whose closed rectangle has a point of `v` overlaps `v`. -/
theorem overlaps_of_common_point {r v : Rect} {p : Vec2} (hv : v.containsPoint p = true)
    (hr : r.ClosedHas p) : r.overlaps v = true := by
  rw [Rect.containsPoint_eq_true] at hv
  obtain ⟨h1, h2, h3, h4⟩ := hr
  rw [Rect.overlaps_eq_true]
  simp only [F32.le_iff_ord, F32.lt_iff_ord] at *
  refine ⟨?_, ?_, ?_, ?_⟩ <;> omega

theorem kd_searchNode_complete (n : KDNode OBJ_T) (A : Rect) (dep : Nat) (hn : n.Inv A dep)
    (r : Rect) (o : OBJ_T) (ho : o ∈ n.items) (hov : r.overlaps (GetArea o) = true)
    (hr : r.ClosedHas (SpatialObject.pos o)) : o ∈ searchNode n r := by
  induction n generalizing A dep with
  | null => simp [KDNode.items] at ho
  | mk area object left right v0 v1 d ihl ihr =>
    obtain ⟨_, _, _, _, _, m0, m1, hl, hr'⟩ := hn
    simp only [KDNode.items, List.mem_cons, List.mem_append] at ho
    simp only [searchNode, List.mem_append]
    rcases ho with rfl | ho | ho
    · left; simp [hov]
    · right; left
      split_ifs with h1 h2
      · exact ho
      · exact ihl v0 (dep + 1) hl ho
      · exact absurd (overlaps_of_common_point (m0 o ho) hr) h2
    · right; right
      split_ifs with h1 h2
      · exact ho
      · exact ihr v1 (dep + 1) hr' ho
      · exact absurd (overlaps_of_common_point (m1 o ho) hr) h2

/-- An object whose bounds contain its own position, positioned in a rect that
the query contains, has its bounds overlapped by the query. -/
theorem overlaps_of_contains_point {r v b : Rect} {p : Vec2} (hrv : r.contains v = true)
    (hv : v.containsPoint p = true) (hb : b.containsPoint p = true) :
    r.overlaps b = true := by
  rw [Rect.contains_eq_true] at hrv
  rw [Rect.containsPoint_eq_true] at hv hb
  rw [Rect.overlaps_eq_true]
  simp only [F32.le_iff_ord, F32.lt_iff_ord] at *
  refine ⟨?_, ?_, ?_, ?_⟩ <;> omega

theorem kd_searchNode_sound (n : KDNode OBJ_T) (A : Rect) (dep : Nat) (hn : n.Inv A dep)
    (r : Rect) (o : OBJ_T) (ho : o ∈ searchNode n r)
    (hself : (GetArea o).containsPoint (SpatialObject.pos o) = true) :
    r.overlaps (GetArea o) = true := by
  induction n generalizing A dep with
  | null => simp [searchNode] at ho
  | mk area object left right v0 v1 d ihl ihr =>
    obtain ⟨_, _, _, _, _, m0, m1, hl, hr'⟩ := hn
    simp only [searchNode, List.mem_append] at ho
    rcases ho with ho | ho | ho
    · split_ifs at ho with h
      · simp only [List.mem_singleton] at ho
        rw [ho]; exact h
      · simp at ho
    · split_ifs at ho with h1 h2
      · exact overlaps_of_contains_point h1 (m0 o ho) hself
      · exact ihl v0 (dep + 1) hl ho
      · simp at ho
    · split_ifs at ho with h1 h2
      · exact overlaps_of_contains_point h1 (m1 o ho) hself
      · exact ihr v1 (dep + 1) hr' ho
      · simp at ho

end KDTree

namespace KDTree

end KDTree

/-! ## Uniform grid -/

theorem zipWith_map_self {α β γ : Type} (g : α → β → γ) (f : α → β) (l : List α) :
    List.zipWith g l (l.map f) = l.map fun a => g a (f a) := by
  induction l with
  | nil => rfl
  | cons a l ih => simp [ih]

theorem zipWith_replicate_length {α β γ : Type} (g : α → β → γ) (b : β) (l : List α) :
    List.zipWith g l (List.replicate l.length b) = l.map fun a => g a b := by
  induction l with
  | nil => rfl
  | cons a l ih => simp [List.replicate_succ, ih]

theorem zip_map_self {α β : Type} (f : α → β) (l : List α) :
    List.zip l (l.map f) = l.map fun a => (a, f a) := by
  induction l with
  | nil => rfl
  | cons a l ih => simp [ih]

theorem length_flatMap_map_range {β : Type} (F : Nat → Nat → β) (n : Nat) (l : List Nat) :
    (l.flatMap fun y => (List.range n).map fun x => F x y).length = n * l.length := by
  induction l with
  | nil => simp
  | cons a l ih => simp [List.flatMap_cons, ih, Nat.mul_succ, Nat.add_comm]

namespace GridTree

theorem length_cells {T : Type} (r : Rect) (cc : Nat × Nat) :
    (GridNode.make r cc : GridNode T).vCellAreas.length = cc.1 * cc.2 := by
  show ((List.range cc.2).flatMap fun y =>
    (List.range cc.1).map fun x => GridNode.cellArea r cc x y).length = _
  rw [length_flatMap_map_range, List.length_range]

theorem mem_cells {T : Type} (r : Rect) (cc : Nat × Nat) (c : Rect) :
    c ∈ (GridNode.make r cc : GridNode T).vCellAreas ↔
      ∃ y, y < cc.2 ∧ ∃ x, x < cc.1 ∧ GridNode.cellArea r cc x y = c := by
  simp [GridNode.make]

variable {OBJ_T : Type} [SpatialObject OBJ_T]

theorem insertCells_make (r : Rect) (cc : Nat × Nat) (obj : OBJ_T) :
    insertCells (GridNode.make r cc) obj = GridNode.filled r cc [obj] := by
  have h := @length_cells OBJ_T r cc
  unfold insertCells GridNode.filled
  congr 1
  show List.zipWith _ _ (List.replicate (cc.1 * cc.2) []) = _
  rw [← h, zipWith_replicate_length]
  apply List.map_congr_left
  intro c _
  by_cases hc : (c.contains (GetArea obj) || c.overlaps (GetArea obj)) = true
  · simp [hc, List.filter]
  · simp [hc, List.filter]

theorem insertCells_filled (r : Rect) (cc : Nat × Nat) (objs : List OBJ_T) (obj : OBJ_T) :
    insertCells (GridNode.filled r cc objs) obj = GridNode.filled r cc (objs ++ [obj]) := by
  unfold insertCells GridNode.filled
  congr 1
  show List.zipWith _ _ (List.map _ _) = _
  rw [zipWith_map_self]
  apply List.map_congr_left
  intro c _
  by_cases hc : (c.contains (GetArea obj) || c.overlaps (GetArea obj)) = true
  · simp [hc, List.filter_append, List.filter]
  · simp [hc, List.filter_append, List.filter]

theorem grid_build_append (area : Rect) (cc : Nat × Nat) (objs : List OBJ_T) (obj : OBJ_T) :
    build area cc (objs ++ [obj]) = insert (build area cc objs) obj := by
  simp [build, List.foldl_append]

theorem grid_fields_build (area : Rect) (cc : Nat × Nat) (objs : List OBJ_T) :
    (build area cc objs).area = area ∧ (build area cc objs).cellCounts = cc := by
  induction objs using List.reverseRecOn with
  | nil => simp [build, SetArea]
  | append_singleton objs obj ih =>
    rw [grid_build_append]
    unfold insert
    split <;> exact ih

/-- The root after at least one insert: every cell lists the inserted objects
it contains or overlaps, in insertion order. -/
theorem grid_root_build (area : Rect) (cc : Nat × Nat) (objs : List OBJ_T) (h : objs ≠ []) :
    (build area cc objs).root = some (GridNode.filled area cc objs) := by
  induction objs using List.reverseRecOn with
  | nil => exact absurd rfl h
  | append_singleton objs obj ih =>
    rw [grid_build_append]
    obtain ⟨ha, hc⟩ := grid_fields_build area cc objs
    by_cases hn : objs = []
    · subst hn
      simp [build, SetArea, empty, insert, insertCells_make]
    · have hr := ih hn
      unfold insert
      rw [hr]
      simp [insertCells_filled]

theorem grid_root_build_nil (area : Rect) (cc : Nat × Nat) :
    (build area cc ([] : List OBJ_T)).root = none := by
  simp [build, SetArea, empty]

theorem mem_searchCells_filled (area : Rect) (cc : Nat × Nat) (objs : List OBJ_T) (r : Rect)
    (o : OBJ_T) :
    o ∈ searchCells (GridNode.filled area cc objs) r ↔
      ∃ y, y < cc.2 ∧ ∃ x, x < cc.1 ∧
        (o ∈ objs ∧
          ((GridNode.cellArea area cc x y).contains (GetArea o) = true ∨
            (GridNode.cellArea area cc x y).overlaps (GetArea o) = true)) ∧
        (r.contains (GridNode.cellArea area cc x y) = true ∨
          (r.overlaps (GridNode.cellArea area cc x y) = true ∧
            (r.overlaps (GetArea o) = true ∨ r.contains (GetArea o) = true))) := by
  unfold searchCells GridNode.filled
  simp only [zip_map_self, List.mem_flatMap, List.mem_map]
  constructor
  · rintro ⟨p, ⟨c, hc, rfl⟩, hp⟩
    obtain ⟨y, hy, x, hx, rfl⟩ := (mem_cells area cc c).1 hc
    refine ⟨y, hy, x, hx, ?_⟩
    simp only [List.mem_append] at hp
    rcases hp with hp | hp
    · split_ifs at hp with h1
      · simp only [List.mem_filter, Bool.or_eq_true] at hp
        exact ⟨hp, Or.inl h1⟩
      · simp at hp
    · split_ifs at hp with h1
      · simp only [List.mem_filter, Bool.or_eq_true] at hp
        exact ⟨hp.1, Or.inr ⟨h1, hp.2⟩⟩
      · simp at hp
  · rintro ⟨y, hy, x, hx, hin, hq⟩
    refine ⟨_, ⟨GridNode.cellArea area cc x y, (mem_cells area cc _).2 ⟨y, hy, x, hx, rfl⟩, rfl⟩,
      ?_⟩
    simp only [List.mem_append]
    rcases hq with hq | ⟨hq1, hq2⟩
    · left
      rw [if_pos hq]
      simp only [List.mem_filter, Bool.or_eq_true]
      exact hin
    · right
      rw [if_pos hq1]
      simp only [List.mem_filter, Bool.or_eq_true]
      exact ⟨hin, hq2⟩

end GridTree

namespace GridTree

/-- For bounds `a` inside the domain that the query overlaps there is a point
of the domain such that every rect holding the point (`Rect::contains(point)`)
contains or overlaps `a` and is overlapped by the query: the point whose
coordinates are the larger of the two origins on each axis. -/
theorem exists_point_for {D r a : Rect} (hr : r.NonNegSize) (hin : D.contains a = true)
    (hext : a.Spans ∨ a.Pointlike) (hov : r.overlaps a = true) :
    ∃ q : Vec2, D.containsPoint q = true ∧
      ∀ c : Rect, c.containsPoint q = true →
        (c.contains a = true ∨ c.overlaps a = true) ∧ r.overlaps c = true := by
  rw [Rect.contains_eq_true] at hin
  rw [Rect.overlaps_eq_true] at hov
  have hrx := F32.le_add_of_nonneg r.pos.x r.size.x hr.1
  have hry := F32.le_add_of_nonneg r.pos.y r.size.y hr.2
  obtain ⟨qx, x1, x2, x3⟩ : ∃ qx : F32, r.pos.x ≤ qx ∧ a.pos.x ≤ qx ∧
      (qx = r.pos.x ∨ qx = a.pos.x) :=
    ⟨max r.pos.x a.pos.x, le_max_left _ _, le_max_right _ _, max_choice _ _⟩
  obtain ⟨qy, y1, y2, y3⟩ : ∃ qy : F32, r.pos.y ≤ qy ∧ a.pos.y ≤ qy ∧
      (qy = r.pos.y ∨ qy = a.pos.y) :=
    ⟨max r.pos.y a.pos.y, le_max_left _ _, le_max_right _ _, max_choice _ _⟩
  refine ⟨⟨qx, qy⟩, ?_, ?_⟩
  · rw [Rect.containsPoint_eq_true]
    rcases hext with hs | hs
    · obtain ⟨s1, s2⟩ := hs
      simp only [F32.le_iff_ord, F32.lt_iff_ord, F32.eq_iff_ord] at *
      refine ⟨?_, ?_, ?_, ?_⟩ <;> omega
    · obtain ⟨s1, s2⟩ := hs
      simp only [F32.le_iff_ord, F32.lt_iff_ord, F32.eq_iff_ord] at *
      refine ⟨?_, ?_, ?_, ?_⟩ <;> omega
  · intro c hc
    rw [Rect.containsPoint_eq_true] at hc
    rcases hext with hs | hs
    · obtain ⟨s1, s2⟩ := hs
      refine ⟨Or.inr ?_, ?_⟩
      · rw [Rect.overlaps_eq_true]
        simp only [F32.le_iff_ord, F32.lt_iff_ord, F32.eq_iff_ord] at *
        refine ⟨?_, ?_, ?_, ?_⟩ <;> omega
      · rw [Rect.overlaps_eq_true]
        simp only [F32.le_iff_ord, F32.lt_iff_ord, F32.eq_iff_ord] at *
        refine ⟨?_, ?_, ?_, ?_⟩ <;> omega
    · obtain ⟨s1, s2⟩ := hs
      refine ⟨Or.inl ?_, ?_⟩
      · rw [Rect.contains_eq_true]
        simp only [F32.le_iff_ord, F32.lt_iff_ord, F32.eq_iff_ord] at *
        refine ⟨?_, ?_, ?_, ?_⟩ <;> omega
      · rw [Rect.overlaps_eq_true]
        simp only [F32.le_iff_ord, F32.lt_iff_ord, F32.eq_iff_ord] at *
        refine ⟨?_, ?_, ?_, ?_⟩ <;> omega

variable {OBJ_T : Type} [SpatialObject OBJ_T]

/-- C6 (as amended): for every domain and cell counts whose cells, as the
constructor computes them, cover the domain, every sequence of inserted objects
and every query rect `r` of non-negative size, each inserted object whose
bounds lie inside the domain (`domain.contains(bounds)`), have a computed far
corner `pos + size` that is strictly beyond `pos` on both axes or equal to
`pos` on both axes, and are overlapped by `r` appears in `search(r)`. -/
theorem grid_search_complete (area : Rect) (cc : Nat × Nat)
    (hcov : (GridNode.make area cc : GridNode OBJ_T).Covers)
    (objs : List OBJ_T) (r : Rect) (hr : r.NonNegSize) (o : OBJ_T) (ho : o ∈ objs)
    (hin : area.contains (GetArea o) = true)
    (hext : (GetArea o).Spans ∨ (GetArea o).Pointlike)
    (hov : r.overlaps (GetArea o) = true) :
    ∃ res, (build area cc objs).search r = some res ∧ o ∈ res := by
  have hne : objs ≠ [] := List.ne_nil_of_mem ho
  refine ⟨searchCells (GridNode.filled area cc objs) r, ?_, ?_⟩
  · simp [search, grid_root_build area cc objs hne]
  · rw [mem_searchCells_filled]
    obtain ⟨q, hq, hall⟩ := exists_point_for hr hin hext hov
    obtain ⟨c, hc, hcq⟩ := hcov q hq
    obtain ⟨y, hy, x, hx, rfl⟩ := (mem_cells area cc c).1 hc
    obtain ⟨h1, h2⟩ := hall _ hcq
    exact ⟨y, hy, x, hx, ⟨ho, h1⟩, Or.inr ⟨h2, Or.inl hov⟩⟩

theorem overlaps_of_contains_of_overlaps {r c a : Rect} (h1 : r.contains c = true)
    (h2 : c.overlaps a = true) : r.overlaps a = true := by
  rw [Rect.contains_eq_true] at h1
  rw [Rect.overlaps_eq_true] at h2 ⊢
  simp only [F32.le_iff_ord, F32.lt_iff_ord] at *
  refine ⟨?_, ?_, ?_, ?_⟩ <;> omega

theorem contains_trans {r c a : Rect} (h1 : r.contains c = true) (h2 : c.contains a = true) :
    r.contains a = true := Rect.contains_of_contains_of_contains h1 h2

/-- C7 (as amended): for every sequence of inserted objects and every query
rect `r`, every element of `search(r)` has `r.overlaps(GetArea())` or
`r.contains(GetArea())`, and has `r.overlaps(GetArea())` when the computed far
corner `pos + size` of its bounds is strictly beyond `pos` on both axes; this
includes the objects emitted from a cell that `r` contains. -/
theorem grid_search_sound (area : Rect) (cc : Nat × Nat) (objs : List OBJ_T) (r : Rect)
    (res : List OBJ_T) (hres : (build area cc objs).search r = some res)
    (o : OBJ_T) (ho : o ∈ res) :
    (r.overlaps (GetArea o) = true ∨ r.contains (GetArea o) = true) ∧
      ((GetArea o).Spans → r.overlaps (GetArea o) = true) := by
  by_cases hne : objs = []
  · subst hne
    simp [search, grid_root_build_nil] at hres
  · simp only [search, grid_root_build area cc objs hne, Option.map_some',
      Option.some.injEq] at hres
    subst hres
    rw [mem_searchCells_filled] at ho
    obtain ⟨y, _, x, _, ⟨_, hc⟩, hq⟩ := ho
    have key : r.overlaps (GetArea o) = true ∨ r.contains (GetArea o) = true := by
      rcases hq with hq | ⟨_, hq⟩
      · rcases hc with hc | hc
        · exact Or.inr (contains_trans hq hc)
        · exact Or.inl (overlaps_of_contains_of_overlaps hq hc)
      · exact hq
    refine ⟨key, fun hp => ?_⟩
    rcases key with h | h
    · exact h
    · exact Rect.overlaps_of_contains_spans h hp

end GridTree

namespace GridTree

/-- The four cells of the 2 x 2 grid over `{{0, 0}, {100, 100}}` cover the
domain. -/
theorem covers_domain_two_by_two :
    (GridNode.make Example.domain (2, 2) : GridNode Rect).Covers := by
  intro p hp
  have hcells : (GridNode.make Example.domain (2, 2) : GridNode Rect).vCellAreas
      = [⟨⟨0, 0⟩, ⟨50, 50⟩⟩, ⟨⟨50, 0⟩, ⟨50, 50⟩⟩, ⟨⟨0, 50⟩, ⟨50, 50⟩⟩,
          ⟨⟨50, 50⟩, ⟨50, 50⟩⟩] := by decide!
  have e1 : (0 : F32) + 50 = 50 := by decide!
  have e2 : (50 : F32) + 50 = 100 := by decide!
  have e3 : (0 : F32) + 100 = 100 := by decide!
  have hp' : Example.domain.containsPoint p = true := hp
  rw [Rect.containsPoint_eq_true] at hp'
  simp only [Example.domain, e3] at hp'
  obtain ⟨p1, p2, p3, p4⟩ := hp'
  rw [hcells]
  by_cases hx : p.x < 50 <;> by_cases hy : p.y < 50
  · refine ⟨⟨⟨0, 0⟩, ⟨50, 50⟩⟩, by simp, ?_⟩
    rw [Rect.containsPoint_eq_true]
    simp only [e1]
    exact ⟨p1, p2, hx, hy⟩
  · refine ⟨⟨⟨0, 50⟩, ⟨50, 50⟩⟩, by simp, ?_⟩
    rw [Rect.containsPoint_eq_true]
    simp only [e1, e2]
    exact ⟨p1, not_lt.1 hy, hx, p4⟩
  · refine ⟨⟨⟨50, 0⟩, ⟨50, 50⟩⟩, by simp, ?_⟩
    rw [Rect.containsPoint_eq_true]
    simp only [e1, e2]
    exact ⟨not_lt.1 hx, p2, p3, hy⟩
  · refine ⟨⟨⟨50, 50⟩, ⟨50, 50⟩⟩, by simp, ?_⟩
    rw [Rect.containsPoint_eq_true]
    simp only [e2]
    exact ⟨not_lt.1 hx, not_lt.1 hy, p3, p4⟩

/-- C6 (counterexample): the object with bounds `{{0, 45}, {0, 10}}` (zero
width, inside the domain) is stored in no cell of the 2 x 2 grid, so the query
`{{-10, 40}, {20, 20}}`, which overlaps it, returns nothing. And over the
domain `{{50, 0}, {100, 100}}` the object with bounds `{{50, 45}, {1e-7, 10}}`,
of positive size and inside the domain, is stored in no cell either, because
`50 + 1e-7` rounds to `50`; the query `{{40, 40}, {20, 20}}` overlaps it and
returns nothing. -/
theorem grid_search_misses_sliver :
    (Example.domain.PosSize ∧ Example.queryEdge.NonNegSize ∧
      Example.domain.contains (GetArea Example.objSliver) = true ∧
      (GetArea Example.objSliver).NonNegSize ∧
      Example.queryEdge.overlaps (GetArea Example.objSliver) = true ∧
      (build Example.domain (2, 2) [Example.objSliver]).search Example.queryEdge = some []) ∧
    (Example.domainShifted.PosSize ∧ Example.queryForty.NonNegSize ∧
      Example.domainShifted.contains (GetArea Example.objThin) = true ∧
      (GetArea Example.objThin).PosSize ∧
      Example.queryForty.overlaps (GetArea Example.objThin) = true ∧
      (build Example.domainShifted (2, 2) [Example.objThin]).search Example.queryForty
        = some []) := by
  decide!

/-- C6 (as amended) at a concrete input: the box `{{10, 45}, {10, 10}}` spans
two cells of the 2 x 2 grid and is found by the query `{{-10, 40}, {20, 20}}`
that touches its left edge. -/
theorem grid_search_complete_witness :
    (GridNode.make Example.domain (2, 2) : GridNode Rect).Covers ∧
      Example.queryEdge.NonNegSize ∧ Example.objBox ∈ [Example.objSliver, Example.objBox] ∧
      Example.domain.contains (GetArea Example.objBox) = true ∧
      ((GetArea Example.objBox).Spans ∨ (GetArea Example.objBox).Pointlike) ∧
      Example.queryEdge.overlaps (GetArea Example.objBox) = true ∧
      ∃ res, (build Example.domain (2, 2) [Example.objSliver, Example.objBox]).search
          Example.queryEdge = some res ∧ Example.objBox ∈ res :=
  ⟨covers_domain_two_by_two, by decide!, by decide!, by decide!, by decide!, by decide!,
    grid_search_complete Example.domain (2, 2) covers_domain_two_by_two
      [Example.objSliver, Example.objBox] Example.queryEdge (by decide!) Example.objBox
      (by decide!) (by decide!) (by decide!) (by decide!)⟩

/-- C7 (counterexample): the circle of radius 0 at `(0, 0)` is returned (twice)
for the query `{{0, 0}, {60, 60}}`, which contains its cell and does not
overlap its area. And the circle of radius `5e-8f` at `(50, 50)`, whose bounds
have positive size, is returned (twice) for the query `{{50, 50}, {60, 60}}`,
which contains its cell and does not overlap its bounds. -/
theorem grid_search_returns_non_overlapping :
    ((GetArea Example.objPoint).NonNegSize ∧
      (build Example.domain (2, 2) [Example.objPoint]).search Example.querySixty
        = some [Example.objPoint, Example.objPoint] ∧
      Example.querySixty.overlaps (GetArea Example.objPoint) = false) ∧
    ((GetArea Example.objSpeck).PosSize ∧
      (build Example.domain (2, 2) [Example.objSpeck]).search Example.queryCorner
        = some [Example.objSpeck, Example.objSpeck] ∧
      Example.queryCorner.overlaps (GetArea Example.objSpeck) = false) := by
  decide!

/-- C7 (as amended) at a concrete input: circle A lies in the first cell of
the 2 x 2 grid, which the query `{{0, 0}, {60, 60}}` contains. -/
theorem grid_search_sound_witness :
    (build Example.domain (2, 2) [Example.objA, Example.objB]).search Example.querySixty
        = some [Example.objA, Example.objA] ∧
      Example.objA ∈ [Example.objA, Example.objA] ∧
      (GetArea Example.objA).Spans ∧
      (Example.querySixty.overlaps (GetArea Example.objA) = true ∨
        Example.querySixty.contains (GetArea Example.objA) = true) ∧
      ((GetArea Example.objA).Spans →
        Example.querySixty.overlaps (GetArea Example.objA) = true) :=
  ⟨by decide!, by decide!, by decide!,
    grid_search_sound Example.domain (2, 2) [Example.objA, Example.objB] Example.querySixty
      [Example.objA, Example.objA] (by decide!) Example.objA (by decide!)⟩

end GridTree

/-! ## Dynamic quadtree -/

namespace Node

variable {T : Type}

theorem items_filterObjs (p : T → Bool) (n : Node T) :
    (filterObjs p n).items = n.items.filter p := by
  induction n with
  | null => rfl
  | mk area d s0 s1 s2 s3 n0 n1 n2 n3 objs ih0 ih1 ih2 ih3 =>
    simp [filterObjs, items, ih0, ih1, ih2, ih3, List.filter_append]

theorem isSome_filterObjs (p : T → Bool) (n : Node T) : (filterObjs p n).isSome = n.isSome := by
  cases n <;> rfl

theorem filterObjs_eq_self (p : T → Bool) (n : Node T) (h : ∀ x ∈ n.items, p x = true) :
    filterObjs p n = n := by
  induction n with
  | null => rfl
  | mk area d s0 s1 s2 s3 n0 n1 n2 n3 objs ih0 ih1 ih2 ih3 =>
    simp only [items, List.mem_append] at h
    rw [filterObjs, ih0 fun x hx => h x (by tauto), ih1 fun x hx => h x (by tauto),
      ih2 fun x hx => h x (by tauto), ih3 fun x hx => h x (by tauto),
      List.filter_eq_self.2 fun x hx => h x (by tauto)]

theorem searchChild_filterObjs (p : T → Bool) (r s : Rect) (n : Node T) (d1 d2 : List T)
    (h : d1 = d2.filter p) :
    searchChild r s (filterObjs p n) d1 = (searchChild r s n d2).filter p := by
  unfold searchChild
  rw [isSome_filterObjs, items_filterObjs, h]
  split_ifs <;> simp

end Node

namespace DynamicQuadTree

theorem dyn_count_items_insertNew (k : Nat) (r : Rect) (obj : Nat) (a : Rect) (depth x : Nat) :
    (insertNew k r obj a depth).1.items.count x = [obj].count x := by
  induction k generalizing r depth with
  | zero => simp [insertNew, Node.items]
  | succ k ih =>
    unfold insertNew
    split_ifs <;> simp [Node.items, ih]

theorem dyn_count_items_insertNode (n : Node Nat) (r : Rect) (obj : Nat) (a : Rect)
    (depth x : Nat) :
    (insertNode n r obj a depth).1.items.count x = n.items.count x + [obj].count x := by
  induction n generalizing r depth with
  | null => simp [insertNode, dyn_count_items_insertNew, Node.items]
  | mk area d s0 s1 s2 s3 n0 n1 n2 n3 objs ih0 ih1 ih2 ih3 =>
    unfold insertNode
    split_ifs <;> simp only [Node.items, List.count_append, ih0, ih1, ih2, ih3] <;> omega

theorem dyn_mem_items_insertNode (n : Node Nat) (r : Rect) (obj : Nat) (a : Rect)
    (depth x : Nat) :
    x ∈ (insertNode n r obj a depth).1.items ↔ x ∈ n.items ∨ x = obj := by
  rw [← List.count_pos_iff, dyn_count_items_insertNode, ← List.count_pos_iff]
  by_cases hx : x = obj
  · subst hx; simp
  · have : List.count x [obj] = 0 := by
      rw [List.count_eq_zero]; simpa using hx
    simp [this, hx]

theorem dyn_nodup_items_insertNode (n : Node Nat) (r : Rect) (obj : Nat) (a : Rect)
    (depth : Nat) (hn : n.items.Nodup) (hobj : obj ∉ n.items) :
    (insertNode n r obj a depth).1.items.Nodup := by
  rw [List.nodup_iff_count_le_one] at hn ⊢
  intro x
  rw [dyn_count_items_insertNode]
  by_cases hx : x = obj
  · subst hx
    have : List.count x n.items = 0 := List.count_eq_zero.2 hobj
    simp [this]
  · have : List.count x [obj] = 0 := by
      rw [List.count_eq_zero]; simpa using hx
    have := hn x
    omega

theorem dyn_isSome_insertNew (k : Nat) (r : Rect) (obj : Nat) (a : Rect) (depth : Nat) :
    (insertNew k r obj a depth).1.isSome = true := by
  cases k with
  | zero => simp [insertNew, Node.isSome]
  | succ k =>
    unfold insertNew
    split_ifs <;> simp [Node.isSome]

theorem dyn_isSome_insertNode (n : Node Nat) (r : Rect) (obj : Nat) (a : Rect) (depth : Nat) :
    (insertNode n r obj a depth).1.isSome = true := by
  cases n with
  | null => simp [insertNode, dyn_isSome_insertNew]
  | mk area d s0 s1 s2 s3 n0 n1 n2 n3 objs =>
    unfold insertNode
    split_ifs <;> simp [Node.isSome]

theorem dyn_size_insertNew (k : Nat) (r : Rect) (obj : Nat) (a : Rect) (depth : Nat) :
    (insertNew k r obj a depth).1.size = 1 := by
  induction k generalizing r depth with
  | zero => simp [insertNew, Node.size]
  | succ k ih =>
    unfold insertNew
    split_ifs <;> simp [Node.size, ih]

theorem dyn_size_insertNode (n : Node Nat) (r : Rect) (obj : Nat) (a : Rect) (depth : Nat) :
    (insertNode n r obj a depth).1.size = n.size + 1 := by
  induction n generalizing r depth with
  | null => simp [insertNode, dyn_size_insertNew, Node.size]
  | mk area d s0 s1 s2 s3 n0 n1 n2 n3 objs ih0 ih1 ih2 ih3 =>
    unfold insertNode
    split_ifs <;> simp [Node.size, ih0, ih1, ih2, ih3] <;> omega

/-- The location returned by `insert` designates a list holding the handle. -/
theorem dyn_listAt_insertNew (k : Nat) (r : Rect) (obj : Nat) (a : Rect) (depth : Nat) :
    ∃ l, listAt (insertNew k r obj a depth).1 (insertNew k r obj a depth).2 = some l ∧
      obj ∈ l := by
  induction k generalizing r depth with
  | zero => exact ⟨[obj], by simp [insertNew, listAt]⟩
  | succ k ih =>
    unfold insertNew
    split_ifs
    · simpa [listAt] using ih (Node.quad0 r) (depth + 1)
    · simpa [listAt] using ih (Node.quad1 r) (depth + 1)
    · simpa [listAt] using ih (Node.quad2 r) (depth + 1)
    · simpa [listAt] using ih (Node.quad3 r) (depth + 1)
    · exact ⟨[obj], by simp [listAt]⟩

theorem dyn_listAt_insertNode (n : Node Nat) (r : Rect) (obj : Nat) (a : Rect) (depth : Nat) :
    ∃ l, listAt (insertNode n r obj a depth).1 (insertNode n r obj a depth).2 = some l ∧
      obj ∈ l := by
  induction n generalizing r depth with
  | null => simpa [insertNode] using dyn_listAt_insertNew _ r obj a depth
  | mk area d s0 s1 s2 s3 n0 n1 n2 n3 objs ih0 ih1 ih2 ih3 =>
    unfold insertNode
    split_ifs
    · simpa [listAt] using ih0 s0 (d + 1)
    · simpa [listAt] using ih1 s1 (d + 1)
    · simpa [listAt] using ih2 s2 (d + 1)
    · simpa [listAt] using ih3 s3 (d + 1)
    · exact ⟨objs ++ [obj], by simp [listAt]⟩

/-- Insertion keeps every node list reachable and only ever extends it. -/
theorem dyn_listAt_mono (n : Node Nat) (r : Rect) (obj : Nat) (a : Rect) (depth : Nat)
    (path : List Nat) (l : List Nat) (h : listAt n path = some l) :
    ∃ l1, listAt (insertNode n r obj a depth).1 path = some l1 ∧ ∀ x ∈ l, x ∈ l1 := by
  induction n generalizing r depth path with
  | null => simp [listAt] at h
  | mk area d s0 s1 s2 s3 n0 n1 n2 n3 objs ih0 ih1 ih2 ih3 =>
    cases path with
    | nil =>
      simp only [listAt, Option.some.injEq] at h
      subst h
      unfold insertNode
      split_ifs <;> simp [listAt]
      intro x hx
      exact Or.inl hx
    | cons i path =>
      simp only [listAt] at h
      unfold insertNode
      split_ifs at h with i0 i1 i2 i3
      · subst i0
        split_ifs
        · simpa [listAt] using ih0 s0 (d + 1) path h
        all_goals exact ⟨l, by simp [listAt, h], fun x hx => hx⟩
      · subst i1
        split_ifs
        · exact ⟨l, by simp [listAt, h], fun x hx => hx⟩
        · simpa [listAt] using ih1 s1 (d + 1) path h
        all_goals exact ⟨l, by simp [listAt, h], fun x hx => hx⟩
      · subst i2
        split_ifs
        · exact ⟨l, by simp [listAt, h], fun x hx => hx⟩
        · exact ⟨l, by simp [listAt, h], fun x hx => hx⟩
        · simpa [listAt] using ih2 s2 (d + 1) path h
        all_goals exact ⟨l, by simp [listAt, h], fun x hx => hx⟩
      · subst i3
        split_ifs
        · exact ⟨l, by simp [listAt, h], fun x hx => hx⟩
        · exact ⟨l, by simp [listAt, h], fun x hx => hx⟩
        · exact ⟨l, by simp [listAt, h], fun x hx => hx⟩
        · simpa [listAt] using ih3 s3 (d + 1) path h
        · exact ⟨l, by simp [listAt, h], fun x hx => hx⟩

theorem listAt_filterObjs (p : Nat → Bool) (n : Node Nat) (path : List Nat) :
    listAt (Node.filterObjs p n) path = (listAt n path).map (List.filter p) := by
  induction n generalizing path with
  | null => simp [Node.filterObjs, listAt]
  | mk area d s0 s1 s2 s3 n0 n1 n2 n3 objs ih0 ih1 ih2 ih3 =>
    cases path with
    | nil => simp [Node.filterObjs, listAt]
    | cons i path =>
      simp only [Node.filterObjs, listAt, ih0, ih1, ih2, ih3]
      split_ifs <;> simp

theorem mem_items_of_eraseAt (n : Node Nat) (path : List Nat) (h : Nat) (n1 : Node Nat)
    (he : eraseAt n path h = some n1) : h ∈ n.items := by
  induction n generalizing path n1 with
  | null => simp [eraseAt] at he
  | mk area d s0 s1 s2 s3 n0 n1 n2 n3 objs ih0 ih1 ih2 ih3 =>
    cases path with
    | nil =>
      simp only [eraseAt] at he
      split_ifs at he with hm
      simp [Node.items, hm]
    | cons i path =>
      simp only [eraseAt] at he
      simp only [Node.items, List.mem_append]
      split_ifs at he
      · obtain ⟨m, hm, _⟩ := Option.map_eq_some'.1 he
        exact Or.inr (Or.inl (ih0 _ _ hm))
      · obtain ⟨m, hm, _⟩ := Option.map_eq_some'.1 he
        exact Or.inr (Or.inr (Or.inl (ih1 _ _ hm)))
      · obtain ⟨m, hm, _⟩ := Option.map_eq_some'.1 he
        exact Or.inr (Or.inr (Or.inr (Or.inl (ih2 _ _ hm))))
      · obtain ⟨m, hm, _⟩ := Option.map_eq_some'.1 he
        exact Or.inr (Or.inr (Or.inr (Or.inr (ih3 _ _ hm))))

/-- One removal takes exactly one entry out of the tree. -/
theorem size_eraseAt (n : Node Nat) (path : List Nat) (h : Nat) (n1 : Node Nat)
    (he : eraseAt n path h = some n1) : n1.size + 1 = n.size := by
  induction n generalizing path n1 with
  | null => simp [eraseAt] at he
  | mk area d s0 s1 s2 s3 c0 c1 c2 c3 objs ih0 ih1 ih2 ih3 =>
    cases path with
    | nil =>
      simp only [eraseAt] at he
      split_ifs at he with hm
      simp only [Option.some.injEq] at he
      subst he
      have hl := List.length_erase_of_mem hm
      have hpos : 0 < objs.length := List.length_pos_of_mem hm
      simp only [Node.size, hl]
      omega
    | cons i path =>
      simp only [eraseAt] at he
      split_ifs at he
      · obtain ⟨m, hm, rfl⟩ := Option.map_eq_some'.1 he
        have := ih0 _ _ hm
        simp only [Node.size]; omega
      · obtain ⟨m, hm, rfl⟩ := Option.map_eq_some'.1 he
        have := ih1 _ _ hm
        simp only [Node.size]; omega
      · obtain ⟨m, hm, rfl⟩ := Option.map_eq_some'.1 he
        have := ih2 _ _ hm
        simp only [Node.size]; omega
      · obtain ⟨m, hm, rfl⟩ := Option.map_eq_some'.1 he
        have := ih3 _ _ hm
        simp only [Node.size]; omega

/-- A back-reference that designates a list with an entry for the handle can
be erased. -/
theorem eraseAt_isSome (n : Node Nat) (path : List Nat) (h : Nat) (l : List Nat)
    (hl : listAt n path = some l) (hm : h ∈ l) : ∃ n1, eraseAt n path h = some n1 := by
  induction n generalizing path with
  | null => simp [listAt] at hl
  | mk area d s0 s1 s2 s3 c0 c1 c2 c3 objs ih0 ih1 ih2 ih3 =>
    cases path with
    | nil =>
      simp only [listAt, Option.some.injEq] at hl
      subst hl
      exact ⟨_, by rw [eraseAt, if_pos hm]⟩
    | cons i path =>
      simp only [listAt] at hl
      simp only [eraseAt]
      split_ifs at hl ⊢
      · obtain ⟨m, hm1⟩ := ih0 _ hl; exact ⟨_, by rw [hm1]; rfl⟩
      · obtain ⟨m, hm1⟩ := ih1 _ hl; exact ⟨_, by rw [hm1]; rfl⟩
      · obtain ⟨m, hm1⟩ := ih2 _ hl; exact ⟨_, by rw [hm1]; rfl⟩
      · obtain ⟨m, hm1⟩ := ih3 _ hl; exact ⟨_, by rw [hm1]; rfl⟩

end DynamicQuadTree

namespace DynamicQuadTree

theorem erase_eq_filter_of_nodup (l : List Nat) (h : Nat) (hl : l.Nodup) :
    l.erase h = l.filter fun x => x != h := by
  rw [List.Nodup.erase_eq_filter hl]

/-- On a tree without repeated handles, erasing the entry for `h` through its
back-reference is the same as dropping `h` from every node list. -/
theorem eraseAt_eq_filterObjs (n : Node Nat) (path : List Nat) (h : Nat) (n1 : Node Nat)
    (he : eraseAt n path h = some n1) (hn : n.items.Nodup) :
    n1 = Node.filterObjs (fun x => x != h) n := by
  induction n generalizing path n1 with
  | null => simp [eraseAt] at he
  | mk area d s0 s1 s2 s3 c0 c1 c2 c3 objs ih0 ih1 ih2 ih3 =>
    simp only [Node.items] at hn
    have hcount : ∀ x, List.count x objs + List.count x c0.items + List.count x c1.items +
        List.count x c2.items + List.count x c3.items ≤ 1 := by
      intro x
      have := List.nodup_iff_count_le_one.1 hn x
      simp only [List.count_append] at this
      omega
    have keep : ∀ (c : Node Nat), List.count h c.items = 0 →
        Node.filterObjs (fun x => x != h) c = c := by
      intro c hc
      apply Node.filterObjs_eq_self
      intro x hx
      have : x ≠ h := by
        rintro rfl
        exact (List.count_eq_zero.1 hc) hx
      simpa using this
    have keepl : List.count h objs = 0 → objs.filter (fun x => x != h) = objs := by
      intro hc
      rw [List.filter_eq_self]
      intro x hx
      have : x ≠ h := by
        rintro rfl
        exact (List.count_eq_zero.1 hc) hx
      simpa using this
    have nd : ∀ (c : Node Nat), List.count h c.items ≤ 1 → True := fun _ _ => trivial
    have hh := hcount h
    cases path with
    | nil =>
      simp only [eraseAt] at he
      split_ifs at he with hm
      simp only [Option.some.injEq] at he
      subst he
      have h1 : 0 < List.count h objs := List.count_pos_iff.2 hm
      have hnd : objs.Nodup := by
        rw [List.nodup_iff_count_le_one]
        intro x
        have := hcount x
        omega
      rw [Node.filterObjs, keep c0 (by omega), keep c1 (by omega), keep c2 (by omega),
        keep c3 (by omega), erase_eq_filter_of_nodup objs h hnd]
    | cons i path =>
      simp only [eraseAt] at he
      split_ifs at he
      · obtain ⟨m, hm, rfl⟩ := Option.map_eq_some'.1 he
        have h1 : 0 < List.count h c0.items :=
          List.count_pos_iff.2 (mem_items_of_eraseAt _ _ _ _ hm)
        have hnd : c0.items.Nodup := by
          rw [List.nodup_iff_count_le_one]
          intro x
          have := hcount x
          omega
        rw [Node.filterObjs, ← ih0 _ _ hm hnd, keep c1 (by omega), keep c2 (by omega),
          keep c3 (by omega), keepl (by omega)]
      · obtain ⟨m, hm, rfl⟩ := Option.map_eq_some'.1 he
        have h1 : 0 < List.count h c1.items :=
          List.count_pos_iff.2 (mem_items_of_eraseAt _ _ _ _ hm)
        have hnd : c1.items.Nodup := by
          rw [List.nodup_iff_count_le_one]
          intro x
          have := hcount x
          omega
        rw [Node.filterObjs, ← ih1 _ _ hm hnd, keep c0 (by omega), keep c2 (by omega),
          keep c3 (by omega), keepl (by omega)]
      · obtain ⟨m, hm, rfl⟩ := Option.map_eq_some'.1 he
        have h1 : 0 < List.count h c2.items :=
          List.count_pos_iff.2 (mem_items_of_eraseAt _ _ _ _ hm)
        have hnd : c2.items.Nodup := by
          rw [List.nodup_iff_count_le_one]
          intro x
          have := hcount x
          omega
        rw [Node.filterObjs, ← ih2 _ _ hm hnd, keep c0 (by omega), keep c1 (by omega),
          keep c3 (by omega), keepl (by omega)]
      · obtain ⟨m, hm, rfl⟩ := Option.map_eq_some'.1 he
        have h1 : 0 < List.count h c3.items :=
          List.count_pos_iff.2 (mem_items_of_eraseAt _ _ _ _ hm)
        have hnd : c3.items.Nodup := by
          rw [List.nodup_iff_count_le_one]
          intro x
          have := hcount x
          omega
        rw [Node.filterObjs, ← ih3 _ _ hm hnd, keep c0 (by omega), keep c1 (by omega),
          keep c2 (by omega), keepl (by omega)]

theorem deref_filter_ne {OBJ_T : Type} (v : List (ObjectListItem OBJ_T)) (A h : Nat)
    (hne : h ≠ A) : deref (v.filter fun it => it.key != A) h = deref v h := by
  induction v with
  | nil => rfl
  | cons it v ih =>
    unfold deref at ih ⊢
    by_cases hk : it.key = A
    · have h2 : (it.key == h) = false := by
        simp only [beq_eq_false_iff_ne, ne_eq]
        rintro rfl
        exact hne hk
      have h1 : (it.key != A) = false := by simpa using hk
      rw [List.filter_cons, h1, List.find?_cons, h2]
      simpa using ih
    · simp [List.filter_cons, List.find?_cons, hk, ih]

theorem deref_some_of_mem {OBJ_T : Type} (v : List (ObjectListItem OBJ_T)) (h : Nat)
    (hm : h ∈ v.map fun it => it.key) : ∃ it, deref v h = some it ∧ it ∈ v ∧ it.key = h := by
  induction v with
  | nil => simp at hm
  | cons a v ih =>
    unfold deref at ih ⊢
    by_cases hk : a.key = h
    · exact ⟨a, by simp [List.find?_cons, hk], by simp, hk⟩
    · have hm1 : h ∈ v.map fun it => it.key := by
        simp only [List.map_cons, List.mem_cons] at hm
        rcases hm with hm | hm
        · exact absurd hm.symm hk
        · exact hm
      obtain ⟨it, h1, h2, h3⟩ := ih hm1
      refine ⟨it, ?_, by simp [h2], h3⟩
      have : (a.key == h) = false := by simpa using hk
      rw [List.find?_cons, this]
      exact h1

variable {OBJ_T : Type} [SpatialObject OBJ_T]

theorem hit_filter_ne (v : List (ObjectListItem OBJ_T)) (A h : Nat) (r : Rect) (hne : h ≠ A) :
    hit (v.filter fun it => it.key != A) r h = hit v r h := by
  unfold hit areaOf
  rw [deref_filter_ne v A h hne]

/-- Searching the tree with `A` dropped from every node list, over the records
without `A`, gives the old result without `A`. -/
theorem searchNode_filterObjs (v : List (ObjectListItem OBJ_T)) (A : Nat) (n : Node Nat)
    (r : Rect) :
    searchNode (v.filter fun it => it.key != A) (Node.filterObjs (fun x => x != A) n) r =
      (searchNode v n r).filter fun x => x != A := by
  induction n with
  | null => rfl
  | mk area d s0 s1 s2 s3 c0 c1 c2 c3 objs ih0 ih1 ih2 ih3 =>
    simp only [Node.filterObjs, searchNode]
    by_cases hov : r.overlaps area = true
    · rw [if_pos hov, if_pos hov]
      simp only [List.filter_append]
      rw [Node.searchChild_filterObjs _ r s0 c0 _ _ ih0,
        Node.searchChild_filterObjs _ r s1 c1 _ _ ih1,
        Node.searchChild_filterObjs _ r s2 c2 _ _ ih2,
        Node.searchChild_filterObjs _ r s3 c3 _ _ ih3]
      congr 1
      simp only [List.filter_filter]
      apply List.filter_congr
      intro x _
      by_cases hx : x = A
      · subst hx; simp
      · rw [hit_filter_ne v A x r hx]
        simp [hx, Bool.and_comm]
    · rw [if_neg hov, if_neg hov]
      rfl

end DynamicQuadTree

namespace DynamicQuadTree

variable {OBJ_T : Type}

theorem inv_init (area : Rect) : Inv (SetArea (empty : DynamicQuadTree OBJ_T) area) where
  nodupHandles := by simp [handles, SetArea, empty]
  fresh := by simp [handles, SetArea, empty]
  nodupItems := by simp [SetArea, empty, Node.items]
  live := by simp [SetArea, empty, Node.items]
  backRef := by simp [SetArea, empty]

theorem handles_insert [SpatialObject OBJ_T] (t : DynamicQuadTree OBJ_T) (obj : OBJ_T) :
    handles (insert t obj) = handles t ++ [t.nextKey] := by
  simp [handles, insert]

theorem inv_insert [SpatialObject OBJ_T] (t : DynamicQuadTree OBJ_T) (obj : OBJ_T) (ht : Inv t) :
    Inv (insert t obj) where
  nodupHandles := by
    rw [handles_insert, List.nodup_append]
    refine ⟨ht.nodupHandles, by simp, ?_⟩
    intro x hx hx1
    simp only [List.mem_singleton] at hx1
    subst hx1
    exact absurd (ht.fresh _ hx) (lt_irrefl _)
  fresh := by
    intro h hh
    rw [handles_insert, List.mem_append, List.mem_singleton] at hh
    show h < t.nextKey + 1
    rcases hh with hh | rfl
    · exact Nat.lt_succ_of_lt (ht.fresh h hh)
    · exact Nat.lt_succ_self _
  nodupItems := by
    show (insertNode t.root t.area t.nextKey (GetArea obj) 0).1.items.Nodup
    apply dyn_nodup_items_insertNode _ _ _ _ _ ht.nodupItems
    intro hm
    exact absurd (ht.fresh _ (ht.live _ hm)) (lt_irrefl _)
  live := by
    intro h hh
    have hh1 : h ∈ (insertNode t.root t.area t.nextKey (GetArea obj) 0).1.items := hh
    rw [dyn_mem_items_insertNode] at hh1
    rw [handles_insert, List.mem_append, List.mem_singleton]
    rcases hh1 with hh1 | hh1
    · exact Or.inl (ht.live h hh1)
    · exact Or.inr hh1
  backRef := by
    intro item hitem
    have hitem1 : item ∈ t.vObjects ++
        [⟨t.nextKey, obj,
          ⟨(insertNode t.root t.area t.nextKey (GetArea obj) 0).2, t.nextKey⟩⟩] := hitem
    rw [List.mem_append, List.mem_singleton] at hitem1
    show item.locationInTree.objIt = item.key ∧
      ∃ l, listAt (insertNode t.root t.area t.nextKey (GetArea obj) 0).1
        item.locationInTree.pObjects = some l ∧ item.key ∈ l
    rcases hitem1 with hi | rfl
    · obtain ⟨h1, l, h2, h3⟩ := ht.backRef item hi
      obtain ⟨l1, h4, h5⟩ := dyn_listAt_mono t.root t.area t.nextKey (GetArea obj) 0 _ l h2
      exact ⟨h1, l1, h4, h5 _ h3⟩
    · exact ⟨rfl, dyn_listAt_insertNode t.root t.area t.nextKey (GetArea obj) 0⟩

/-- What `remove` computes on a state that satisfies the invariant. -/
theorem remove_eq (t : DynamicQuadTree OBJ_T) (ht : Inv t) (h : Nat) (hh : h ∈ handles t) :
    remove t h = some { t with
      root := Node.filterObjs (fun x => x != h) t.root
      vObjects := t.vObjects.filter fun it => it.key != h } := by
  obtain ⟨item, hd, hmem, hkey⟩ := deref_some_of_mem t.vObjects h hh
  obtain ⟨hit, l, hl, hml⟩ := ht.backRef item hmem
  have hobj : item.locationInTree.objIt = h := hit.trans hkey
  rw [hkey] at hml
  obtain ⟨n1, hn1⟩ := eraseAt_isSome t.root _ h l hl hml
  have hf := eraseAt_eq_filterObjs t.root _ h n1 hn1 ht.nodupItems
  unfold remove
  rw [hd]
  simp only [hobj, hn1, hf]

theorem mem_handles_filter (t : DynamicQuadTree OBJ_T) (A x : Nat) :
    x ∈ (t.vObjects.filter fun it => it.key != A).map (fun it => it.key) ↔
      x ∈ handles t ∧ x ≠ A := by
  simp only [handles, List.mem_map, List.mem_filter]
  constructor
  · rintro ⟨it, ⟨h1, h2⟩, rfl⟩
    exact ⟨⟨it, h1, rfl⟩, by simpa using h2⟩
  · rintro ⟨⟨it, h1, rfl⟩, h2⟩
    exact ⟨it, ⟨h1, by simpa using h2⟩, rfl⟩

theorem inv_remove (t t1 : DynamicQuadTree OBJ_T) (ht : Inv t) (h : Nat) (hh : h ∈ handles t)
    (hr : remove t h = some t1) : Inv t1 := by
  rw [remove_eq t ht h hh, Option.some.injEq] at hr
  subst hr
  refine ⟨?_, ?_, ?_, ?_, ?_⟩
  · exact List.Nodup.sublist (List.Sublist.map _ (List.filter_sublist _)) ht.nodupHandles
  · intro x hx
    exact ht.fresh x ((mem_handles_filter t h x).1 hx).1
  · show (Node.filterObjs (fun x => x != h) t.root).items.Nodup
    rw [Node.items_filterObjs]
    exact List.Nodup.filter _ ht.nodupItems
  · intro x hx
    have hx1 : x ∈ (Node.filterObjs (fun x => x != h) t.root).items := hx
    rw [Node.items_filterObjs, List.mem_filter] at hx1
    exact (mem_handles_filter t h x).2 ⟨ht.live x hx1.1, by simpa using hx1.2⟩
  · intro item hitem
    have hitem1 : item ∈ t.vObjects.filter fun it => it.key != h := hitem
    rw [List.mem_filter] at hitem1
    obtain ⟨h1, l, h2, h3⟩ := ht.backRef item hitem1.1
    refine ⟨h1, l.filter (fun x => x != h), ?_, ?_⟩
    · show listAt (Node.filterObjs (fun x => x != h) t.root) _ = _
      rw [listAt_filterObjs, h2]
      rfl
    · rw [List.mem_filter]
      exact ⟨h3, hitem1.2⟩

theorem inv_of_reachable [SpatialObject OBJ_T] (t : DynamicQuadTree OBJ_T) (ht : Reachable t) :
    Inv t := by
  induction ht with
  | init area => exact inv_init area
  | insert obj _ ih => exact inv_insert _ obj ih
  | remove h _ hh hr ih => exact inv_remove _ _ ih h hh hr

/-- C8: in any state reached by inserts and removals of live handles, removing
a live handle `A` is defined and, for every query rect, the new search result
is the old one with `A` deleted (same order); every other handle dereferences
to the same record as before, is still live, and can itself be removed. -/
theorem remove_handle_stability [SpatialObject OBJ_T] (t : DynamicQuadTree OBJ_T)
    (ht : Reachable t) (A : Nat) (hA : A ∈ handles t) :
    ∃ t1, remove t A = some t1 ∧
      (∀ r, search t1 r = (search t r).map fun res => res.filter fun x => x != A) ∧
      (∀ h, h ∈ handles t → h ≠ A →
        deref t1.vObjects h = deref t.vObjects h ∧ h ∈ handles t1 ∧
          ∃ t2, remove t1 h = some t2) := by
  have hinv := inv_of_reachable t ht
  have hrem := remove_eq t hinv A hA
  refine ⟨_, hrem, ?_, ?_⟩
  · intro r
    unfold search
    simp only [Node.isSome_filterObjs]
    by_cases hs : t.root.isSome = true
    · rw [if_pos hs, if_pos hs, Option.map_some', searchNode_filterObjs]
    · rw [if_neg hs, if_neg hs]
      rfl
  · intro h hh hne
    have hinv1 := inv_remove t _ hinv A hA hrem
    have hlive : h ∈ handles
        ({ t with
            root := Node.filterObjs (fun x => x != A) t.root
            vObjects := t.vObjects.filter fun it => it.key != A } : DynamicQuadTree OBJ_T) :=
      (mem_handles_filter t A h).2 ⟨hh, hne⟩
    exact ⟨deref_filter_ne t.vObjects A h hne, hlive, _, remove_eq _ hinv1 h hlive⟩

theorem dyn_build_append [SpatialObject OBJ_T] (area : Rect) (objs : List OBJ_T) (obj : OBJ_T) :
    build area (objs ++ [obj]) = insert (build area objs) obj := by
  simp [build, List.foldl_append]

theorem reachable_build [SpatialObject OBJ_T] (area : Rect) (objs : List OBJ_T) :
    Reachable (build area objs) := by
  induction objs using List.reverseRecOn with
  | nil => exact Reachable.init area
  | append_singleton objs obj ih => rw [dyn_build_append]; exact Reachable.insert obj ih

theorem dyn_size_root_build [SpatialObject OBJ_T] (area : Rect) (objs : List OBJ_T) :
    (build area objs).root.size = objs.length := by
  induction objs using List.reverseRecOn with
  | nil => simp [build, SetArea, empty, Node.size]
  | append_singleton objs obj ih =>
    rw [dyn_build_append]
    show (insertNode _ _ _ _ 0).1.size = _
    rw [dyn_size_insertNode, ih]
    simp

theorem dyn_isSome_root_build [SpatialObject OBJ_T] (area : Rect) (objs : List OBJ_T)
    (h : objs ≠ []) :
    (build area objs).root.isSome = true := by
  induction objs using List.reverseRecOn with
  | nil => exact absurd rfl h
  | append_singleton objs obj _ =>
    rw [dyn_build_append]
    exact dyn_isSome_insertNode _ _ _ _ _

theorem size_filterObjs_erase (t : DynamicQuadTree OBJ_T) (ht : Inv t) (h : Nat)
    (hh : h ∈ handles t) : (Node.filterObjs (fun x => x != h) t.root).size + 1 = t.root.size := by
  obtain ⟨item, _, hmem, hkey⟩ := deref_some_of_mem t.vObjects h hh
  obtain ⟨hit, l, hl, hml⟩ := ht.backRef item hmem
  rw [hkey] at hml
  obtain ⟨n1, hn1⟩ := eraseAt_isSome t.root _ h l hl hml
  have hf := eraseAt_eq_filterObjs t.root _ h n1 hn1 ht.nodupItems
  rw [← hf]
  exact size_eraseAt _ _ _ _ hn1

theorem removeAll_size (hs : List Nat) :
    ∀ (t : DynamicQuadTree OBJ_T), Inv t → hs.Nodup → (∀ h ∈ hs, h ∈ handles t) →
      ∃ t1, removeAll t hs = some t1 ∧ t1.root.size + hs.length = t.root.size ∧
        t1.root.isSome = t.root.isSome := by
  induction hs with
  | nil => intro t _ _ _; exact ⟨t, rfl, rfl, rfl⟩
  | cons h hs ih =>
    intro t ht hnd hlive
    have hh : h ∈ handles t := hlive h (by simp)
    have hrem := remove_eq t ht h hh
    have hinv1 := inv_remove t _ ht h hh hrem
    rw [List.nodup_cons] at hnd
    obtain ⟨t1, h1, h2, h3⟩ := ih _ hinv1 hnd.2 (fun x hx =>
      (mem_handles_filter t h x).2 ⟨hlive x (by simp [hx]), fun hxe => hnd.1 (hxe ▸ hx)⟩)
    refine ⟨t1, ?_, ?_, ?_⟩
    · rw [removeAll, hrem]
      exact h1
    · have := size_filterObjs_erase t ht h hh
      simp only [List.length_cons]
      simp only at h2
      omega
    · rw [h3]
      exact Node.isSome_filterObjs _ _

/-- C9: after `N >= 1` inserts followed by the removal of `K` distinct live
handles, `K` is at most `N`, all removals are defined and `size()` is
`N - K`. -/
theorem size_after_removals [SpatialObject OBJ_T] (area : Rect) (objs : List OBJ_T)
    (hs : List Nat)
    (hne : objs ≠ []) (hnd : hs.Nodup) (hlive : ∀ h ∈ hs, h ∈ handles (build area objs)) :
    hs.length ≤ objs.length ∧
      ∃ t1, removeAll (build area objs) hs = some t1 ∧
        size t1 = some (objs.length - hs.length) := by
  obtain ⟨t1, h1, h2, h3⟩ :=
    removeAll_size hs (build area objs) (inv_of_reachable _ (reachable_build area objs)) hnd hlive
  rw [dyn_size_root_build] at h2
  refine ⟨by omega, t1, h1, ?_⟩
  unfold size
  rw [h3, dyn_isSome_root_build area objs hne, if_pos rfl]
  congr 1
  omega

end DynamicQuadTree

namespace DynamicQuadTree

/-- C8 at a concrete input: two circles are inserted and handle 0 (the first)
is removed. -/
theorem remove_handle_stability_witness :
    Reachable (build Example.domain [Example.objA, Example.objB]) ∧
      0 ∈ handles (build Example.domain [Example.objA, Example.objB]) ∧
      ∃ t1, remove (build Example.domain [Example.objA, Example.objB]) 0 = some t1 ∧
        (∀ r, search t1 r =
          (search (build Example.domain [Example.objA, Example.objB]) r).map
            fun res => res.filter fun x => x != 0) ∧
        (∀ h, h ∈ handles (build Example.domain [Example.objA, Example.objB]) → h ≠ 0 →
          deref t1.vObjects h =
              deref (build Example.domain [Example.objA, Example.objB]).vObjects h ∧
            h ∈ handles t1 ∧ ∃ t2, remove t1 h = some t2) :=
  ⟨reachable_build _ _, by decide!,
    remove_handle_stability (build Example.domain [Example.objA, Example.objB])
      (reachable_build _ _) 0 (by decide!)⟩

/-- C9 at the scenario of the specification: two inserts, then removal of the
first object through its handle; `size()` is 1. -/
theorem size_after_removals_witness :
    ([Example.objA, Example.objB] : List CObject) ≠ [] ∧ [0].Nodup ∧
      (∀ h ∈ [0], h ∈ handles (build Example.domain [Example.objA, Example.objB])) ∧
      [0].length ≤ [Example.objA, Example.objB].length ∧
      ∃ t1, removeAll (build Example.domain [Example.objA, Example.objB]) [0] = some t1 ∧
        size t1 = some 1 :=
  ⟨by simp, by simp, by decide!,
    size_after_removals Example.domain [Example.objA, Example.objB] [0] (by simp) (by simp)
      (by decide!)⟩

end DynamicQuadTree

/-! ## K-d tree: conservation and the two-object scenario -/

namespace KDTree

variable {OBJ_T : Type} [SpatialObject OBJ_T]

theorem kd_size_insertNode (n : KDNode OBJ_T) (r : Rect) (ob : OBJ_T) (depth : Nat) :
    (insertNode n r ob depth).size = n.size + 1 := by
  induction n generalizing r depth with
  | null =>
    simp only [insertNode, KDNode.make]
    split_ifs <;> simp [KDNode.size]
  | mk area object left right v0 v1 d ihl ihr =>
    unfold insertNode
    split_ifs <;> simp only [KDNode.size, ihl, ihr] <;> omega

theorem kd_isSome_insertNode (n : KDNode OBJ_T) (r : Rect) (ob : OBJ_T) (depth : Nat) :
    (insertNode n r ob depth).isSome = true := by
  cases n with
  | null =>
    simp only [insertNode, KDNode.make]
    split_ifs <;> rfl
  | mk area object left right v0 v1 d =>
    unfold insertNode
    split_ifs <;> rfl

/-- One insert adds the new object to the stored ones and leaves them as they
were. -/
theorem kd_items_insertNode_perm (n : KDNode OBJ_T) (r : Rect) (ob : OBJ_T) (depth : Nat) :
    (insertNode n r ob depth).items.Perm (ob :: n.items) := by
  induction n generalizing r depth with
  | null =>
    simp only [insertNode, KDNode.make]
    split_ifs <;> simp [KDNode.items]
  | mk area object left right v0 v1 d ihl ihr =>
    unfold insertNode
    split_ifs
    · simp only [KDNode.items]
      have h1 := (ihl v0 (depth + 1)).append_right right.items
      exact ((h1.cons object).trans (List.Perm.swap _ _ _))
    · simp only [KDNode.items]
      have h1 := (ihr v1 (depth + 1)).append_left left.items
      have h2 : (left.items ++ ob :: right.items).Perm (ob :: (left.items ++ right.items)) :=
        List.perm_middle
      exact (((h1.trans h2).cons object).trans (List.Perm.swap _ _ _))

theorem kd_size_root_build (area : Rect) (objs : List OBJ_T) :
    (build area objs).root.size = objs.length := by
  induction objs using List.reverseRecOn with
  | nil => simp [build, SetArea, empty, KDNode.size]
  | append_singleton objs ob ih => rw [kd_root_build_snoc, kd_size_insertNode, ih]; simp

theorem kd_items_build_perm (area : Rect) (objs : List OBJ_T) :
    (build area objs).root.items.Perm objs := by
  induction objs using List.reverseRecOn with
  | nil => simp [build, SetArea, empty, KDNode.items]
  | append_singleton objs ob ih =>
    rw [kd_root_build_snoc]
    refine (kd_items_insertNode_perm _ _ _ _).trans ?_
    exact ((ih.cons ob).trans (List.perm_append_singleton ob objs).symm)

theorem kd_isSome_root_build (area : Rect) (objs : List OBJ_T) (h : objs ≠ []) :
    (build area objs).root.isSome = true := by
  induction objs using List.reverseRecOn with
  | nil => exact absurd rfl h
  | append_singleton objs ob _ => rw [kd_root_build_snoc]; exact kd_isSome_insertNode _ _ _ _

/-- C11: for every domain and every non-empty sequence of `N` inserted objects
(equal positions included), `size()` is `N`; each insert adds exactly one node
and the stored objects are, up to order, exactly the objects inserted so
far. -/
theorem kd_size_build_eq_length (area : Rect) (objs : List OBJ_T) (h : objs ≠ []) :
    (build area objs).size = some objs.length ∧
      (build area objs).root.items.Perm objs ∧
      ∀ ob, (build area (objs ++ [ob])).root.size = (build area objs).root.size + 1 := by
  refine ⟨?_, kd_items_build_perm area objs, fun ob => ?_⟩
  · simp [size, kd_isSome_root_build area objs h, kd_size_root_build]
  · rw [kd_root_build_snoc, kd_size_insertNode]

end KDTree

namespace KDTree

/-- C11 at a concrete input: three circles, two of them at the same position. -/
theorem kd_size_build_eq_length_witness :
    ([Example.objA, Example.objB, Example.objA] : List CObject) ≠ [] ∧
      (build Example.domain [Example.objA, Example.objB, Example.objA]).size = some 3 ∧
      (build Example.domain [Example.objA, Example.objB, Example.objA]).root.items.Perm
        [Example.objA, Example.objB, Example.objA] ∧
      ∀ ob, (build Example.domain ([Example.objA, Example.objB, Example.objA] ++ [ob])).root.size
        = (build Example.domain [Example.objA, Example.objB, Example.objA]).root.size + 1 :=
  ⟨by simp, kd_size_build_eq_length Example.domain
    [Example.objA, Example.objB, Example.objA] (by simp)⟩

end KDTree

/-- C12: over the domain `{{0, 0}, {100, 100}}`, after inserting circle A
(`pos = (10, 10)`, `r = 5`, bounds `{{5, 5}, {10, 10}}`) and then circle B
(`pos = (90, 90)`, `r = 5`), the static quadtree and the k-d tree both return
exactly `[A]` for the query `{{0, 0}, {20, 20}}` and exactly `[A, B]` for the
query `{{0, 0}, {100, 100}}`. -/
theorem scenario_two_circles :
    GetArea Example.objA = (⟨⟨5, 5⟩, ⟨10, 10⟩⟩ : Rect) ∧
      (StaticQuadTree.build Example.domain [Example.objA, Example.objB]).search
        Example.queryTwenty = some [Example.objA] ∧
      (StaticQuadTree.build Example.domain [Example.objA, Example.objB]).search
        Example.queryAll = some [Example.objA, Example.objB] ∧
      (KDTree.build Example.domain [Example.objA, Example.objB]).search
        Example.queryTwenty = [Example.objA] ∧
      (KDTree.build Example.domain [Example.objA, Example.objB]).search
        Example.queryAll = [Example.objA, Example.objB] := by
  decide!

/-! ## Queries of size zero and queries off the domain -/

namespace StaticQuadTree

variable {OBJ_T : Type} [SpatialObject OBJ_T]

/-- Every object `search` returns is stored in the tree and has its area
overlapped or contained by the query. -/
theorem searchNode_mem (n : Node OBJ_T) (r : Rect) (h : n.SubIn) (o : OBJ_T)
    (ho : o ∈ searchNode n r) :
    o ∈ n.items ∧ (r.overlaps (GetArea o) = true ∨ r.contains (GetArea o) = true) := by
  induction n with
  | null => simp [searchNode] at ho
  | mk area d s0 s1 s2 s3 n0 n1 n2 n3 objs ih0 ih1 ih2 ih3 =>
    obtain ⟨⟨a0, b0⟩, ⟨a1, b1⟩, ⟨a2, b2⟩, a3, b3⟩ := h
    rw [searchNode] at ho
    by_cases hov : r.overlaps area = true
    · rw [if_pos hov] at ho
      simp only [List.mem_append, List.mem_filter] at ho
      simp only [Node.items, List.mem_append]
      rcases ho with ho | ho | ho | ho | ho
      · exact ⟨Or.inl ho.1, Or.inl (by simpa using ho.2)⟩
      · rcases mem_searchChild ho with ⟨hc, hi⟩ | hd
        · exact ⟨Or.inr (Or.inl hi), Or.inr (GridTree.contains_trans hc (a0 o hi))⟩
        · exact ⟨Or.inr (Or.inl (ih0 b0 hd).1), (ih0 b0 hd).2⟩
      · rcases mem_searchChild ho with ⟨hc, hi⟩ | hd
        · exact ⟨Or.inr (Or.inr (Or.inl hi)), Or.inr (GridTree.contains_trans hc (a1 o hi))⟩
        · exact ⟨Or.inr (Or.inr (Or.inl (ih1 b1 hd).1)), (ih1 b1 hd).2⟩
      · rcases mem_searchChild ho with ⟨hc, hi⟩ | hd
        · exact ⟨Or.inr (Or.inr (Or.inr (Or.inl hi))),
            Or.inr (GridTree.contains_trans hc (a2 o hi))⟩
        · exact ⟨Or.inr (Or.inr (Or.inr (Or.inl (ih2 b2 hd).1))), (ih2 b2 hd).2⟩
      · rcases mem_searchChild ho with ⟨hc, hi⟩ | hd
        · exact ⟨Or.inr (Or.inr (Or.inr (Or.inr hi))),
            Or.inr (GridTree.contains_trans hc (a3 o hi))⟩
        · exact ⟨Or.inr (Or.inr (Or.inr (Or.inr (ih3 b3 hd).1))), (ih3 b3 hd).2⟩
    · rw [if_neg hov] at ho
      simp at ho

/-- A query of size zero at `p` overlaps or contains a rect of non-negative size
only if the rect contains the point `p`. -/
theorem containsPoint_of_zero_query {p : Vec2} {a : Rect} (ha : a.NonNegSize)
    (h : (⟨p, ⟨0, 0⟩⟩ : Rect).overlaps a = true ∨ (⟨p, ⟨0, 0⟩⟩ : Rect).contains a = true) :
    a.containsPoint p = true := by
  obtain ⟨hx, hy⟩ := ha
  rw [Rect.containsPoint_eq_true]
  rcases h with h | h
  · rw [Rect.overlaps_eq_true] at h
    simp only [F32.add_zero_eq] at h
    exact ⟨h.2.1, h.2.2.2, h.1, h.2.2.1⟩
  · rw [Rect.contains_eq_true] at h
    simp only [F32.add_zero_eq] at h
    have := F32.le_add_of_nonneg a.pos.x a.size.x hx
    exact absurd (lt_of_le_of_lt this h.2.1) (not_lt.2 h.1)

/-- C13 (as amended): for the static quadtree holding any non-empty sequence of
inserted objects with bounds of non-negative size, `search(r)` with a query
rect of size `(0, 0)` at a point that no inserted object's bounds contain
(`Rect::contains(point)`) returns the empty list. -/
theorem search_zero_size_query (area : Rect) (objs : List OBJ_T) (p : Vec2)
    (hne : objs ≠ []) (hnn : ∀ o ∈ objs, (GetArea o).NonNegSize)
    (hfree : ∀ o ∈ objs, (GetArea o).containsPoint p = false) :
    (build area objs).search ⟨p, ⟨0, 0⟩⟩ = some [] := by
  unfold search
  rw [isSome_root_build area objs hne, if_pos rfl]
  congr 1
  rw [List.eq_nil_iff_forall_not_mem]
  intro o ho
  obtain ⟨h1, h2⟩ := searchNode_mem _ _ (subIn_build area objs) o ho
  have hobj := (mem_items_build area objs o).1 h1
  have := containsPoint_of_zero_query (hnn o hobj) h2
  rw [hfree o hobj] at this
  exact Bool.noConfusion this

theorem areaIs_root_build (area : Rect) (objs : List OBJ_T) :
    (build area objs).root.AreaIs area := by
  induction objs using List.reverseRecOn with
  | nil => simp [build, SetArea, empty, Node.AreaIs]
  | append_singleton objs obj ih => rw [root_build_snoc]; exact areaIs_insertNode _ _ _ _ ih

theorem searchNode_of_not_overlaps (n : Node OBJ_T) (A r : Rect) (hA : n.AreaIs A)
    (h : r.overlaps A = false) : searchNode n r = [] := by
  cases n with
  | null => rfl
  | mk area d s0 s1 s2 s3 n0 n1 n2 n3 objs =>
    have : area = A := hA
    subst this
    rw [searchNode, h]
    rfl

end StaticQuadTree

namespace DynamicQuadTree

theorem dyn_areaIs_insertNew (k : Nat) (r : Rect) (obj : Nat) (a : Rect) (depth : Nat) :
    (insertNew k r obj a depth).1.AreaIs r := by
  cases k with
  | zero => simp [insertNew, Node.AreaIs]
  | succ k =>
    unfold insertNew
    split_ifs <;> simp [Node.AreaIs]

theorem dyn_areaIs_insertNode (n : Node Nat) (r : Rect) (obj : Nat) (a : Rect) (depth : Nat)
    (h : n.AreaIs r) : (insertNode n r obj a depth).1.AreaIs r := by
  cases n with
  | null => simp [insertNode, dyn_areaIs_insertNew]
  | mk area d s0 s1 s2 s3 n0 n1 n2 n3 objs =>
    unfold insertNode
    split_ifs <;> simpa [Node.AreaIs] using h

variable {OBJ_T : Type} [SpatialObject OBJ_T]

theorem dyn_area_build (area : Rect) (objs : List OBJ_T) : (build area objs).area = area := by
  induction objs using List.reverseRecOn with
  | nil => simp [build, SetArea]
  | append_singleton objs obj ih => rw [dyn_build_append]; simpa [insert] using ih

theorem dyn_areaIs_root_build (area : Rect) (objs : List OBJ_T) :
    (build area objs).root.AreaIs area := by
  induction objs using List.reverseRecOn with
  | nil => simp [build, SetArea, empty, Node.AreaIs]
  | append_singleton objs obj ih =>
    rw [dyn_build_append]
    show (insertNode _ (build area objs).area _ _ 0).1.AreaIs area
    rw [dyn_area_build]
    exact dyn_areaIs_insertNode _ _ _ _ _ ih

theorem dyn_searchNode_of_not_overlaps (v : List (ObjectListItem OBJ_T)) (n : Node Nat)
    (A r : Rect) (hA : n.AreaIs A) (h : r.overlaps A = false) : searchNode v n r = [] := by
  cases n with
  | null => rfl
  | mk area d s0 s1 s2 s3 n0 n1 n2 n3 objs =>
    have : area = A := hA
    subst this
    rw [searchNode, h]
    rfl

end DynamicQuadTree

/-- C15: for a static and for a dynamic quadtree with at least one inserted
object (whatever the bounds of the objects), `search(r)` of a query rect with
`r.overlaps(domain)` false returns the empty list. -/
theorem quadtree_search_off_domain {OBJ_T : Type} [SpatialObject OBJ_T] (area : Rect)
    (objs : List OBJ_T) (r : Rect) (hne : objs ≠ []) (h : r.overlaps area = false) :
    (StaticQuadTree.build area objs).search r = some [] ∧
      (DynamicQuadTree.build area objs).search r = some [] := by
  constructor
  · unfold StaticQuadTree.search
    rw [StaticQuadTree.isSome_root_build area objs hne, if_pos rfl,
      StaticQuadTree.searchNode_of_not_overlaps _ area r
        (StaticQuadTree.areaIs_root_build area objs) h]
  · unfold DynamicQuadTree.search
    rw [DynamicQuadTree.dyn_isSome_root_build area objs hne, if_pos rfl,
      DynamicQuadTree.dyn_searchNode_of_not_overlaps _ _ area r
        (DynamicQuadTree.dyn_areaIs_root_build area objs) h]

/-- C15 at a concrete input: the stored circle at `(1, 1)` with radius 5 sticks
out of the domain and overlaps the query `{{-10, -10}, {8, 8}}`, which does not
overlap the domain. -/
theorem quadtree_search_off_domain_witness :
    ([Example.objNearCorner, Example.objB] : List CObject) ≠ [] ∧
      Example.queryOutside.overlaps Example.domain = false ∧
      Example.queryOutside.overlaps (GetArea Example.objNearCorner) = true ∧
      (StaticQuadTree.build Example.domain [Example.objNearCorner, Example.objB]).search
        Example.queryOutside = some [] ∧
      (DynamicQuadTree.build Example.domain [Example.objNearCorner, Example.objB]).search
        Example.queryOutside = some [] :=
  ⟨by simp, by decide!, by decide!,
    quadtree_search_off_domain Example.domain [Example.objNearCorner, Example.objB]
      Example.queryOutside (by simp) (by decide!)⟩

namespace StaticQuadTree

/-- C13 (counterexample): the query of size `(0, 0)` at `(10, 10)`, the centre
of circle A, returns circle A. -/
theorem search_zero_size_returns_object :
    Example.queryPointA.size = ⟨0, 0⟩ ∧
      (build Example.domain [Example.objA, Example.objB]).search Example.queryPointA
        = some [Example.objA] := by
  decide!

/-- C13 (as amended) at a concrete input: the query of size `(0, 0)` at
`(70, 70)` lies in the bounds of neither circle. -/
theorem search_zero_size_query_witness :
    ([Example.objA, Example.objB] : List CObject) ≠ [] ∧
      (∀ o ∈ [Example.objA, Example.objB], (GetArea o).NonNegSize) ∧
      (∀ o ∈ [Example.objA, Example.objB],
        (GetArea o).containsPoint (⟨70, 70⟩ : Vec2) = false) ∧
      (build Example.domain [Example.objA, Example.objB]).search ⟨⟨70, 70⟩, ⟨0, 0⟩⟩
        = some [] :=
  ⟨by simp, by decide!, by decide!,
    search_zero_size_query Example.domain [Example.objA, Example.objB] ⟨70, 70⟩ (by simp)
      (by decide!) (by decide!)⟩

end StaticQuadTree

theorem Rect.overlaps_of_overlaps_inside {r D a : Rect} (h1 : r.overlaps a = true)
    (h2 : D.contains a = true) : r.overlaps D = true := by
  rw [Rect.overlaps_eq_true] at h1 ⊢
  rw [Rect.contains_eq_true] at h2
  simp only [F32.le_iff_ord, F32.lt_iff_ord] at *
  refine ⟨?_, ?_, ?_, ?_⟩ <;> omega

/-- A query that contains or overlaps a rect with an extent that lies within
the edges of `D` overlaps `D`. -/
theorem Rect.overlaps_of_cell_within {r c D : Rect} (hs : c.Spans) (hw : c.Within D)
    (h : r.contains c = true ∨ r.overlaps c = true) : r.overlaps D = true := by
  obtain ⟨s1, s2⟩ := hs
  obtain ⟨w1, w2, w3, w4⟩ := hw
  rw [Rect.overlaps_eq_true]
  rcases h with h | h
  · rw [Rect.contains_eq_true] at h
    simp only [F32.le_iff_ord, F32.lt_iff_ord] at *
    refine ⟨?_, ?_, ?_, ?_⟩ <;> omega
  · rw [Rect.overlaps_eq_true] at h
    simp only [F32.le_iff_ord, F32.lt_iff_ord] at *
    refine ⟨?_, ?_, ?_, ?_⟩ <;> omega

namespace GridTree

variable {OBJ_T : Type} [SpatialObject OBJ_T]

/-- C16 (as amended): for a grid whose cells, as the constructor computes them,
each have a far corner `pos + size` strictly beyond `pos` and lie within the
computed edges of the domain, with at least one inserted object, `search(r)` of
a query rect that is disjoint from the domain (`r.overlaps(domain)` false)
returns the empty list. -/
theorem grid_search_off_domain (area : Rect) (cc : Nat × Nat)
    (hcells : (GridNode.make area cc : GridNode OBJ_T).CellsInside)
    (objs : List OBJ_T) (hne : objs ≠ []) (r : Rect) (hdis : r.overlaps area = false) :
    (build area cc objs).search r = some [] := by
  simp only [search, grid_root_build area cc objs hne, Option.map_some', Option.some.injEq]
  rw [List.eq_nil_iff_forall_not_mem]
  intro o ho
  rw [mem_searchCells_filled] at ho
  obtain ⟨y, hy, x, hx, _, hq⟩ := ho
  obtain ⟨hs, hw⟩ := hcells _ ((mem_cells area cc _).2 ⟨y, hy, x, hx, rfl⟩)
  have hov : r.overlaps area = true :=
    Rect.overlaps_of_cell_within hs hw (hq.imp id fun h => h.1)
  rw [hdis] at hov
  exact Bool.noConfusion hov

end GridTree

namespace GridTree

/-- C16 (counterexample): the domain `{{2^24, 0}, {0.5, 100}}` has positive
size and `2^24 + 0.5` rounds to `2^24`; with one cell and the object
`{{2^24 - 10, 10}, {20, 20}}` stored, the query `{{2^24, -1}, {10, 200}}` of
positive size does not overlap the domain (`r.overlaps(domain)` is false) and
`search` returns the object, through the test `r.contains(cell)`. -/
theorem grid_search_off_domain_returns_object :
    Example.domainFar.PosSize ∧ Example.queryFar.NonNegSize ∧
      Example.queryFar.overlaps Example.domainFar = false ∧
      (build Example.domainFar (1, 1) [Example.objAstride]).search Example.queryFar
        = some [Example.objAstride] := by
  decide!

/-- C16 (as amended) at a concrete input: the 2 x 2 grid with two circles, one
of them sticking out of the domain towards the query `{{-10, -10}, {8, 8}}`. -/
theorem grid_search_off_domain_witness :
    (GridNode.make Example.domain (2, 2) : GridNode CObject).CellsInside ∧
      ([Example.objNearCorner, Example.objB] : List CObject) ≠ [] ∧
      Example.queryOutside.overlaps Example.domain = false ∧
      (build Example.domain (2, 2) [Example.objNearCorner, Example.objB]).search
        Example.queryOutside = some [] :=
  ⟨by decide!, by simp, by decide!,
    grid_search_off_domain Example.domain (2, 2) (by decide!)
      [Example.objNearCorner, Example.objB] (by simp) Example.queryOutside (by decide!)⟩

end GridTree

/-! ## The `Rect` predicates -/

namespace Rect

/-- C17 (failing input): both rects have positive size and only touch along the
edge `x = 10`; the half-open intervals do not meet, `rectWest.overlaps(rectEast)`
is true and `rectEast.overlaps(rectWest)` is false. -/
theorem overlaps_touching_asymmetric :
    Example.rectWest.PosSize ∧ Example.rectEast.PosSize ∧
      Example.rectWest.pos.x + Example.rectWest.size.x = Example.rectEast.pos.x ∧
      ¬ (Example.rectEast.pos.x < Example.rectWest.pos.x + Example.rectWest.size.x) ∧
      Example.rectWest.overlaps Example.rectEast = true ∧
      Example.rectEast.overlaps Example.rectWest = false := by
  decide!

/-- C18: for all rects, `a.contains(b)` holds iff `b.pos.x >= a.pos.x`,
`b.pos.y >= a.pos.y`, `b.pos.x + b.size.x < a.pos.x + a.size.x` and
`b.pos.y + b.size.y < a.pos.y + a.size.y`; a rect whose far edge touches the
container's far edge on either axis is not contained, and no rect contains
itself. -/
theorem contains_near_closed_far_open (a b : Rect) :
    (a.contains b = true ↔
        b.pos.x ≥ a.pos.x ∧ b.pos.y ≥ a.pos.y ∧
          b.pos.x + b.size.x < a.pos.x + a.size.x ∧
          b.pos.y + b.size.y < a.pos.y + a.size.y) ∧
      ((b.pos.x + b.size.x = a.pos.x + a.size.x ∨
          b.pos.y + b.size.y = a.pos.y + a.size.y) → a.contains b = false) ∧
      a.contains a = false := by
  refine ⟨?_, ?_, ?_⟩
  · rw [Rect.contains_eq_true]
    constructor
    · rintro ⟨h1, h2, h3, h4⟩; exact ⟨h1, h3, h2, h4⟩
    · rintro ⟨h1, h2, h3, h4⟩; exact ⟨h1, h3, h2, h4⟩
  · intro h
    rw [← Bool.not_eq_true, Rect.contains_eq_true]
    rintro ⟨_, h2, _, h4⟩
    rcases h with h | h
    · rw [h] at h2; exact lt_irrefl _ h2
    · rw [h] at h4; exact lt_irrefl _ h4
  · rw [← Bool.not_eq_true, Rect.contains_eq_true]
    rintro ⟨_, h2, _, _⟩
    exact lt_irrefl _ h2

/-- C19: for every rect and point `p`, `contains(p)` holds iff
`pos.x <= p.x < pos.x + size.x` and `pos.y <= p.y < pos.y + size.y`. -/
theorem containsPoint_half_open (a : Rect) (p : Vec2) :
    a.containsPoint p = true ↔
      (a.pos.x ≤ p.x ∧ p.x < a.pos.x + a.size.x) ∧
        (a.pos.y ≤ p.y ∧ p.y < a.pos.y + a.size.y) := by
  rw [Rect.containsPoint_eq_true]
  constructor
  · rintro ⟨h1, h2, h3, h4⟩; exact ⟨⟨h1, h3⟩, h2, h4⟩
  · rintro ⟨⟨h1, h3⟩, h2, h4⟩; exact ⟨h1, h2, h3, h4⟩

end Rect

/-! ## The dynamic quadtree against the static one -/

namespace Node

variable {T : Type}

theorem corr_congr (f g : Nat → Option T) (dn : Node Nat) (sn : Node T) (h : Corr f dn sn)
    (hfg : ∀ x ∈ dn.items, g x = f x) : Corr g dn sn := by
  induction dn generalizing sn with
  | null =>
    cases sn with
    | null => trivial
    | mk => exact h
  | mk a d s0 s1 s2 s3 c0 c1 c2 c3 objs ih0 ih1 ih2 ih3 =>
    cases sn with
    | null => exact h
    | mk a1 d1 t0 t1 t2 t3 e0 e1 e2 e3 objs1 =>
      obtain ⟨h1, h2, h3, h4, h5, h6, h7, k0, k1, k2, k3⟩ := h
      simp only [items, List.mem_append] at hfg
      refine ⟨h1, h2, h3, h4, h5, h6, ?_, ih0 e0 k0 fun x hx => hfg x (by tauto),
        ih1 e1 k1 fun x hx => hfg x (by tauto), ih2 e2 k2 fun x hx => hfg x (by tauto),
        ih3 e3 k3 fun x hx => hfg x (by tauto)⟩
      rw [← h7]
      apply List.map_congr_left
      intro x hx
      exact hfg x (Or.inl hx)

theorem corr_isSome (f : Nat → Option T) (dn : Node Nat) (sn : Node T) (h : Corr f dn sn) :
    dn.isSome = sn.isSome := by
  cases dn <;> cases sn <;> first | rfl | exact h.elim

theorem corr_size (f : Nat → Option T) (dn : Node Nat) (sn : Node T) (h : Corr f dn sn) :
    dn.size = sn.size := by
  induction dn generalizing sn with
  | null =>
    cases sn with
    | null => rfl
    | mk => exact h.elim
  | mk a d s0 s1 s2 s3 c0 c1 c2 c3 objs ih0 ih1 ih2 ih3 =>
    cases sn with
    | null => exact h.elim
    | mk a1 d1 t0 t1 t2 t3 e0 e1 e2 e3 objs1 =>
      obtain ⟨_, _, _, _, _, _, h7, k0, k1, k2, k3⟩ := h
      have hl : objs.length = objs1.length := by
        have := congrArg List.length h7
        simpa using this
      simp only [size, ih0 e0 k0, ih1 e1 k1, ih2 e2 k2, ih3 e3 k3, hl]

theorem corr_items (f : Nat → Option T) (dn : Node Nat) (sn : Node T) (h : Corr f dn sn) :
    dn.items.map f = sn.items.map some := by
  induction dn generalizing sn with
  | null =>
    cases sn with
    | null => rfl
    | mk => exact h.elim
  | mk a d s0 s1 s2 s3 c0 c1 c2 c3 objs ih0 ih1 ih2 ih3 =>
    cases sn with
    | null => exact h.elim
    | mk a1 d1 t0 t1 t2 t3 e0 e1 e2 e3 objs1 =>
      obtain ⟨_, _, _, _, _, _, h7, k0, k1, k2, k3⟩ := h
      simp only [items, List.map_append, ih0 e0 k0, ih1 e1 k1, ih2 e2 k2, ih3 e3 k3, h7]

theorem corr_searchChild (f : Nat → Option T) (r s : Rect) (dn : Node Nat) (sn : Node T)
    (h : Corr f dn sn) (d1 : List Nat) (d2 : List T) (hd : d1.map f = d2.map some) :
    (searchChild r s dn d1).map f = (searchChild r s sn d2).map some := by
  unfold searchChild
  rw [corr_isSome f dn sn h]
  split_ifs
  · exact corr_items f dn sn h
  · exact hd
  · rfl
  · rfl

end Node

namespace DynamicQuadTree

variable {OBJ_T : Type}

theorem objOf_append_of_mem (v : List (ObjectListItem OBJ_T)) (w : List (ObjectListItem OBJ_T))
    (h : Nat) (hm : h ∈ v.map fun it => it.key) : objOf (v ++ w) h = objOf v h := by
  induction v with
  | nil => simp at hm
  | cons a v ih =>
    unfold objOf deref at ih ⊢
    by_cases hk : a.key = h
    · simp [List.find?_cons, hk]
    · have hm1 : h ∈ v.map fun it => it.key := by
        simp only [List.map_cons, List.mem_cons] at hm
        rcases hm with hm | hm
        · exact absurd hm.symm hk
        · exact hm
      have hb : (a.key == h) = false := by simpa using hk
      simp only [List.cons_append, List.find?_cons, hb]
      exact ih hm1

theorem objOf_append_new (v : List (ObjectListItem OBJ_T)) (k : Nat) (obj : OBJ_T)
    (loc : ObjectInfo) (hk : k ∉ v.map fun it => it.key) :
    objOf (v ++ [⟨k, obj, loc⟩]) k = some obj := by
  induction v with
  | nil => simp [objOf, deref]
  | cons a v ih =>
    unfold objOf deref at ih ⊢
    simp only [List.map_cons, List.mem_cons, not_or] at hk
    have hb : (a.key == k) = false := by
      simp only [beq_eq_false_iff_ne, ne_eq]
      exact fun e => hk.1 e.symm
    simp only [List.cons_append, List.find?_cons, hb]
    exact ih hk.2

variable [SpatialObject OBJ_T]

theorem corr_insertNew (f : Nat → Option OBJ_T) (k : Nat) (obj : OBJ_T) (hf : f k = some obj)
    (fuel : Nat) (r : Rect) (depth : Nat) :
    Node.Corr f (insertNew fuel r k (GetArea obj) depth).1
      (StaticQuadTree.insertNew fuel r obj depth) := by
  induction fuel generalizing r depth with
  | zero => simp [insertNew, StaticQuadTree.insertNew, Node.Corr, hf]
  | succ fuel ih =>
    unfold insertNew StaticQuadTree.insertNew
    split_ifs <;> simp [Node.Corr, hf, ih]

theorem corr_insertNode (f : Nat → Option OBJ_T) (k : Nat) (obj : OBJ_T) (hf : f k = some obj)
    (dn : Node Nat) (sn : Node OBJ_T) (h : Node.Corr f dn sn) (r : Rect) (depth : Nat) :
    Node.Corr f (insertNode dn r k (GetArea obj) depth).1
      (StaticQuadTree.insertNode sn r obj depth) := by
  induction dn generalizing sn r depth with
  | null =>
    cases sn with
    | null => exact corr_insertNew f k obj hf _ r depth
    | mk => exact h.elim
  | mk a d s0 s1 s2 s3 c0 c1 c2 c3 objs ih0 ih1 ih2 ih3 =>
    cases sn with
    | null => exact h.elim
    | mk a1 d1 t0 t1 t2 t3 e0 e1 e2 e3 objs1 =>
      obtain ⟨h1, h2, h3, h4, h5, h6, h7, k0, k1, k2, k3⟩ := h
      subst h1 h2 h3 h4 h5 h6
      unfold insertNode StaticQuadTree.insertNode
      split_ifs
      · exact ⟨rfl, rfl, rfl, rfl, rfl, rfl, h7, ih0 e0 k0 _ _, k1, k2, k3⟩
      · exact ⟨rfl, rfl, rfl, rfl, rfl, rfl, h7, k0, ih1 e1 k1 _ _, k2, k3⟩
      · exact ⟨rfl, rfl, rfl, rfl, rfl, rfl, h7, k0, k1, ih2 e2 k2 _ _, k3⟩
      · exact ⟨rfl, rfl, rfl, rfl, rfl, rfl, h7, k0, k1, k2, ih3 e3 k3 _ _⟩
      · refine ⟨rfl, rfl, rfl, rfl, rfl, rfl, ?_, k0, k1, k2, k3⟩
        simp [h7, hf]

theorem corr_build (area : Rect) (objs : List OBJ_T) :
    Node.Corr (objOf (build area objs).vObjects) (build area objs).root
      (StaticQuadTree.build area objs).root := by
  induction objs using List.reverseRecOn with
  | nil => simp [build, SetArea, empty, StaticQuadTree.build, StaticQuadTree.SetArea,
      StaticQuadTree.empty, Node.Corr]
  | append_singleton objs obj ih =>
    have hinv := inv_of_reachable _ (reachable_build area objs)
    rw [StaticQuadTree.root_build_snoc, dyn_build_append]
    show Node.Corr (objOf ((build area objs).vObjects ++ [_]))
      (insertNode (build area objs).root (build area objs).area (build area objs).nextKey
        (GetArea obj) 0).1 _
    rw [dyn_area_build]
    apply corr_insertNode
    · apply objOf_append_new
      intro hm
      exact absurd (hinv.fresh _ hm) (lt_irrefl _)
    · apply Node.corr_congr _ _ _ _ ih
      intro x hx
      exact objOf_append_of_mem _ _ x (hinv.live x hx)

theorem hit_eq_objOf (v : List (ObjectListItem OBJ_T)) (r : Rect) (h : Nat) :
    hit v r h = (match objOf v h with
      | some o => r.overlaps (GetArea o)
      | none => false) := by
  unfold hit areaOf objOf
  cases deref v h <;> rfl

theorem filter_hit_map (v : List (ObjectListItem OBJ_T)) (r : Rect) (objs : List Nat) :
    ∀ (objs1 : List OBJ_T), objs.map (objOf v) = objs1.map some →
      (objs.filter fun h => hit v r h).map (objOf v) =
        (objs1.filter fun o => r.overlaps (GetArea o)).map some := by
  induction objs with
  | nil =>
    intro objs1 h
    cases objs1 with
    | nil => rfl
    | cons => simp at h
  | cons x objs ih =>
    intro objs1 h
    cases objs1 with
    | nil => simp at h
    | cons y objs1 =>
      simp only [List.map_cons, List.cons.injEq] at h
      have hx : hit v r x = r.overlaps (GetArea y) := by
        rw [hit_eq_objOf, h.1]
      by_cases hy : r.overlaps (GetArea y) = true
      · have hx1 : hit v r x = true := hx.trans hy
        simp only [List.filter_cons, hx1, hy, if_true, List.map_cons, h.1, ih objs1 h.2]
      · have hy1 : r.overlaps (GetArea y) = false := by simpa using hy
        have hx1 : hit v r x = false := hx.trans hy1
        simp only [List.filter_cons, hx1, hy1, Bool.false_eq_true, if_false, ih objs1 h.2]

theorem corr_searchNode (v : List (ObjectListItem OBJ_T)) (r : Rect) (dn : Node Nat)
    (sn : Node OBJ_T) (h : Node.Corr (objOf v) dn sn) :
    (searchNode v dn r).map (objOf v) = (StaticQuadTree.searchNode sn r).map some := by
  induction dn generalizing sn with
  | null =>
    cases sn with
    | null => rfl
    | mk => exact h.elim
  | mk a d s0 s1 s2 s3 c0 c1 c2 c3 objs ih0 ih1 ih2 ih3 =>
    cases sn with
    | null => exact h.elim
    | mk a1 d1 t0 t1 t2 t3 e0 e1 e2 e3 objs1 =>
      obtain ⟨h1, h2, h3, h4, h5, h6, h7, k0, k1, k2, k3⟩ := h
      subst h1 h2 h3 h4 h5 h6
      rw [searchNode, StaticQuadTree.searchNode]
      by_cases hov : r.overlaps a = true
      · rw [if_pos hov, if_pos hov]
        simp only [List.map_append]
        rw [filter_hit_map v r objs objs1 h7,
          Node.corr_searchChild _ r s0 c0 e0 k0 _ _ (ih0 e0 k0),
          Node.corr_searchChild _ r s1 c1 e1 k1 _ _ (ih1 e1 k1),
          Node.corr_searchChild _ r s2 c2 e2 k2 _ _ (ih2 e2 k2),
          Node.corr_searchChild _ r s3 c3 e3 k3 _ _ (ih3 e3 k3)]
      · rw [if_neg hov, if_neg hov]
        rfl

/-- C20: for the same domain and the same insert sequence with no removals, the
objects that the handles returned by `DynamicQuadTree::search(r)` refer to are,
in the same order, exactly the list `StaticQuadTree::search(r)` returns, for
every query rect (both undefined before the first insert); `size()` agrees
too. -/
theorem dynamic_agrees_with_static (area : Rect) (objs : List OBJ_T) (r : Rect) :
    ((build area objs).search r).map
        (fun hs => hs.map (objOf (build area objs).vObjects)) =
      ((StaticQuadTree.build area objs).search r).map (fun os => os.map some) ∧
      (build area objs).size = (StaticQuadTree.build area objs).size := by
  have hc := corr_build area objs
  constructor
  · unfold search StaticQuadTree.search
    rw [Node.corr_isSome _ _ _ hc]
    split_ifs
    · simp only [Option.map_some', Option.some.injEq]
      exact corr_searchNode _ r _ _ hc
    · rfl
  · unfold size StaticQuadTree.size
    rw [Node.corr_isSome _ _ _ hc, Node.corr_size _ _ _ hc]

end DynamicQuadTree

/-! ## K-d tree: ordering -/

namespace KDTree

variable {OBJ_T : Type} [SpatialObject OBJ_T]

theorem kd_ordered_make (ob : OBJ_T) (r : Rect) (dep : Nat) :
    (KDNode.make ob r dep).Ordered dep := by
  unfold KDNode.make
  split_ifs <;> simp [KDNode.Ordered, KDNode.items]

theorem kd_ordered_insertNode (n : KDNode OBJ_T) (r : Rect) (ob : OBJ_T) (dep : Nat)
    (hn : n.Ordered dep) : (insertNode n r ob dep).Ordered dep := by
  induction n generalizing r dep with
  | null => exact kd_ordered_make ob r dep
  | mk area object left right v0 v1 d ihl ihr =>
    obtain ⟨hd, hl, hr, ol, or⟩ := hn
    unfold insertNode
    split_ifs with hlt
    · refine ⟨hd, ?_, hr, ihl v0 (dep + 1) ol, or⟩
      intro o ho
      rcases (kd_mem_items_insertNode _ _ _ _ _).1 ho with ho | rfl
      · exact hl o ho
      · exact hlt
    · refine ⟨hd, hl, ?_, ol, ihr v1 (dep + 1) or⟩
      intro o ho
      rcases (kd_mem_items_insertNode _ _ _ _ _).1 ho with ho | rfl
      · exact hr o ho
      · exact not_lt.1 hlt

/-- C30: in every k-d tree reached by inserts, every node at depth `d` has,
along the axis `d % 2`, every object of its left subtree strictly before its own
object and every object of its right subtree at or after it; the root is at
depth 0 and a child is one level below its parent. -/
theorem kd_ordered_build (area : Rect) (objs : List OBJ_T) :
    (build area objs).root.Ordered 0 := by
  induction objs using List.reverseRecOn with
  | nil => simp [build, SetArea, empty, KDNode.Ordered]
  | append_singleton objs ob ih =>
    rw [kd_root_build_snoc]
    exact kd_ordered_insertNode _ _ _ _ ih

end KDTree

/-! ## Static quadtree: `items()` against the inserted sequence -/

theorem Node.length_items_eq_size {T : Type} (n : Node T) : n.items.length = n.size := by
  induction n with
  | null => rfl
  | mk area d s0 s1 s2 s3 n0 n1 n2 n3 objs ih0 ih1 ih2 ih3 =>
    simp only [Node.items, Node.size, List.length_append, ih0, ih1, ih2, ih3]
    omega

namespace StaticQuadTree

variable {OBJ_T : Type} [SpatialObject OBJ_T]

theorem count_items_insertNew [DecidableEq OBJ_T] (k : Nat) (r : Rect) (obj : OBJ_T)
    (depth : Nat) (x : OBJ_T) :
    (insertNew k r obj depth).items.count x = [obj].count x := by
  rw [items_insertNew]

theorem count_items_insertNode [DecidableEq OBJ_T] (n : Node OBJ_T) (r : Rect) (obj : OBJ_T)
    (depth : Nat) (x : OBJ_T) :
    (insertNode n r obj depth).items.count x = n.items.count x + [obj].count x := by
  induction n generalizing r depth with
  | null => simp [insertNode, count_items_insertNew, Node.items]
  | mk area d s0 s1 s2 s3 n0 n1 n2 n3 objs ih0 ih1 ih2 ih3 =>
    unfold insertNode
    split_ifs <;> simp only [Node.items, List.count_append, ih0, ih1, ih2, ih3] <;> omega

theorem items_insertNode_perm (n : Node OBJ_T) (r : Rect) (obj : OBJ_T) (depth : Nat) :
    (insertNode n r obj depth).items.Perm (n.items ++ [obj]) := by
  classical
  rw [List.perm_iff_count]
  intro x
  rw [count_items_insertNode, List.count_append]

theorem items_build_perm (area : Rect) (objs : List OBJ_T) :
    (build area objs).root.items.Perm objs := by
  induction objs using List.reverseRecOn with
  | nil => simp [build, SetArea, empty, Node.items]
  | append_singleton objs obj ih =>
    rw [root_build_snoc]
    exact (items_insertNode_perm _ _ _ _).trans (ih.append_right [obj])

/-- C23: for every domain and every insert sequence of length `N >= 1`,
`items()` is a permutation of the inserted sequence (every inserted object as
often as it was inserted, nothing else) and its length is `size()`. -/
theorem items_perm_and_size (area : Rect) (objs : List OBJ_T) (h : objs ≠ []) :
    (build area objs).items.Perm objs ∧
      (build area objs).size = some (build area objs).items.length := by
  refine ⟨items_build_perm area objs, ?_⟩
  simp [size, items, isSome_root_build area objs h, Node.length_items_eq_size]

end StaticQuadTree

namespace StaticQuadTree

/-- C23 at a concrete input: circles A and B, then A again. -/
theorem items_perm_and_size_witness :
    ([Example.objA, Example.objB, Example.objA] : List CObject) ≠ [] ∧
      (build Example.domain [Example.objA, Example.objB, Example.objA]).items.Perm
        [Example.objA, Example.objB, Example.objA] ∧
      (build Example.domain [Example.objA, Example.objB, Example.objA]).size =
        some (build Example.domain [Example.objA, Example.objB, Example.objA]).items.length :=
  ⟨by simp, items_perm_and_size Example.domain [Example.objA, Example.objB, Example.objA]
    (by simp)⟩

/-- C21 (failing input): before the first insert the root is null; `size()` and
`search(r)` of the static quadtree, of the dynamic quadtree and of the grid, and
`size()` of the k-d tree, read through the null root and have no defined result;
only `search(r)` of the k-d tree returns the empty list. -/
theorem empty_index_undefined (r : Rect) :
    (empty : StaticQuadTree CObject).size = none ∧
      (empty : StaticQuadTree CObject).search r = none ∧
      (DynamicQuadTree.empty : DynamicQuadTree CObject).size = none ∧
      (DynamicQuadTree.empty : DynamicQuadTree CObject).search r = none ∧
      (GridTree.empty : GridTree CObject).size = none ∧
      (GridTree.empty : GridTree CObject).search r = none ∧
      (KDTree.empty : KDTree CObject).size = none ∧
      (KDTree.empty : KDTree CObject).search r = [] :=
  ⟨rfl, rfl, rfl, rfl, rfl, rfl, rfl, rfl⟩

end StaticQuadTree

namespace GridTree

/-- C26 (failing input): circle A is stored once, in the first cell of the
2 x 2 grid; the query `{{0, 0}, {60, 60}}` contains and overlaps that cell, and
`search` returns A twice, more entries than `size()` counts. -/
theorem grid_search_emits_twice :
    (build Example.domain (2, 2) [Example.objA]).size = some 1 ∧
      Example.querySixty.contains (GridNode.cellArea Example.domain (2, 2) 0 0) = true ∧
      Example.querySixty.overlaps (GridNode.cellArea Example.domain (2, 2) 0 0) = true ∧
      (build Example.domain (2, 2) [Example.objA]).search Example.querySixty
        = some [Example.objA, Example.objA] := by
  decide!

end GridTree

/-! ## Uniform grid: what the cells hold -/

theorem sum_indicator_eq_length_filter {α : Type} (p : α → Bool) (l : List α) :
    (l.map fun c => if p c = true then 1 else 0).sum = (l.filter p).length := by
  induction l with
  | nil => rfl
  | cons a l ih =>
    by_cases h : p a = true
    · simp [List.filter_cons, h, ih, Nat.add_comm]
    · simp [List.filter_cons, h, ih]

theorem sum_map_add_nat {α : Type} (f g : α → Nat) (l : List α) :
    (l.map fun c => f c + g c).sum = (l.map f).sum + (l.map g).sum := by
  induction l with
  | nil => rfl
  | cons a l ih =>
    simp only [List.map_cons, List.sum_cons, ih]
    omega

/-- Counting cell by cell the objects that pass the test is counting object by
object the cells that pass it. -/
theorem sum_length_filter_swap {α β : Type} (P : α → β → Bool) (cells : List α)
    (objs : List β) :
    (cells.map fun c => (objs.filter fun o => P c o).length).sum =
      (objs.map fun o => (cells.filter fun c => P c o).length).sum := by
  induction objs with
  | nil => simp
  | cons o objs ih =>
    have step : ∀ c, ((o :: objs).filter fun o => P c o).length =
        (if P c o = true then 1 else 0) + (objs.filter fun o => P c o).length := by
      intro c
      by_cases h : P c o = true
      · simp [List.filter_cons, h, Nat.add_comm]
      · simp [List.filter_cons, h]
    simp only [step, List.map_cons, List.sum_cons]
    rw [← ih, ← sum_indicator_eq_length_filter (fun c => P c o) cells]
    exact sum_map_add_nat _ _ cells

namespace GridTree

variable {OBJ_T : Type} [SpatialObject OBJ_T]

/-- C27: after inserting the non-empty sequence `objs`, the grid root exists,
every cell's list holds, in insertion order, exactly the inserted objects whose
area the cell contains or overlaps, and `size()` is the sum over the inserted
objects of the number of cells that pass this test for the object (once for an
object that only one cell passes, `k` times for one that `k` cells pass). -/
theorem grid_cells_and_size (area : Rect) (cc : Nat × Nat) (objs : List OBJ_T)
    (h : objs ≠ []) :
    ∃ node, (build area cc objs).root = some node ∧
      node.vCellAreas = (GridNode.make area cc : GridNode OBJ_T).vCellAreas ∧
      node.vCellObjects = node.vCellAreas.map
        (fun cell => objs.filter fun o =>
          cell.contains (GetArea o) || cell.overlaps (GetArea o)) ∧
      (build area cc objs).size = some
        (objs.map fun o => (node.vCellAreas.filter fun cell =>
          cell.contains (GetArea o) || cell.overlaps (GetArea o)).length).sum := by
  refine ⟨GridNode.filled area cc objs, grid_root_build area cc objs h, rfl, rfl, ?_⟩
  simp only [size, grid_root_build area cc objs h, Option.map_some', Option.some.injEq]
  rw [← sum_length_filter_swap
    (fun (cell : Rect) (o : OBJ_T) => cell.contains (GetArea o) || cell.overlaps (GetArea o))]
  simp [GridNode.filled, List.map_map, Function.comp_def]

end GridTree

namespace GridTree

/-- C27 at a concrete input: in the 2 x 2 grid the box `{{10, 10}, {10, 10}}`
lies in the interior of one cell and counts once, the box `{{10, 45}, {10, 10}}`
spans two cells and counts twice; `size()` is 3. -/
theorem grid_cells_and_size_witness :
    ([Example.objInner, Example.objBox] : List Rect) ≠ [] ∧
      (build Example.domain (2, 2) [Example.objInner, Example.objBox]).size = some 3 ∧
      ((GridNode.make Example.domain (2, 2) : GridNode Rect).vCellAreas.filter fun cell =>
        cell.contains (GetArea Example.objInner) ||
          cell.overlaps (GetArea Example.objInner)).length = 1 ∧
      ((GridNode.make Example.domain (2, 2) : GridNode Rect).vCellAreas.filter fun cell =>
        cell.contains (GetArea Example.objBox) ||
          cell.overlaps (GetArea Example.objBox)).length = 2 ∧
      ∃ node, (build Example.domain (2, 2) [Example.objInner, Example.objBox]).root
          = some node ∧
        node.vCellAreas = (GridNode.make Example.domain (2, 2) : GridNode Rect).vCellAreas ∧
        node.vCellObjects = node.vCellAreas.map
          (fun cell => [Example.objInner, Example.objBox].filter fun o =>
            cell.contains (GetArea o) || cell.overlaps (GetArea o)) ∧
        (build Example.domain (2, 2) [Example.objInner, Example.objBox]).size = some
          ([Example.objInner, Example.objBox].map fun o =>
            (node.vCellAreas.filter fun cell =>
              cell.contains (GetArea o) || cell.overlaps (GetArea o)).length).sum :=
  ⟨by simp, by decide!, by decide!, by decide!,
    grid_cells_and_size Example.domain (2, 2) [Example.objInner, Example.objBox] (by simp)⟩

end GridTree

/-! ## Dynamic quadtree: handles that are not live -/

namespace DynamicQuadTree

theorem deref_none_of_not_mem {OBJ_T : Type} (v : List (ObjectListItem OBJ_T)) (h : Nat)
    (hm : h ∉ v.map fun it => it.key) : deref v h = none := by
  unfold deref
  rw [List.find?_eq_none]
  intro it hit hk
  apply hm
  rw [List.mem_map]
  exact ⟨it, hit, by simpa using hk⟩

/-- C22 (as amended): `remove(h)` makes no check and has the precondition that
the handle is live: in every state reached by inserts and removals of live
handles it is defined for a live handle, and for a handle that is not live
(already removed, or never issued by this tree) it reads through the stale
handle and no result is defined. -/
theorem remove_defined_iff_live {OBJ_T : Type} [SpatialObject OBJ_T]
    (t : DynamicQuadTree OBJ_T) (ht : Reachable t) (h : Nat) :
    (h ∈ handles t → ∃ t1, remove t h = some t1) ∧ (h ∉ handles t → remove t h = none) := by
  constructor
  · intro hh
    exact ⟨_, remove_eq t (inv_of_reachable t ht) h hh⟩
  · intro hh
    unfold remove
    rw [deref_none_of_not_mem t.vObjects h hh]

end DynamicQuadTree

namespace DynamicQuadTree

/-- C22 (counterexample): after two inserts and the removal of handle 0, a
second `remove` of handle 0 has no defined result, and neither has the removal
of handle 7, which the tree never issued: there is no state left unchanged. -/
theorem remove_dead_handle_undefined :
    (remove (build Example.domain [Example.objA, Example.objB]) 0).isSome = true ∧
      ((remove (build Example.domain [Example.objA, Example.objB]) 0).bind
        fun t1 => remove t1 0).isNone = true ∧
      (remove (build Example.domain [Example.objA, Example.objB]) 7).isNone = true := by
  decide!

/-- C22 (as amended) at a concrete input: after two inserts handle 1 is live
and handle 7 is not. -/
theorem remove_defined_iff_live_witness :
    Reachable (build Example.domain [Example.objA, Example.objB]) ∧
      1 ∈ handles (build Example.domain [Example.objA, Example.objB]) ∧
      (∃ t1, remove (build Example.domain [Example.objA, Example.objB]) 1 = some t1) ∧
      7 ∉ handles (build Example.domain [Example.objA, Example.objB]) ∧
      remove (build Example.domain [Example.objA, Example.objB]) 7 = none :=
  ⟨reachable_build _ _, by decide!,
    (remove_defined_iff_live (build Example.domain [Example.objA, Example.objB])
      (reachable_build _ _) 1).1 (by decide!),
    by decide!,
    (remove_defined_iff_live (build Example.domain [Example.objA, Example.objB])
      (reachable_build _ _) 7).2 (by decide!)⟩

end DynamicQuadTree

/-! ## Dynamic quadtree: back-references and the frame of `remove` -/

namespace Node

theorem skeleton_child_congr {T : Type} (a : Rect) (d : Nat) (s0 s1 s2 s3 : Rect)
    (c0 c1 c2 c3 e0 e1 e2 e3 : Node T) (l1 l2 : List T)
    (h0 : skeleton e0 = skeleton c0) (h1 : skeleton e1 = skeleton c1)
    (h2 : skeleton e2 = skeleton c2) (h3 : skeleton e3 = skeleton c3) :
    skeleton (mk a d s0 s1 s2 s3 e0 e1 e2 e3 l1) = skeleton (mk a d s0 s1 s2 s3 c0 c1 c2 c3 l2) := by
  simp only [skeleton, h0, h1, h2, h3]

end Node

namespace DynamicQuadTree

theorem mem_items_of_listAt (n : Node Nat) (path : List Nat) (l : List Nat)
    (hl : listAt n path = some l) (h : Nat) (hm : h ∈ l) : h ∈ n.items := by
  induction n generalizing path with
  | null => simp [listAt] at hl
  | mk area d s0 s1 s2 s3 c0 c1 c2 c3 objs ih0 ih1 ih2 ih3 =>
    simp only [Node.items, List.mem_append]
    cases path with
    | nil =>
      simp only [listAt, Option.some.injEq] at hl
      subst hl
      exact Or.inl hm
    | cons i path =>
      simp only [listAt] at hl
      split_ifs at hl
      · exact Or.inr (Or.inl (ih0 _ hl))
      · exact Or.inr (Or.inr (Or.inl (ih1 _ hl)))
      · exact Or.inr (Or.inr (Or.inr (Or.inl (ih2 _ hl))))
      · exact Or.inr (Or.inr (Or.inr (Or.inr (ih3 _ hl))))

/-- The frame of `_pObjects->erase(_objIt)`: the nodes stay, the designated list
loses exactly the entry for `h`, every other list stays. -/
theorem eraseAt_frame (n : Node Nat) (path : List Nat) (h : Nat) (n1 : Node Nat)
    (he : eraseAt n path h = some n1) :
    n1.skeleton = n.skeleton ∧
      (∃ l, listAt n path = some l ∧ h ∈ l ∧ listAt n1 path = some (l.erase h)) ∧
      ∀ q, q ≠ path → listAt n1 q = listAt n q := by
  induction n generalizing path n1 with
  | null => simp [eraseAt] at he
  | mk area d s0 s1 s2 s3 c0 c1 c2 c3 objs ih0 ih1 ih2 ih3 =>
    cases path with
    | nil =>
      simp only [eraseAt] at he
      split_ifs at he with hm
      simp only [Option.some.injEq] at he
      subst he
      refine ⟨rfl, ⟨objs, rfl, hm, rfl⟩, ?_⟩
      intro q hq
      cases q with
      | nil => exact absurd rfl hq
      | cons j q => rfl
    | cons i path =>
      simp only [eraseAt] at he
      split_ifs at he with i0 i1 i2 i3
      · obtain ⟨m, hm, rfl⟩ := Option.map_eq_some'.1 he
        obtain ⟨k1, ⟨l, k2, k3, k4⟩, k5⟩ := ih0 _ _ hm
        subst i0
        refine ⟨Node.skeleton_child_congr _ _ _ _ _ _ _ _ _ _ _ _ _ _ _ _ k1 rfl rfl rfl,
          ⟨l, by simpa [listAt] using k2, k3, by simpa [listAt] using k4⟩, ?_⟩
        intro q hq
        cases q with
        | nil => rfl
        | cons j q =>
          by_cases hj : j = 0
          · subst hj
            have : q ≠ path := fun e => hq (by rw [e])
            simpa [listAt] using k5 q this
          · simp [listAt, hj]
      · obtain ⟨m, hm, rfl⟩ := Option.map_eq_some'.1 he
        obtain ⟨k1, ⟨l, k2, k3, k4⟩, k5⟩ := ih1 _ _ hm
        subst i1
        refine ⟨Node.skeleton_child_congr _ _ _ _ _ _ _ _ _ _ _ _ _ _ _ _ rfl k1 rfl rfl,
          ⟨l, by simpa [listAt] using k2, k3, by simpa [listAt] using k4⟩, ?_⟩
        intro q hq
        cases q with
        | nil => rfl
        | cons j q =>
          by_cases hj : j = 1
          · subst hj
            have : q ≠ path := fun e => hq (by rw [e])
            simpa [listAt] using k5 q this
          · simp [listAt, hj]
      · obtain ⟨m, hm, rfl⟩ := Option.map_eq_some'.1 he
        obtain ⟨k1, ⟨l, k2, k3, k4⟩, k5⟩ := ih2 _ _ hm
        subst i2
        refine ⟨Node.skeleton_child_congr _ _ _ _ _ _ _ _ _ _ _ _ _ _ _ _ rfl rfl k1 rfl,
          ⟨l, by simpa [listAt] using k2, k3, by simpa [listAt] using k4⟩, ?_⟩
        intro q hq
        cases q with
        | nil => rfl
        | cons j q =>
          by_cases hj : j = 2
          · subst hj
            have : q ≠ path := fun e => hq (by rw [e])
            simpa [listAt] using k5 q this
          · simp [listAt, hj]
      · obtain ⟨m, hm, rfl⟩ := Option.map_eq_some'.1 he
        obtain ⟨k1, ⟨l, k2, k3, k4⟩, k5⟩ := ih3 _ _ hm
        subst i3
        refine ⟨Node.skeleton_child_congr _ _ _ _ _ _ _ _ _ _ _ _ _ _ _ _ rfl rfl rfl k1,
          ⟨l, by simpa [listAt] using k2, k3, by simpa [listAt] using k4⟩, ?_⟩
        intro q hq
        cases q with
        | nil => rfl
        | cons j q =>
          by_cases hj : j = 3
          · subst hj
            have : q ≠ path := fun e => hq (by rw [e])
            simpa [listAt] using k5 q this
          · simp [listAt, hj]

variable {OBJ_T : Type}

/-- What a defined `remove` did. -/
theorem remove_some (t t1 : DynamicQuadTree OBJ_T) (h : Nat) (hr : remove t h = some t1) :
    ∃ item, deref t.vObjects h = some item ∧
      eraseAt t.root item.locationInTree.pObjects item.locationInTree.objIt = some t1.root ∧
      t1.vObjects = (t.vObjects.filter fun it => it.key != h) ∧
      t1.area = t.area ∧ t1.nextKey = t.nextKey := by
  unfold remove at hr
  cases hd : deref t.vObjects h with
  | none => rw [hd] at hr; simp at hr
  | some item =>
    rw [hd] at hr
    simp only at hr
    cases he : eraseAt t.root item.locationInTree.pObjects item.locationInTree.objIt with
    | none => rw [he] at hr; simp at hr
    | some root =>
      rw [he] at hr
      simp only [Option.some.injEq] at hr
      subst hr
      exact ⟨item, rfl, he, rfl, rfl, rfl⟩

/-- C29: in every state reached by inserts and removals of live handles,
`remove(h)` of a live handle is defined; with `item` the record of `h`, the
nodes of the tree (areas, depths, sub-areas, child slots) are the same after the
call, the node list designated by the record's back-reference has lost exactly
the entry for `h` (the other entries keep their order), every other node list
is unchanged, and the top-level collection has lost exactly the record of `h`
(every other handle dereferences to the same record). -/
theorem remove_is_local [SpatialObject OBJ_T] (t : DynamicQuadTree OBJ_T) (ht : Reachable t)
    (h : Nat) (hh : h ∈ handles t) :
    ∃ t1 item, remove t h = some t1 ∧ deref t.vObjects h = some item ∧
      t1.root.skeleton = t.root.skeleton ∧
      (∃ l, listAt t.root item.locationInTree.pObjects = some l ∧ h ∈ l ∧
        listAt t1.root item.locationInTree.pObjects = some (l.erase h)) ∧
      (∀ q, q ≠ item.locationInTree.pObjects → listAt t1.root q = listAt t.root q) ∧
      t1.vObjects = (t.vObjects.filter fun it => it.key != h) ∧
      (∀ k, k ≠ h → deref t1.vObjects k = deref t.vObjects k) ∧
      t1.area = t.area := by
  have hinv := inv_of_reachable t ht
  have hrem := remove_eq t hinv h hh
  obtain ⟨item, h1, h2, h3, h4, _⟩ := remove_some t _ h hrem
  obtain ⟨_, hmem, hkey⟩ := deref_some_of_mem t.vObjects h hh
  have hobj : item.locationInTree.objIt = h := by
    have hi : item ∈ t.vObjects := List.mem_of_find?_eq_some h1
    have hk : item.key = h := by
      have := List.find?_some h1
      simpa using this
    exact (hinv.backRef item hi).1.trans hk
  rw [hobj] at h2
  obtain ⟨k1, k2, k3⟩ := eraseAt_frame _ _ _ _ h2
  refine ⟨_, item, hrem, h1, k1, k2, k3, h3, ?_, h4⟩
  intro k hk
  rw [h3]
  exact deref_filter_ne t.vObjects h k hk

/-- The handles in the tree are exactly the live handles, each once. -/
theorem items_perm_handles (t : DynamicQuadTree OBJ_T) (hinv : Inv t) :
    t.root.items.Perm (handles t) := by
  rw [List.perm_ext_iff_of_nodup hinv.nodupItems hinv.nodupHandles]
  intro a
  constructor
  · exact hinv.live a
  · intro ha
    obtain ⟨item, hitem, rfl⟩ := List.mem_map.1 ha
    obtain ⟨_, l, hl, hm⟩ := hinv.backRef item hitem
    exact mem_items_of_listAt _ _ l hl _ hm

/-- C28: in every state reached by inserts and removals of live handles, the
records and the entries of the node lists are in bijection: a record's
back-reference designates a node list with an entry that refers back to the
record; exactly one entry of the whole tree refers to the record; every entry
refers to a live record; no two records share a handle; so the number of
entries equals the number of records, and `size()`, once the first insert has
created the root, is the length of the top-level collection. -/
theorem backref_bijection [SpatialObject OBJ_T] (t : DynamicQuadTree OBJ_T)
    (ht : Reachable t) :
    (∀ item ∈ t.vObjects,
        item.locationInTree.objIt = item.key ∧
          (∃ l, listAt t.root item.locationInTree.pObjects = some l ∧
            item.locationInTree.objIt ∈ l) ∧
          t.root.items.count item.key = 1) ∧
      (∀ h ∈ t.root.items, ∃ item ∈ t.vObjects, item.key = h) ∧
      (handles t).Nodup ∧
      t.root.size = t.vObjects.length ∧
      (t.root.isSome = true → size t = some t.vObjects.length) := by
  have hinv := inv_of_reachable t ht
  have hperm := items_perm_handles t hinv
  have hsize : t.root.size = t.vObjects.length := by
    rw [← Node.length_items_eq_size, hperm.length_eq]
    simp [handles]
  refine ⟨?_, ?_, hinv.nodupHandles, hsize, ?_⟩
  · intro item hitem
    obtain ⟨h1, l, hl, hm⟩ := hinv.backRef item hitem
    refine ⟨h1, ⟨l, hl, h1 ▸ hm⟩, ?_⟩
    exact List.count_eq_one_of_mem hinv.nodupItems (mem_items_of_listAt _ _ l hl _ hm)
  · intro h hh
    obtain ⟨item, hitem, hk⟩ := List.mem_map.1 (hinv.live h hh)
    exact ⟨item, hitem, hk⟩
  · intro hs
    simp [size, hs, hsize]

end DynamicQuadTree

namespace DynamicQuadTree

/-- C29 at a concrete input: one circle is inserted and removed; the root stays,
with an empty list, and `size()` is 0. -/
theorem remove_is_local_witness :
    Reachable (build Example.domain [Example.objA]) ∧
      0 ∈ handles (build Example.domain [Example.objA]) ∧
      ((remove (build Example.domain [Example.objA]) 0).bind
        fun t1 => size t1) = some 0 ∧
      ∃ t1 item, remove (build Example.domain [Example.objA]) 0 = some t1 ∧
        deref (build Example.domain [Example.objA]).vObjects 0 = some item ∧
        t1.root.skeleton = (build Example.domain [Example.objA]).root.skeleton ∧
        (∃ l, listAt (build Example.domain [Example.objA]).root
            item.locationInTree.pObjects = some l ∧ 0 ∈ l ∧
          listAt t1.root item.locationInTree.pObjects = some (l.erase 0)) ∧
        (∀ q, q ≠ item.locationInTree.pObjects →
          listAt t1.root q = listAt (build Example.domain [Example.objA]).root q) ∧
        t1.vObjects =
          ((build Example.domain [Example.objA]).vObjects.filter fun it => it.key != 0) ∧
        (∀ k, k ≠ 0 →
          deref t1.vObjects k = deref (build Example.domain [Example.objA]).vObjects k) ∧
        t1.area = (build Example.domain [Example.objA]).area :=
  ⟨reachable_build _ _, by decide!, by decide!,
    remove_is_local (build Example.domain [Example.objA]) (reachable_build _ _) 0
      (by decide!)⟩

/-- C28 at a concrete input: after two inserts the tree holds two entries, as many as
there are records. -/
theorem backref_bijection_witness :
    Reachable (build Example.domain [Example.objA, Example.objB]) ∧
      (build Example.domain [Example.objA, Example.objB]).root.size = 2 ∧
      (build Example.domain [Example.objA, Example.objB]).root.size =
        (build Example.domain [Example.objA, Example.objB]).vObjects.length :=
  ⟨reachable_build _ _, by decide!,
    (backref_bijection (build Example.domain [Example.objA, Example.objB])
      (reachable_build _ _)).2.2.2.1⟩

end DynamicQuadTree

/-! ## Region quadtree: levels, placement and the frame of `insert` -/

namespace Node

theorem nodeAt_null {T : Type} (path : List Nat) : nodeAt (null : Node T) path = null := by
  induction path with
  | nil => rfl
  | cons i p ih => simpa [nodeAt, child] using ih

theorem levelled_child {T : Type} (n : Node T) (d i : Nat) (h : n.Levelled d) :
    (child n i).Levelled (d + 1) := by
  cases n with
  | null => trivial
  | mk a dep s0 s1 s2 s3 c0 c1 c2 c3 objs =>
    obtain ⟨_, _, h0, h1, h2, h3⟩ := h
    simp only [child]
    split_ifs
    · exact h0
    · exact h1
    · exact h2
    · exact h3
    · trivial

theorem levelled_nodeAt {T : Type} (n : Node T) (path : List Nat) (d : Nat)
    (h : n.Levelled d) : (nodeAt n path).Levelled (d + path.length) := by
  induction path generalizing n d with
  | nil => simpa [nodeAt] using h
  | cons i p ih =>
    have := ih (child n i) (d + 1) (levelled_child n d i h)
    rw [List.length_cons, show d + (p.length + 1) = d + 1 + p.length by omega]
    exact this

theorem length_le_of_isSome {T : Type} (n : Node T) (path : List Nat) (d : Nat)
    (h : n.Levelled d) (hs : (nodeAt n path).isSome = true) :
    d + path.length + 1 ≤ MAX_DEPTH := by
  have hl := levelled_nodeAt n path d h
  generalize nodeAt n path = m at hl hs
  cases m with
  | null => simp [isSome] at hs
  | mk a dep s0 s1 s2 s3 c0 c1 c2 c3 objs => exact hl.2.1

/-- Two nodes with the same object list that differ in child `i` only have the
same object lists at every path, given that below child `i` the lists agree
off the path `p`. -/
theorem objects_frame_child {T : Type} {n n1 : Node T} (i : Nat) (p : List Nat)
    (hobj : n1.objects = n.objects) (hch : ∀ j, j ≠ i → child n1 j = child n j)
    (hrec : ∀ q, q ≠ p → (nodeAt (child n1 i) q).objects = (nodeAt (child n i) q).objects) :
    ∀ q, q ≠ i :: p → (nodeAt n1 q).objects = (nodeAt n q).objects := by
  intro q hq
  cases q with
  | nil => exact hobj
  | cons j q =>
    by_cases hj : j = i
    · subst hj
      exact hrec q fun e => hq (by rw [e])
    · show (nodeAt (child n1 j) q).objects = (nodeAt (child n j) q).objects
      rw [hch j hj]

/-- Two nodes with the same four children have the same object lists at every
path other than the empty one. -/
theorem objects_frame_here {T : Type} {n n1 : Node T} (hch : ∀ j, child n1 j = child n j) :
    ∀ q, q ≠ [] → (nodeAt n1 q).objects = (nodeAt n q).objects := by
  intro q hq
  cases q with
  | nil => exact absurd rfl hq
  | cons j q =>
    show (nodeAt (child n1 j) q).objects = (nodeAt (child n j) q).objects
    rw [hch j]

theorem levelled_of_corr {T : Type} (f : Nat → Option T) (a : Node Nat) (b : Node T) (d : Nat)
    (hc : Corr f a b) (hl : b.Levelled d) : a.Levelled d := by
  induction a generalizing b d with
  | null => trivial
  | mk ar dep s0 s1 s2 s3 c0 c1 c2 c3 objs ih0 ih1 ih2 ih3 =>
    cases b with
    | null => exact hc.elim
    | mk ar1 dep1 t0 t1 t2 t3 e0 e1 e2 e3 objs1 =>
      obtain ⟨_, hd, _, _, _, _, _, k0, k1, k2, k3⟩ := hc
      obtain ⟨l0, l1, m0, m1, m2, m3⟩ := hl
      exact ⟨hd.trans l0, l1, ih0 _ _ k0 m0, ih1 _ _ k1 m1, ih2 _ _ k2 m2, ih3 _ _ k3 m3⟩

end Node

namespace StaticQuadTree

variable {OBJ_T : Type} [SpatialObject OBJ_T]

theorem levelled_insertNew (k : Nat) (r : Rect) (obj : OBJ_T) (depth : Nat)
    (hd : depth + 1 ≤ MAX_DEPTH) : (insertNew k r obj depth).Levelled depth := by
  induction k generalizing r depth with
  | zero => exact ⟨rfl, hd, trivial, trivial, trivial, trivial⟩
  | succ k ih =>
    unfold insertNew
    split_ifs with h0 h1 h2 h3
    · have hlt : depth + 1 < MAX_DEPTH := by simp at h0; exact h0.2
      exact ⟨rfl, hd, ih _ _ hlt, trivial, trivial, trivial⟩
    · have hlt : depth + 1 < MAX_DEPTH := by simp at h1; exact h1.2
      exact ⟨rfl, hd, trivial, ih _ _ hlt, trivial, trivial⟩
    · have hlt : depth + 1 < MAX_DEPTH := by simp at h2; exact h2.2
      exact ⟨rfl, hd, trivial, trivial, ih _ _ hlt, trivial⟩
    · have hlt : depth + 1 < MAX_DEPTH := by simp at h3; exact h3.2
      exact ⟨rfl, hd, trivial, trivial, trivial, ih _ _ hlt⟩
    · exact ⟨rfl, hd, trivial, trivial, trivial, trivial⟩

theorem levelled_insertNode (n : Node OBJ_T) (r : Rect) (obj : OBJ_T) (depth : Nat)
    (hl : n.Levelled depth) (hd : depth + 1 ≤ MAX_DEPTH) :
    (insertNode n r obj depth).Levelled depth := by
  induction n generalizing r depth with
  | null => exact levelled_insertNew _ _ _ _ hd
  | mk area d s0 s1 s2 s3 n0 n1 n2 n3 objs ih0 ih1 ih2 ih3 =>
    obtain ⟨e, l1, m0, m1, m2, m3⟩ := hl
    subst e
    unfold insertNode
    split_ifs with h0 h1 h2 h3
    · have hlt : d + 1 < MAX_DEPTH := by simp at h0; exact h0.2
      exact ⟨rfl, l1, ih0 _ _ m0 hlt, m1, m2, m3⟩
    · have hlt : d + 1 < MAX_DEPTH := by simp at h1; exact h1.2
      exact ⟨rfl, l1, m0, ih1 _ _ m1 hlt, m2, m3⟩
    · have hlt : d + 1 < MAX_DEPTH := by simp at h2; exact h2.2
      exact ⟨rfl, l1, m0, m1, ih2 _ _ m2 hlt, m3⟩
    · have hlt : d + 1 < MAX_DEPTH := by simp at h3; exact h3.2
      exact ⟨rfl, l1, m0, m1, m2, ih3 _ _ m3 hlt⟩
    · exact ⟨rfl, l1, m0, m1, m2, m3⟩

theorem levelled_build (area : Rect) (objs : List OBJ_T) :
    (build area objs).root.Levelled 0 := by
  induction objs using List.reverseRecOn with
  | nil => simp [build, SetArea, empty, Node.Levelled]
  | append_singleton objs obj ih =>
    rw [root_build_snoc]
    exact levelled_insertNode _ _ _ _ ih (by simp [MAX_DEPTH])

/-- Where the quadrant loop stops: no sub-area takes the object at this depth. -/
theorem stop_rests (a s0 s1 s2 s3 : Rect) (d : Nat) (hd : d + 1 ≤ MAX_DEPTH)
    (h0 : ¬ (s0.contains a && decide (d + 1 < MAX_DEPTH)) = true)
    (h1 : ¬ (s1.contains a && decide (d + 1 < MAX_DEPTH)) = true)
    (h2 : ¬ (s2.contains a && decide (d + 1 < MAX_DEPTH)) = true)
    (h3 : ¬ (s3.contains a && decide (d + 1 < MAX_DEPTH)) = true) :
    d + 1 = MAX_DEPTH ∨
      (s0.contains a = false ∧ s1.contains a = false ∧ s2.contains a = false ∧
        s3.contains a = false) := by
  by_cases hlt : d + 1 < MAX_DEPTH
  · right
    simp [hlt] at h0 h1 h2 h3
    exact ⟨h0, h1, h2, h3⟩
  · left
    omega

theorem settled_insertNew (k : Nat) (r : Rect) (obj : OBJ_T) (depth : Nat)
    (hk : MAX_DEPTH - depth ≤ k) (hd : depth + 1 ≤ MAX_DEPTH) :
    (insertNew k r obj depth).Settled := by
  induction k generalizing r depth with
  | zero => omega
  | succ k ih =>
    unfold insertNew
    split_ifs with h0 h1 h2 h3
    · have hlt : depth + 1 < MAX_DEPTH := by simp at h0; exact h0.2
      exact ⟨by simp, ih _ _ (by omega) hlt, trivial, trivial, trivial⟩
    · have hlt : depth + 1 < MAX_DEPTH := by simp at h1; exact h1.2
      exact ⟨by simp, trivial, ih _ _ (by omega) hlt, trivial, trivial⟩
    · have hlt : depth + 1 < MAX_DEPTH := by simp at h2; exact h2.2
      exact ⟨by simp, trivial, trivial, ih _ _ (by omega) hlt, trivial⟩
    · have hlt : depth + 1 < MAX_DEPTH := by simp at h3; exact h3.2
      exact ⟨by simp, trivial, trivial, trivial, ih _ _ (by omega) hlt⟩
    · refine ⟨?_, trivial, trivial, trivial, trivial⟩
      intro o ho hc
      rw [List.mem_singleton] at ho
      subst ho
      rcases stop_rests _ _ _ _ _ _ hd h0 h1 h2 h3 with h | ⟨c0, c1, c2, c3⟩
      · exact h
      · simp [c0, c1, c2, c3] at hc

theorem settled_insertNode (n : Node OBJ_T) (r : Rect) (obj : OBJ_T) (depth : Nat)
    (hs : n.Settled) (hl : n.Levelled depth) (hd : depth + 1 ≤ MAX_DEPTH) :
    (insertNode n r obj depth).Settled := by
  induction n generalizing r depth with
  | null => exact settled_insertNew _ _ _ _ (le_refl _) hd
  | mk area d s0 s1 s2 s3 n0 n1 n2 n3 objs ih0 ih1 ih2 ih3 =>
    obtain ⟨e, l1, m0, m1, m2, m3⟩ := hl
    subst e
    obtain ⟨g, g0, g1, g2, g3⟩ := hs
    unfold insertNode
    split_ifs with h0 h1 h2 h3
    · have hlt : d + 1 < MAX_DEPTH := by simp at h0; exact h0.2
      exact ⟨g, ih0 _ _ g0 m0 hlt, g1, g2, g3⟩
    · have hlt : d + 1 < MAX_DEPTH := by simp at h1; exact h1.2
      exact ⟨g, g0, ih1 _ _ g1 m1 hlt, g2, g3⟩
    · have hlt : d + 1 < MAX_DEPTH := by simp at h2; exact h2.2
      exact ⟨g, g0, g1, ih2 _ _ g2 m2 hlt, g3⟩
    · have hlt : d + 1 < MAX_DEPTH := by simp at h3; exact h3.2
      exact ⟨g, g0, g1, g2, ih3 _ _ g3 m3 hlt⟩
    · refine ⟨?_, g0, g1, g2, g3⟩
      intro o ho hc
      rcases List.mem_append.1 ho with ho | ho
      · exact g o ho hc
      · rw [List.mem_singleton] at ho
        subst ho
        rcases stop_rests _ _ _ _ _ _ l1 h0 h1 h2 h3 with h | ⟨c0, c1, c2, c3⟩
        · exact h
        · simp [c0, c1, c2, c3] at hc

theorem settled_build (area : Rect) (objs : List OBJ_T) : (build area objs).root.Settled := by
  induction objs using List.reverseRecOn with
  | nil => simp [build, SetArea, empty, Node.Settled]
  | append_singleton objs obj ih =>
    rw [root_build_snoc]
    exact settled_insertNode _ _ _ _ ih (levelled_build area objs) (by simp [MAX_DEPTH])

/-- Placement by `insert` on a null node. -/
theorem placement_insertNew (k : Nat) (r : Rect) (obj : OBJ_T) (depth : Nat)
    (hk : MAX_DEPTH - depth ≤ k) (hd : depth + 1 ≤ MAX_DEPTH) :
    ∃ path, Node.Descends (GetArea obj) (insertNew k r obj depth) path ∧
      Node.Rests (GetArea obj) (Node.nodeAt (insertNew k r obj depth) path) ∧
      (Node.nodeAt (insertNew k r obj depth) path).objects =
        (Node.nodeAt (Node.null : Node OBJ_T) path).objects ++ [obj] ∧
      ∀ q, q ≠ path → (Node.nodeAt (insertNew k r obj depth) q).objects =
        (Node.nodeAt (Node.null : Node OBJ_T) q).objects := by
  induction k generalizing r depth with
  | zero => omega
  | succ k ih =>
    unfold insertNew
    split_ifs with h0 h1 h2 h3
    · have hc : (Node.quad0 r).contains (GetArea obj) = true ∧ depth + 1 < MAX_DEPTH := by
        simpa using h0
      obtain ⟨p, p1, p2, p3, p4⟩ := ih (Node.quad0 r) (depth + 1) (by omega) hc.2
      refine ⟨0 :: p, ⟨⟨_, rfl, hc.1⟩, p1⟩, p2, ?_, ?_⟩
      · simpa [Node.nodeAt, Node.child] using p3
      · exact Node.objects_frame_child 0 p rfl (fun j hj => by simp [Node.child, hj])
          (fun q hq => by simpa [Node.child] using p4 q hq)
    · have hc : (Node.quad1 r).contains (GetArea obj) = true ∧ depth + 1 < MAX_DEPTH := by
        simpa using h1
      obtain ⟨p, p1, p2, p3, p4⟩ := ih (Node.quad1 r) (depth + 1) (by omega) hc.2
      refine ⟨1 :: p, ⟨⟨_, rfl, hc.1⟩, p1⟩, p2, ?_, ?_⟩
      · simpa [Node.nodeAt, Node.child] using p3
      · exact Node.objects_frame_child 1 p rfl (fun j hj => by simp [Node.child, hj])
          (fun q hq => by simpa [Node.child] using p4 q hq)
    · have hc : (Node.quad2 r).contains (GetArea obj) = true ∧ depth + 1 < MAX_DEPTH := by
        simpa using h2
      obtain ⟨p, p1, p2, p3, p4⟩ := ih (Node.quad2 r) (depth + 1) (by omega) hc.2
      refine ⟨2 :: p, ⟨⟨_, rfl, hc.1⟩, p1⟩, p2, ?_, ?_⟩
      · simpa [Node.nodeAt, Node.child] using p3
      · exact Node.objects_frame_child 2 p rfl (fun j hj => by simp [Node.child, hj])
          (fun q hq => by simpa [Node.child] using p4 q hq)
    · have hc : (Node.quad3 r).contains (GetArea obj) = true ∧ depth + 1 < MAX_DEPTH := by
        simpa using h3
      obtain ⟨p, p1, p2, p3, p4⟩ := ih (Node.quad3 r) (depth + 1) (by omega) hc.2
      refine ⟨3 :: p, ⟨⟨_, rfl, hc.1⟩, p1⟩, p2, ?_, ?_⟩
      · simpa [Node.nodeAt, Node.child] using p3
      · exact Node.objects_frame_child 3 p rfl (fun j hj => by simp [Node.child, hj])
          (fun q hq => by simpa [Node.child] using p4 q hq)
    · refine ⟨[], trivial, stop_rests _ _ _ _ _ _ hd h0 h1 h2 h3, rfl, ?_⟩
      exact Node.objects_frame_here (fun j => by simp [Node.child])

/-- Placement by `insert` on any node of a tree with consistent depths. -/
theorem placement_insertNode (n : Node OBJ_T) (r : Rect) (obj : OBJ_T) (depth : Nat)
    (hl : n.Levelled depth) (hd : depth + 1 ≤ MAX_DEPTH) :
    ∃ path, Node.Descends (GetArea obj) (insertNode n r obj depth) path ∧
      Node.Rests (GetArea obj) (Node.nodeAt (insertNode n r obj depth) path) ∧
      (Node.nodeAt (insertNode n r obj depth) path).objects =
        (Node.nodeAt n path).objects ++ [obj] ∧
      ∀ q, q ≠ path → (Node.nodeAt (insertNode n r obj depth) q).objects =
        (Node.nodeAt n q).objects := by
  induction n generalizing r depth with
  | null => exact placement_insertNew _ _ _ _ (le_refl _) hd
  | mk area d s0 s1 s2 s3 n0 n1 n2 n3 objs ih0 ih1 ih2 ih3 =>
    obtain ⟨e, l1, m0, m1, m2, m3⟩ := hl
    subst e
    unfold insertNode
    split_ifs with h0 h1 h2 h3
    · have hc : s0.contains (GetArea obj) = true ∧ d + 1 < MAX_DEPTH := by simpa using h0
      obtain ⟨p, p1, p2, p3, p4⟩ := ih0 s0 (d + 1) m0 hc.2
      refine ⟨0 :: p, ⟨⟨_, rfl, hc.1⟩, p1⟩, p2, ?_, ?_⟩
      · simpa [Node.nodeAt, Node.child] using p3
      · exact Node.objects_frame_child 0 p rfl (fun j hj => by simp [Node.child, hj])
          (fun q hq => by simpa [Node.child] using p4 q hq)
    · have hc : s1.contains (GetArea obj) = true ∧ d + 1 < MAX_DEPTH := by simpa using h1
      obtain ⟨p, p1, p2, p3, p4⟩ := ih1 s1 (d + 1) m1 hc.2
      refine ⟨1 :: p, ⟨⟨_, rfl, hc.1⟩, p1⟩, p2, ?_, ?_⟩
      · simpa [Node.nodeAt, Node.child] using p3
      · exact Node.objects_frame_child 1 p rfl (fun j hj => by simp [Node.child, hj])
          (fun q hq => by simpa [Node.child] using p4 q hq)
    · have hc : s2.contains (GetArea obj) = true ∧ d + 1 < MAX_DEPTH := by simpa using h2
      obtain ⟨p, p1, p2, p3, p4⟩ := ih2 s2 (d + 1) m2 hc.2
      refine ⟨2 :: p, ⟨⟨_, rfl, hc.1⟩, p1⟩, p2, ?_, ?_⟩
      · simpa [Node.nodeAt, Node.child] using p3
      · exact Node.objects_frame_child 2 p rfl (fun j hj => by simp [Node.child, hj])
          (fun q hq => by simpa [Node.child] using p4 q hq)
    · have hc : s3.contains (GetArea obj) = true ∧ d + 1 < MAX_DEPTH := by simpa using h3
      obtain ⟨p, p1, p2, p3, p4⟩ := ih3 s3 (d + 1) m3 hc.2
      refine ⟨3 :: p, ⟨⟨_, rfl, hc.1⟩, p1⟩, p2, ?_, ?_⟩
      · simpa [Node.nodeAt, Node.child] using p3
      · exact Node.objects_frame_child 3 p rfl (fun j hj => by simp [Node.child, hj])
          (fun q hq => by simpa [Node.child] using p4 q hq)
    · refine ⟨[], trivial, stop_rests _ _ _ _ _ _ l1 h0 h1 h2 h3, rfl, ?_⟩
      exact Node.objects_frame_here (fun j => by simp [Node.child])

/-- C24: `insert(obj)` into the tree built from any insert sequence stores the
object in exactly one node: there is a path from the root on which every step
enters a quadrant whose sub-area contains (`Rect::contains`) the object's
bounds; the node at its end exists, and either its depth plus one is
`MAX_DEPTH` or none of its four sub-areas contains the bounds; that node's
list is the old list with the object appended; the list of every other node
is the list it was. -/
theorem insert_placement (area : Rect) (objs : List OBJ_T) (obj : OBJ_T) :
    ∃ path,
      Node.Descends (GetArea obj) (insert (build area objs) obj).root path ∧
      Node.Rests (GetArea obj) (Node.nodeAt (insert (build area objs) obj).root path) ∧
      (Node.nodeAt (insert (build area objs) obj).root path).objects =
        (Node.nodeAt (build area objs).root path).objects ++ [obj] ∧
      ∀ q, q ≠ path →
        (Node.nodeAt (insert (build area objs) obj).root q).objects =
          (Node.nodeAt (build area objs).root q).objects := by
  show ∃ path,
      Node.Descends (GetArea obj)
        (insertNode (build area objs).root (build area objs).area obj 0) path ∧ _
  exact placement_insertNode _ _ _ _ (levelled_build area objs) (by simp [MAX_DEPTH])

/-- C25: in the static quadtree built by any insert sequence (and in the
dynamic quadtree built by the same inserts) the root is at level 0 and every
node at the end of a path of length `k` records depth `k`, with `k` at most
`MAX_DEPTH - 1 = 7`; the root's area is the domain, each node's sub-areas are
the four quadrants of its area and each child's area is the sub-area of its
slot; the descent of an `insert` follows a path of at most `MAX_DEPTH - 1`
steps; an object that a sub-area of its node contains is stored at depth 7;
and the point-sized circle at the origin of the domain is retained seven
levels down. -/
theorem depth_bounded (area : Rect) (objs : List OBJ_T) :
    (build area objs).root.Levelled 0 ∧
      (DynamicQuadTree.build area objs).root.Levelled 0 ∧
      (build area objs).root.AreaIs area ∧
      (build area objs).root.Shaped ∧
      (∀ path, (Node.nodeAt (build area objs).root path).Levelled path.length ∧
        ((Node.nodeAt (build area objs).root path).isSome = true →
          path.length ≤ MAX_DEPTH - 1) ∧
        ((Node.nodeAt (DynamicQuadTree.build area objs).root path).isSome = true →
          path.length ≤ MAX_DEPTH - 1)) ∧
      MAX_DEPTH - 1 = 7 ∧
      (∀ obj : OBJ_T, ∃ path, path.length ≤ MAX_DEPTH - 1 ∧
        Node.Descends (GetArea obj) (insert (build area objs) obj).root path ∧
        (Node.nodeAt (insert (build area objs) obj).root path).objects =
          (Node.nodeAt (build area objs).root path).objects ++ [obj]) ∧
      (build area objs).root.Settled ∧
      (Node.nodeAt (build Example.domain [Example.objPoint]).root [0, 0, 0, 0, 0, 0, 0]).objects
        = [Example.objPoint] := by
  have hdyn : (DynamicQuadTree.build area objs).root.Levelled 0 :=
    Node.levelled_of_corr _ _ _ _ (DynamicQuadTree.corr_build area objs) (levelled_build area objs)
  refine ⟨levelled_build area objs, hdyn, areaIs_root_build area objs, shaped_build area objs,
    ?_, rfl, ?_, settled_build area objs, by decide!⟩
  · intro path
    refine ⟨?_, ?_, ?_⟩
    · simpa using Node.levelled_nodeAt _ path 0 (levelled_build area objs)
    · intro hs
      have := Node.length_le_of_isSome _ path 0 (levelled_build area objs) hs
      omega
    · intro hs
      have := Node.length_le_of_isSome _ path 0 hdyn hs
      omega
  · intro obj
    have hl : (insert (build area objs) obj).root.Levelled 0 :=
      levelled_insertNode _ _ _ _ (levelled_build area objs) (by simp [MAX_DEPTH])
    obtain ⟨path, p1, p2, p3, _⟩ :
        ∃ path, Node.Descends (GetArea obj) (insert (build area objs) obj).root path ∧
          Node.Rests (GetArea obj) (Node.nodeAt (insert (build area objs) obj).root path) ∧
          (Node.nodeAt (insert (build area objs) obj).root path).objects =
            (Node.nodeAt (build area objs).root path).objects ++ [obj] ∧
          ∀ q, q ≠ path →
            (Node.nodeAt (insert (build area objs) obj).root q).objects =
              (Node.nodeAt (build area objs).root q).objects :=
      placement_insertNode _ _ _ _ (levelled_build area objs) (by simp [MAX_DEPTH])
    refine ⟨path, ?_, p1, p3⟩
    have hs : (Node.nodeAt (insert (build area objs) obj).root path).isSome = true := by
      revert p2
      generalize Node.nodeAt (insert (build area objs) obj).root path = m
      intro p2
      cases m with
      | null => exact p2.elim
      | mk a dep s0 s1 s2 s3 c0 c1 c2 c3 l => rfl
    have := Node.length_le_of_isSome _ path 0 hl hs
    omega

end StaticQuadTree

/-! ## Rect algebra: containment against overlap, and the four quadrants -/

namespace Rect

theorem contains_or_overlaps_spans {a b : Rect} (hb : b.Spans) :
    (a.contains b || a.overlaps b) = a.overlaps b := by
  cases hc : a.contains b with
  | false => simp
  | true => simp [overlaps_of_contains_spans hc hb]

end Rect

namespace GridTree

/-- C37 (as amended): for every rect `b` whose computed far corner `pos + size`
is strictly beyond `pos` on both axes, `a.contains(b)` implies `a.overlaps(b)`,
so that `contains || overlaps` (the cell test of `GridTree::insert`) and
`overlaps || contains` (the object test of `GridTree::search`) are `overlaps`,
and `insert` of an object with such bounds appends it to exactly the cells that
overlap the bounds; for the zero-size rect at the origin of the domain, the
domain contains it and does not overlap it. -/
theorem contains_implies_overlaps_of_spans :
    (∀ a b : Rect, b.Spans →
      (a.contains b = true → a.overlaps b = true) ∧
      (a.contains b || a.overlaps b) = a.overlaps b ∧
      (a.overlaps b || a.contains b) = a.overlaps b) ∧
    (∀ (node : GridNode Rect) (obj : Rect), (GetArea obj).Spans →
      (insertCells node obj).vCellObjects =
        List.zipWith
          (fun cell objs => if cell.overlaps (GetArea obj) then objs ++ [obj] else objs)
          node.vCellAreas node.vCellObjects) ∧
    (∃ a b : Rect, b.size = ⟨0, 0⟩ ∧ a.contains b = true ∧ a.overlaps b = false) := by
  refine ⟨?_, ?_, ?_⟩
  · intro a b hb
    refine ⟨fun h => Rect.overlaps_of_contains_spans h hb, Rect.contains_or_overlaps_spans hb, ?_⟩
    rw [Bool.or_comm]
    exact Rect.contains_or_overlaps_spans hb
  · intro node obj hb
    simp only [insertCells, Rect.contains_or_overlaps_spans hb]
  · exact ⟨Example.domain, ⟨⟨0, 0⟩, ⟨0, 0⟩⟩, rfl, by decide!, by decide!⟩

/-- C37 (counterexample): the rect `{{50, 50}, {1e-7, 1e-7}}` has positive size
in both components; `{{50, 50}, {50, 50}}` contains it and does not overlap it,
because `50 + 1e-7` rounds to `50`. -/
theorem contains_without_overlap_positive :
    Example.rectSpeck.PosSize ∧ Example.rectQuarter.contains Example.rectSpeck = true ∧
      Example.rectQuarter.overlaps Example.rectSpeck = false := by
  decide!

end GridTree

namespace Node

/-- A rect of non-negative size is contained in at most one of the four
quadrants of an area: no two of them contain it. -/
theorem quads_contain_exclusive (A b : Rect) (hb : b.NonNegSize) :
    ¬ ((quad0 A).contains b = true ∧ (quad1 A).contains b = true) ∧
    ¬ ((quad0 A).contains b = true ∧ (quad2 A).contains b = true) ∧
    ¬ ((quad0 A).contains b = true ∧ (quad3 A).contains b = true) ∧
    ¬ ((quad1 A).contains b = true ∧ (quad2 A).contains b = true) ∧
    ¬ ((quad1 A).contains b = true ∧ (quad3 A).contains b = true) ∧
    ¬ ((quad2 A).contains b = true ∧ (quad3 A).contains b = true) := by
  have b1 := F32.le_add_of_nonneg b.pos.x b.size.x hb.1
  have b2 := F32.le_add_of_nonneg b.pos.y b.size.y hb.2
  simp only [Rect.contains_eq_true, quad0, quad1, quad2, quad3, childSize, Vec2.div, Vec2.add,
    F32.add_zero_eq]
  simp only [F32.le_iff_ord, F32.lt_iff_ord] at *
  refine ⟨?_, ?_, ?_, ?_, ?_, ?_⟩ <;> rintro ⟨⟨h1, h2, h3, h4⟩, k1, k2, k3, k4⟩ <;> omega

/-- No point lies in two of the four quadrants of an area. -/
theorem quads_point_exclusive (A : Rect) (pt : Vec2) :
    ¬ ((quad0 A).containsPoint pt = true ∧ (quad1 A).containsPoint pt = true) ∧
    ¬ ((quad0 A).containsPoint pt = true ∧ (quad2 A).containsPoint pt = true) ∧
    ¬ ((quad0 A).containsPoint pt = true ∧ (quad3 A).containsPoint pt = true) ∧
    ¬ ((quad1 A).containsPoint pt = true ∧ (quad2 A).containsPoint pt = true) ∧
    ¬ ((quad1 A).containsPoint pt = true ∧ (quad3 A).containsPoint pt = true) ∧
    ¬ ((quad2 A).containsPoint pt = true ∧ (quad3 A).containsPoint pt = true) := by
  simp only [Rect.containsPoint_eq_true, quad0, quad1, quad2, quad3, childSize, Vec2.div,
    Vec2.add, F32.add_zero_eq]
  simp only [F32.le_iff_ord, F32.lt_iff_ord]
  refine ⟨?_, ?_, ?_, ?_, ?_, ?_⟩ <;> rintro ⟨⟨h1, h2, h3, h4⟩, k1, k2, k3, k4⟩ <;> omega

/-- A point of an area lies in one of its four quadrants, when the computed
far corner of the bottom-right quadrant reaches the far corner of the area. -/
theorem quads_point_cover (A : Rect) (hq : QuadsReach A) (pt : Vec2)
    (hp : A.containsPoint pt = true) :
    (quad0 A).containsPoint pt = true ∨ (quad1 A).containsPoint pt = true ∨
      (quad2 A).containsPoint pt = true ∨ (quad3 A).containsPoint pt = true := by
  rw [Rect.containsPoint_eq_true] at hp
  obtain ⟨h1, h2, h3, h4⟩ := hp
  obtain ⟨q1, q2⟩ := hq
  simp only [quad3, childSize, Vec2.div, Vec2.add] at q1 q2
  simp only [Rect.containsPoint_eq_true, quad0, quad1, quad2, quad3, childSize, Vec2.div,
    Vec2.add, F32.add_zero_eq]
  simp only [F32.le_iff_ord, F32.lt_iff_ord] at *
  omega

/-- A point lies in at most one of the four quadrants of an area, and in
exactly one when it is a point of the area and the quadrants reach the far
corner of the area. -/
theorem point_in_one_quad (A : Rect) (pt : Vec2) :
    ([quad0 A, quad1 A, quad2 A, quad3 A].filter fun q => q.containsPoint pt).length ≤ 1 ∧
      (QuadsReach A → A.containsPoint pt = true →
        ([quad0 A, quad1 A, quad2 A, quad3 A].filter fun q => q.containsPoint pt).length = 1) := by
  obtain ⟨x01, x02, x03, x12, x13, x23⟩ := quads_point_exclusive A pt
  constructor
  · cases h0 : (quad0 A).containsPoint pt <;> cases h1 : (quad1 A).containsPoint pt <;>
      cases h2 : (quad2 A).containsPoint pt <;> cases h3 : (quad3 A).containsPoint pt <;>
      simp_all [List.filter]
  · intro hq hp
    have hc := quads_point_cover A hq pt hp
    cases h0 : (quad0 A).containsPoint pt <;> cases h1 : (quad1 A).containsPoint pt <;>
      cases h2 : (quad2 A).containsPoint pt <;> cases h3 : (quad3 A).containsPoint pt <;>
      simp_all [List.filter]

/-- A rect that contains a point has positive size in both components. -/
theorem posSize_of_containsPoint {A : Rect} {pt : Vec2} (hp : A.containsPoint pt = true) :
    A.PosSize := by
  rw [Rect.containsPoint_eq_true] at hp
  obtain ⟨h1, h2, h3, h4⟩ := hp
  constructor
  · by_contra hn
    exact absurd (lt_of_le_of_lt h1 h3) (not_lt.2 (F32.add_le_of_nonpos _ _ (not_lt.1 hn)))
  · by_contra hn
    exact absurd (lt_of_le_of_lt h2 h4) (not_lt.2 (F32.add_le_of_nonpos _ _ (not_lt.1 hn)))

/-- C32 (as amended): the node that the constructor `Node(r, depth)` builds for
area `r = (p, s)` has the four sub-areas of size `s / 2` at `p`,
`p + (s.x / 2, 0)`, `p + (0, s.y / 2)` and `p + s / 2`, in this order, in
`float` arithmetic; no point is contained (half-open) in two of them; a rect
that contains a point has positive size in both components; and every point
with `r.contains(point)` is contained in exactly one of the four sub-areas when
the computed far corner `(p + s / 2) + s / 2` of the last one is at or beyond
the computed far corner `p + s` of `r` on both axes. -/
theorem quadrant_geometry (r : Rect) (depth : Nat) (pt : Vec2) :
    subArea (make r depth : Node Unit) 0
        = some ⟨⟨r.pos.x, r.pos.y⟩, ⟨r.size.x / 2, r.size.y / 2⟩⟩ ∧
      subArea (make r depth : Node Unit) 1
        = some ⟨⟨r.pos.x + r.size.x / 2, r.pos.y + 0⟩, ⟨r.size.x / 2, r.size.y / 2⟩⟩ ∧
      subArea (make r depth : Node Unit) 2
        = some ⟨⟨r.pos.x + 0, r.pos.y + r.size.y / 2⟩, ⟨r.size.x / 2, r.size.y / 2⟩⟩ ∧
      subArea (make r depth : Node Unit) 3
        = some ⟨⟨r.pos.x + r.size.x / 2, r.pos.y + r.size.y / 2⟩,
            ⟨r.size.x / 2, r.size.y / 2⟩⟩ ∧
      (r.containsPoint pt = true → r.PosSize) ∧
      (∃ s0 s1 s2 s3,
        subArea (make r depth : Node Unit) 0 = some s0 ∧
        subArea (make r depth : Node Unit) 1 = some s1 ∧
        subArea (make r depth : Node Unit) 2 = some s2 ∧
        subArea (make r depth : Node Unit) 3 = some s3 ∧
        ([s0, s1, s2, s3].filter fun q => q.containsPoint pt).length ≤ 1 ∧
        (QuadsReach r → r.containsPoint pt = true →
          ([s0, s1, s2, s3].filter fun q => q.containsPoint pt).length = 1)) :=
  ⟨rfl, rfl, rfl, rfl, posSize_of_containsPoint, _, _, _, _, rfl, rfl, rfl, rfl,
    point_in_one_quad r pt⟩

/-- C32 (counterexample): the area `{{1, 0}, {5 * 2^-23, 1}}` has positive size
and contains the point `(1 + 4 * 2^-23, 0.25)`, which lies in none of the four
quadrants: the far edge `(1 + 2.5 * 2^-23) + 2.5 * 2^-23` of the right
quadrants rounds to `1 + 4 * 2^-23`. -/
theorem point_in_no_quadrant :
    Example.areaNarrow.PosSize ∧
      Example.areaNarrow.containsPoint Example.pointNarrow = true ∧
      ([quad0 Example.areaNarrow, quad1 Example.areaNarrow, quad2 Example.areaNarrow,
        quad3 Example.areaNarrow].filter fun q => q.containsPoint Example.pointNarrow).length
          = 0 := by
  decide!

/-- C32 (as amended) at a concrete input: the point `(10, 10)` of the domain
lies in the first quadrant only. -/
theorem quadrant_geometry_witness :
    QuadsReach Example.domain ∧ Example.domain.containsPoint ⟨10, 10⟩ = true ∧
      (quad0 Example.domain).containsPoint ⟨10, 10⟩ = true ∧
      subArea (make Example.domain 0 : Node Unit) 3 = some ⟨⟨50, 50⟩, ⟨50, 50⟩⟩ ∧
      ([quad0 Example.domain, quad1 Example.domain, quad2 Example.domain,
        quad3 Example.domain].filter fun q => q.containsPoint ⟨10, 10⟩).length = 1 :=
  ⟨by decide!, by decide!, by decide!, by decide!,
    (quadrant_geometry Example.domain 0 ⟨10, 10⟩).2.2.2.2.2.elim
      fun _ h => h.elim fun _ h => h.elim fun _ h => h.elim fun _ h => by
        obtain ⟨e0, e1, e2, e3, _, hc⟩ := h
        cases e0; cases e1; cases e2; cases e3
        exact hc (by decide!) (by decide!)⟩

end Node

/-! ## Static quadtree: `search` against `items`, and the order of the quadrant loop -/

namespace Node

theorem searchChild_sublist {T : Type} (r sub : Rect) (child : Node T) (deeper : List T)
    (h : deeper.Sublist child.items) : (searchChild r sub child deeper).Sublist child.items := by
  unfold searchChild
  split_ifs
  · exact List.Sublist.refl _
  · exact h
  · exact List.nil_sublist _
  · exact List.nil_sublist _

theorem quads_contain_at_most_one (A b : Rect) (hb : b.NonNegSize) :
    ([quad0 A, quad1 A, quad2 A, quad3 A].filter fun q => q.contains b).length ≤ 1 := by
  obtain ⟨x01, x02, x03, x12, x13, x23⟩ := quads_contain_exclusive A b hb
  cases h0 : (quad0 A).contains b <;> cases h1 : (quad1 A).contains b <;>
    cases h2 : (quad2 A).contains b <;> cases h3 : (quad3 A).contains b <;>
    simp_all [List.filter]

end Node

namespace StaticQuadTree

variable {OBJ_T : Type} [SpatialObject OBJ_T]

theorem searchNode_sublist (n : Node OBJ_T) (r : Rect) : (searchNode n r).Sublist n.items := by
  induction n with
  | null => simp [searchNode, Node.items]
  | mk area d s0 s1 s2 s3 n0 n1 n2 n3 objs ih0 ih1 ih2 ih3 =>
    simp only [searchNode, Node.items]
    split_ifs
    · exact (List.filter_sublist _).append
        ((Node.searchChild_sublist _ _ _ _ ih0).append
          ((Node.searchChild_sublist _ _ _ _ ih1).append
            ((Node.searchChild_sublist _ _ _ _ ih2).append
              (Node.searchChild_sublist _ _ _ _ ih3))))
    · exact List.nil_sublist _

/-- C36: for every static quadtree with a root and every query rect `r`,
`search(r)` and `size()` return, the result of `search(r)` is a sublist of
`items()` (the stored objects, each taken at most once, in the order of
`items()`), hence a sub-multiset of it, `size()` is the length of `items()`,
and the length of the result is at most `size()`. -/
theorem search_no_duplicates (t : StaticQuadTree OBJ_T) (r : Rect)
    (h : t.root.isSome = true) :
    ∃ res n, search t r = some res ∧ size t = some n ∧
      res.Sublist t.items ∧ res.Subperm t.items ∧ n = t.items.length ∧ res.length ≤ n := by
  refine ⟨searchNode t.root r, t.root.size, by simp [search, h], by simp [size, h],
    searchNode_sublist _ _, (searchNode_sublist _ _).subperm,
    (Node.length_items_eq_size _).symm, ?_⟩
  rw [← Node.length_items_eq_size]
  exact (searchNode_sublist _ _).length_le

/-- C36 at a concrete input: of the two stored circles the query
`{{0, 0}, {50, 50}}` returns one. -/
theorem search_no_duplicates_witness :
    (build Example.domain [Example.objA, Example.objB]).root.isSome = true ∧
      (build Example.domain [Example.objA, Example.objB]).search Example.queryHalf
        = some [Example.objA] ∧
      ∃ res n, search (build Example.domain [Example.objA, Example.objB]) Example.queryHalf
          = some res ∧
        size (build Example.domain [Example.objA, Example.objB]) = some n ∧
        res.Sublist (build Example.domain [Example.objA, Example.objB]).items ∧
        res.Subperm (build Example.domain [Example.objA, Example.objB]).items ∧
        n = (build Example.domain [Example.objA, Example.objB]).items.length ∧
        res.length ≤ n :=
  ⟨by decide!, by decide!,
    search_no_duplicates (build Example.domain [Example.objA, Example.objB])
      Example.queryHalf (by decide!)⟩

theorem find_unique_of_perm (ord : List Nat) (hord : ord.Perm [0, 1, 2, 3]) (p : Nat → Bool)
    (i : Nat) (hi : i ∈ [0, 1, 2, 3]) (hp : p i = true)
    (hu : ∀ j ∈ [0, 1, 2, 3], p j = true → j = i) : ord.find? p = some i := by
  cases h : ord.find? p with
  | none =>
    have := List.find?_eq_none.1 h i (hord.mem_iff.2 hi)
    simp [hp] at this
  | some j =>
    have hj := List.find?_some h
    have hm := List.mem_of_find?_eq_some h
    rw [hu j (hord.mem_iff.1 hm) hj]

theorem find_none_of_perm (ord : List Nat) (hord : ord.Perm [0, 1, 2, 3]) (p : Nat → Bool)
    (hn : ∀ j ∈ [0, 1, 2, 3], p j = false) : ord.find? p = none := by
  rw [List.find?_eq_none]
  intro x hx
  simp [hn x (hord.mem_iff.1 hx)]

/-- For bounds of non-negative size a loop over any order of the four
quadrants finds the quadrant the loop over 0, 1, 2, 3 finds. -/
theorem firstFit_quads (ord : List Nat) (hord : ord.Perm [0, 1, 2, 3]) (A b : Rect)
    (hb : b.NonNegSize) (d : Nat) :
    firstFit ord (Node.quad0 A) (Node.quad1 A) (Node.quad2 A) (Node.quad3 A) b d =
      if (Node.quad0 A).contains b && decide (d + 1 < MAX_DEPTH) then some 0
      else if (Node.quad1 A).contains b && decide (d + 1 < MAX_DEPTH) then some 1
      else if (Node.quad2 A).contains b && decide (d + 1 < MAX_DEPTH) then some 2
      else if (Node.quad3 A).contains b && decide (d + 1 < MAX_DEPTH) then some 3
      else none := by
  obtain ⟨x01, x02, x03, x12, x13, x23⟩ := Node.quads_contain_exclusive A b hb
  unfold firstFit
  split_ifs with h0 h1 h2 h3
  · simp only [Bool.and_eq_true, decide_eq_true_eq] at h0
    refine find_unique_of_perm ord hord _ 0 (by simp) (by simp [h0]) ?_
    intro j hj pj
    simp only [List.mem_cons, List.mem_singleton, List.not_mem_nil, or_false] at hj
    rcases hj with rfl | rfl | rfl | rfl
    · rfl
    · simp at pj; exact absurd ⟨h0.1, pj.1⟩ x01
    · simp at pj; exact absurd ⟨h0.1, pj.1⟩ x02
    · simp at pj; exact absurd ⟨h0.1, pj.1⟩ x03
  · simp only [Bool.and_eq_true, decide_eq_true_eq] at h1
    refine find_unique_of_perm ord hord _ 1 (by simp) (by simp [h1]) ?_
    intro j hj pj
    simp only [List.mem_cons, List.mem_singleton, List.not_mem_nil, or_false] at hj
    rcases hj with rfl | rfl | rfl | rfl
    · simp at pj; exact absurd ⟨pj.1, h1.1⟩ x01
    · rfl
    · simp at pj; exact absurd ⟨h1.1, pj.1⟩ x12
    · simp at pj; exact absurd ⟨h1.1, pj.1⟩ x13
  · simp only [Bool.and_eq_true, decide_eq_true_eq] at h2
    refine find_unique_of_perm ord hord _ 2 (by simp) (by simp [h2]) ?_
    intro j hj pj
    simp only [List.mem_cons, List.mem_singleton, List.not_mem_nil, or_false] at hj
    rcases hj with rfl | rfl | rfl | rfl
    · simp at pj; exact absurd ⟨pj.1, h2.1⟩ x02
    · simp at pj; exact absurd ⟨pj.1, h2.1⟩ x12
    · rfl
    · simp at pj; exact absurd ⟨h2.1, pj.1⟩ x23
  · simp only [Bool.and_eq_true, decide_eq_true_eq] at h3
    refine find_unique_of_perm ord hord _ 3 (by simp) (by simp [h3]) ?_
    intro j hj pj
    simp only [List.mem_cons, List.mem_singleton, List.not_mem_nil, or_false] at hj
    rcases hj with rfl | rfl | rfl | rfl
    · simp at pj; exact absurd ⟨pj.1, h3.1⟩ x03
    · simp at pj; exact absurd ⟨pj.1, h3.1⟩ x13
    · simp at pj; exact absurd ⟨pj.1, h3.1⟩ x23
    · rfl
  · refine find_none_of_perm ord hord _ ?_
    intro j hj
    simp only [List.mem_cons, List.mem_singleton, List.not_mem_nil, or_false] at hj
    rcases hj with rfl | rfl | rfl | rfl
    · simpa using h0
    · simpa using h1
    · simpa using h2
    · simpa using h3

theorem insertNewOrd_eq (ord : List Nat) (hord : ord.Perm [0, 1, 2, 3]) (k : Nat) (r : Rect)
    (obj : OBJ_T) (depth : Nat) (hb : (GetArea obj).NonNegSize) :
    insertNewOrd ord k r obj depth = insertNew k r obj depth := by
  induction k generalizing r depth with
  | zero => rfl
  | succ k ih =>
    simp only [insertNewOrd, insertNew, firstFit_quads ord hord r (GetArea obj) hb depth]
    by_cases h0 : ((Node.quad0 r).contains (GetArea obj) && decide (depth + 1 < MAX_DEPTH)) = true
    · simp [h0, ih]
    · by_cases h1 :
          ((Node.quad1 r).contains (GetArea obj) && decide (depth + 1 < MAX_DEPTH)) = true
      · simp [h0, h1, ih]
      · by_cases h2 :
            ((Node.quad2 r).contains (GetArea obj) && decide (depth + 1 < MAX_DEPTH)) = true
        · simp [h0, h1, h2, ih]
        · by_cases h3 :
              ((Node.quad3 r).contains (GetArea obj) && decide (depth + 1 < MAX_DEPTH)) = true
          · simp [h0, h1, h2, h3, ih]
          · simp [h0, h1, h2, h3]

theorem insertNodeOrd_eq (ord : List Nat) (hord : ord.Perm [0, 1, 2, 3]) (n : Node OBJ_T)
    (r : Rect) (obj : OBJ_T) (depth : Nat) (hn : n.Shaped) (hb : (GetArea obj).NonNegSize) :
    insertNodeOrd ord n r obj depth = insertNode n r obj depth := by
  induction n generalizing r depth with
  | null => exact insertNewOrd_eq ord hord _ _ _ _ hb
  | mk area d s0 s1 s2 s3 n0 n1 n2 n3 objs ih0 ih1 ih2 ih3 =>
    obtain ⟨⟨rfl, rfl, rfl, rfl⟩, ⟨_, _, b0⟩, ⟨_, _, b1⟩, ⟨_, _, b2⟩, _, _, b3⟩ := hn
    simp only [insertNodeOrd, insertNode, firstFit_quads ord hord area (GetArea obj) hb d]
    by_cases h0 : ((Node.quad0 area).contains (GetArea obj) && decide (d + 1 < MAX_DEPTH)) = true
    · simp [h0, ih0 _ _ b0]
    · by_cases h1 :
          ((Node.quad1 area).contains (GetArea obj) && decide (d + 1 < MAX_DEPTH)) = true
      · simp [h0, h1, ih1 _ _ b1]
      · by_cases h2 :
            ((Node.quad2 area).contains (GetArea obj) && decide (d + 1 < MAX_DEPTH)) = true
        · simp [h0, h1, h2, ih2 _ _ b2]
        · by_cases h3 :
              ((Node.quad3 area).contains (GetArea obj) && decide (d + 1 < MAX_DEPTH)) = true
          · simp [h0, h1, h2, h3, ih3 _ _ b3]
          · simp [h0, h1, h2, h3]

/-- C34: a rect of non-negative size is contained (`Rect::contains`) in at
most one of the four quadrants of any area; hence, for an object whose bounds
have non-negative size and the tree built by any insert sequence, `insert` with
its quadrant loop run in any order `ord` of the indices 0, 1, 2, 3 gives the
same tree as `insert` with the loop of the source. -/
theorem quadrant_choice_unambiguous (area : Rect) (objs : List OBJ_T) (obj : OBJ_T)
    (ord : List Nat) (hord : ord.Perm [0, 1, 2, 3]) (hb : (GetArea obj).NonNegSize) :
    (∀ A : Rect,
      ([Node.quad0 A, Node.quad1 A, Node.quad2 A, Node.quad3 A].filter
        fun q => q.contains (GetArea obj)).length ≤ 1) ∧
      insertOrd ord (build area objs) obj = insert (build area objs) obj := by
  refine ⟨fun A => Node.quads_contain_at_most_one A _ hb, ?_⟩
  simp only [insertOrd, insert]
  rw [insertNodeOrd_eq ord hord _ _ _ _ (shaped_build area objs) hb]

/-- C34 at a concrete input: circle B inserted after circle A with the
quadrants tested in the order 3, 2, 1, 0. -/
theorem quadrant_choice_unambiguous_witness :
    ([3, 2, 1, 0] : List Nat).Perm [0, 1, 2, 3] ∧ (GetArea Example.objB).NonNegSize ∧
      (∀ A : Rect,
        ([Node.quad0 A, Node.quad1 A, Node.quad2 A, Node.quad3 A].filter
          fun q => q.contains (GetArea Example.objB)).length ≤ 1) ∧
      insertOrd [3, 2, 1, 0] (build Example.domain [Example.objA]) Example.objB =
        insert (build Example.domain [Example.objA]) Example.objB :=
  ⟨by decide, by decide!,
    quadrant_choice_unambiguous Example.domain [Example.objA] Example.objB [3, 2, 1, 0]
      (by decide) (by decide!)⟩

end StaticQuadTree

/-! ## Region quadtree: objects below a node lie in the node's area -/

namespace Node

theorem areaIs_unique {T : Type} (n : Node T) (a b : Rect) (ha : n.AreaIs a) (hb : n.AreaIs b)
    (hne : n.items ≠ []) : a = b := by
  cases n with
  | null => exact absurd rfl hne
  | mk area d s0 s1 s2 s3 c0 c1 c2 c3 objs =>
    have h1 : area = a := ha
    have h2 : area = b := hb
    rw [← h1, ← h2]

theorem contained_child {T : Type} [SpatialObject T] (n : Node T) (hs : n.SubIn)
    (hsh : n.Shaped) (i : Nat) :
    (child n i).SubIn ∧ (child n i).Shaped ∧
      ∀ a, (child n i).AreaIs a → ∀ o ∈ (child n i).items, a.contains (GetArea o) = true := by
  cases n with
  | null => exact ⟨trivial, trivial, fun _ _ o ho => by simp [child, items] at ho⟩
  | mk area d s0 s1 s2 s3 c0 c1 c2 c3 objs =>
    obtain ⟨⟨m0, u0⟩, ⟨m1, u1⟩, ⟨m2, u2⟩, m3, u3⟩ := hs
    obtain ⟨_, ⟨a0, _, b0⟩, ⟨a1, _, b1⟩, ⟨a2, _, b2⟩, a3, _, b3⟩ := hsh
    simp only [child]
    split_ifs
    · refine ⟨u0, b0, fun a ha o ho => ?_⟩
      rw [areaIs_unique c0 a s0 ha a0 (List.ne_nil_of_mem ho)]
      exact m0 o ho
    · refine ⟨u1, b1, fun a ha o ho => ?_⟩
      rw [areaIs_unique c1 a s1 ha a1 (List.ne_nil_of_mem ho)]
      exact m1 o ho
    · refine ⟨u2, b2, fun a ha o ho => ?_⟩
      rw [areaIs_unique c2 a s2 ha a2 (List.ne_nil_of_mem ho)]
      exact m2 o ho
    · refine ⟨u3, b3, fun a ha o ho => ?_⟩
      rw [areaIs_unique c3 a s3 ha a3 (List.ne_nil_of_mem ho)]
      exact m3 o ho
    · exact ⟨trivial, trivial, fun _ _ o ho => by simp [items] at ho⟩

/-- Below every node other than the one the path starts from, the objects are
contained in the node's area. -/
theorem contained_nodeAt {T : Type} [SpatialObject T] (n : Node T) (hs : n.SubIn)
    (hsh : n.Shaped) (i : Nat) (q : List Nat) (a : Rect)
    (ha : (nodeAt n (i :: q)).AreaIs a) (o : T) (ho : o ∈ (nodeAt n (i :: q)).items) :
    a.contains (GetArea o) = true := by
  induction q generalizing n i with
  | nil => exact (contained_child n hs hsh i).2.2 a ha o ho
  | cons j q ih =>
    obtain ⟨k1, k2, _⟩ := contained_child n hs hsh i
    exact ih (child n i) k1 k2 j ha ho

theorem corr_child {T : Type} (f : Nat → Option T) (a : Node Nat) (b : Node T)
    (h : Corr f a b) (i : Nat) : Corr f (child a i) (child b i) := by
  cases a with
  | null =>
    cases b with
    | null => trivial
    | mk => exact h.elim
  | mk ar d s0 s1 s2 s3 c0 c1 c2 c3 objs =>
    cases b with
    | null => exact h.elim
    | mk ar1 d1 t0 t1 t2 t3 e0 e1 e2 e3 objs1 =>
      obtain ⟨_, _, _, _, _, _, _, k0, k1, k2, k3⟩ := h
      simp only [child]
      split_ifs
      · exact k0
      · exact k1
      · exact k2
      · exact k3
      · trivial

theorem corr_nodeAt {T : Type} (f : Nat → Option T) (a : Node Nat) (b : Node T)
    (h : Corr f a b) (q : List Nat) : Corr f (nodeAt a q) (nodeAt b q) := by
  induction q generalizing a b with
  | nil => exact h
  | cons i q ih => exact ih _ _ (corr_child f a b h i)

theorem corr_areaIs {T : Type} (f : Nat → Option T) (a : Node Nat) (b : Node T)
    (h : Corr f a b) (s : Rect) (ha : a.AreaIs s) : b.AreaIs s := by
  cases a with
  | null =>
    cases b with
    | null => trivial
    | mk => exact h.elim
  | mk ar d s0 s1 s2 s3 c0 c1 c2 c3 objs =>
    cases b with
    | null => exact h.elim
    | mk ar1 d1 t0 t1 t2 t3 e0 e1 e2 e3 objs1 =>
      have e : ar = ar1 := h.1
      have e1 : ar = s := ha
      show ar1 = s
      rw [← e, e1]

theorem corr_mem_items {T : Type} (f : Nat → Option T) (a : Node Nat) (b : Node T)
    (h : Corr f a b) (x : Nat) (hx : x ∈ a.items) : ∃ o ∈ b.items, f x = some o := by
  have hm : f x ∈ a.items.map f := List.mem_map_of_mem f hx
  rw [corr_items f a b h, List.mem_map] at hm
  obtain ⟨o, ho, e⟩ := hm
  exact ⟨o, ho, e.symm⟩

end Node

namespace StaticQuadTree

variable {OBJ_T : Type} [SpatialObject OBJ_T]

/-- C33: in the static quadtree built by any insert sequence, and in the
dynamic quadtree built by the same inserts, every object stored at or below a
node other than the root (a node at the end of a non-empty path) has its bounds
contained (`Rect::contains`) in that node's area; the first circle of the
example is stored below the first quadrant, and the circle that sticks out of
the domain is stored at the root, whose area does not contain it. -/
theorem subtree_containment (area : Rect) (objs : List OBJ_T) :
    (∀ q a, q ≠ [] → (Node.nodeAt (build area objs).root q).AreaIs a →
      ∀ o ∈ (Node.nodeAt (build area objs).root q).items, a.contains (GetArea o) = true) ∧
    (∀ q a, q ≠ [] → (Node.nodeAt (DynamicQuadTree.build area objs).root q).AreaIs a →
      ∀ h ∈ (Node.nodeAt (DynamicQuadTree.build area objs).root q).items,
        ∃ o, DynamicQuadTree.objOf (DynamicQuadTree.build area objs).vObjects h = some o ∧
          a.contains (GetArea o) = true) ∧
    Example.objA ∈ (Node.nodeAt (build Example.domain [Example.objA]).root [0]).items ∧
    (build Example.domain [Example.objNearCorner]).root.objects = [Example.objNearCorner] ∧
    (build Example.domain [Example.objNearCorner]).root.AreaIs Example.domain ∧
    Example.domain.contains (GetArea Example.objNearCorner) = false := by
  refine ⟨?_, ?_, by decide!, by decide!, areaIs_root_build _ _, by decide!⟩
  · intro q a hq ha o ho
    cases q with
    | nil => exact absurd rfl hq
    | cons i q =>
      exact Node.contained_nodeAt _ (subIn_build area objs) (shaped_build area objs) i q a ha o ho
  · intro q a hq ha h hh
    cases q with
    | nil => exact absurd rfl hq
    | cons i q =>
      have hc := Node.corr_nodeAt _ _ _ (DynamicQuadTree.corr_build area objs) (i :: q)
      obtain ⟨o, ho, e⟩ := Node.corr_mem_items _ _ _ hc h hh
      exact ⟨o, e, Node.contained_nodeAt _ (subIn_build area objs) (shaped_build area objs)
        i q a (Node.corr_areaIs _ _ _ hc a ha) o ho⟩

/-! ## `SetArea` once the root exists -/

theorem foldl_insert_root_congr (more : List OBJ_T) (t1 t2 : StaticQuadTree OBJ_T)
    (h : t1.root = t2.root) (hs : t1.root.isSome = true) :
    (more.foldl insert t1).root = (more.foldl insert t2).root := by
  induction more generalizing t1 t2 with
  | nil => exact h
  | cons o more ih =>
    simp only [List.foldl_cons]
    apply ih
    · simp only [insert, ← h]
      cases hr : t1.root with
      | null => rw [hr] at hs; simp [Node.isSome] at hs
      | mk area d s0 s1 s2 s3 n0 n1 n2 n3 objs => simp only [insertNode]
    · exact isSome_insertNode _ _ _ _

theorem kd_foldl_insert_root_congr (more : List OBJ_T) (t1 t2 : KDTree OBJ_T)
    (h : t1.root = t2.root) (hs : t1.root.isSome = true) :
    (more.foldl KDTree.insert t1).root = (more.foldl KDTree.insert t2).root := by
  induction more generalizing t1 t2 with
  | nil => exact h
  | cons o more ih =>
    simp only [List.foldl_cons]
    apply ih
    · simp only [KDTree.insert, ← h]
      cases hr : t1.root with
      | null => rw [hr] at hs; simp [KDNode.isSome] at hs
      | mk area ob l r v0 v1 d => simp only [KDTree.insertNode]
    · exact KDTree.kd_isSome_insertNode _ _ _ _

theorem grid_foldl_insert_root_congr (more : List OBJ_T) (t1 t2 : GridTree OBJ_T)
    (h : t1.root = t2.root) (hs : t1.root.isSome = true) :
    (more.foldl GridTree.insert t1).root = (more.foldl GridTree.insert t2).root := by
  induction more generalizing t1 t2 with
  | nil => exact h
  | cons o more ih =>
    simp only [List.foldl_cons]
    cases hr : t1.root with
    | none => rw [hr] at hs; simp at hs
    | some node =>
      have hr2 : t2.root = some node := h ▸ hr
      apply ih
      · simp only [GridTree.insert, hr, hr2]
      · simp only [GridTree.insert, hr, Option.isSome_some]

/-- C39: once the root exists (after the first insert), `SetArea` with any rect
(and, for the grid, any cell counts) leaves the root as it is, and after any
further inserts the static quadtree, the k-d tree and the grid have the same
root, and `search` and `size` return the same results, as without the call. -/
theorem setArea_after_insert_ignored (t : StaticQuadTree OBJ_T) (k : KDTree OBJ_T)
    (g : GridTree OBJ_T) (r1 : Rect) (cc : Nat × Nat) (more : List OBJ_T) (q : Rect)
    (ht : t.root.isSome = true) (hk : k.root.isSome = true) (hg : g.root.isSome = true) :
    ((SetArea t r1).root = t.root ∧
      (more.foldl insert (SetArea t r1)).root = (more.foldl insert t).root ∧
      search (more.foldl insert (SetArea t r1)) q = search (more.foldl insert t) q ∧
      size (more.foldl insert (SetArea t r1)) = size (more.foldl insert t)) ∧
    ((KDTree.SetArea k r1).root = k.root ∧
      (more.foldl KDTree.insert (KDTree.SetArea k r1)).root
        = (more.foldl KDTree.insert k).root ∧
      KDTree.search (more.foldl KDTree.insert (KDTree.SetArea k r1)) q
        = KDTree.search (more.foldl KDTree.insert k) q ∧
      KDTree.size (more.foldl KDTree.insert (KDTree.SetArea k r1))
        = KDTree.size (more.foldl KDTree.insert k)) ∧
    ((GridTree.SetArea g r1 cc).root = g.root ∧
      (more.foldl GridTree.insert (GridTree.SetArea g r1 cc)).root
        = (more.foldl GridTree.insert g).root ∧
      GridTree.search (more.foldl GridTree.insert (GridTree.SetArea g r1 cc)) q
        = GridTree.search (more.foldl GridTree.insert g) q ∧
      GridTree.size (more.foldl GridTree.insert (GridTree.SetArea g r1 cc))
        = GridTree.size (more.foldl GridTree.insert g)) := by
  have e1 := foldl_insert_root_congr more (SetArea t r1) t rfl ht
  have e2 := kd_foldl_insert_root_congr more (KDTree.SetArea k r1) k rfl hk
  have e3 := grid_foldl_insert_root_congr more (GridTree.SetArea g r1 cc) g rfl hg
  refine ⟨⟨rfl, e1, ?_, ?_⟩, ⟨rfl, e2, ?_, ?_⟩, rfl, e3, ?_, ?_⟩
  · simp only [search, e1]
  · simp only [size, e1]
  · simp only [KDTree.search, e2]
  · simp only [KDTree.size, e2]
  · simp only [GridTree.search, e3]
  · simp only [GridTree.size, e3]

/-- C39 at a concrete input: each index holds circle A; the area is then set to
`{{-50, -50}, {30, 30}}` (the grid's cell counts to 3 x 3) and circle B is
inserted; the query over the whole domain returns both circles. -/
theorem setArea_after_insert_ignored_witness :
    (build Example.domain [Example.objA]).root.isSome = true ∧
    (KDTree.build Example.domain [Example.objA]).root.isSome = true ∧
    (GridTree.build Example.domain (2, 2) [Example.objA]).root.isSome = true ∧
    search (insert (SetArea (build Example.domain [Example.objA]) Example.areaElsewhere)
      Example.objB) Example.queryAll = some [Example.objA, Example.objB] ∧
    (SetArea (build Example.domain [Example.objA]) Example.areaElsewhere).root
      = (build Example.domain [Example.objA]).root ∧
    ([Example.objB].foldl insert
        (SetArea (build Example.domain [Example.objA]) Example.areaElsewhere)).root
      = ([Example.objB].foldl insert (build Example.domain [Example.objA])).root :=
  ⟨by decide!, by decide!, by decide!, by decide!,
    (setArea_after_insert_ignored (build Example.domain [Example.objA])
      (KDTree.build Example.domain [Example.objA])
      (GridTree.build Example.domain (2, 2) [Example.objA])
      Example.areaElsewhere (3, 3) [Example.objB] Example.queryAll
      (by decide!) (by decide!) (by decide!)).1.1,
    (setArea_after_insert_ignored (build Example.domain [Example.objA])
      (KDTree.build Example.domain [Example.objA])
      (GridTree.build Example.domain (2, 2) [Example.objA])
      Example.areaElsewhere (3, 3) [Example.objB] Example.queryAll
      (by decide!) (by decide!) (by decide!)).1.2.1⟩

end StaticQuadTree

/-! ## K-d tree: the half rects and closed containment -/

namespace KDTree

variable {OBJ_T : Type} [SpatialObject OBJ_T]

theorem kd_split_make (ob : OBJ_T) (A : Rect) (dep : Nat) : (KDNode.make ob A dep).Split A dep := by
  unfold KDNode.make
  by_cases hd : dep % 2 = 0
  · simp [hd, KDNode.Split]
  · simp [hd, KDNode.Split]

theorem kd_split_insertNode (n : KDNode OBJ_T) (A : Rect) (ob : OBJ_T) (dep : Nat)
    (hn : n.Split A dep) : (insertNode n A ob dep).Split A dep := by
  induction n generalizing A dep with
  | null => exact kd_split_make ob A dep
  | mk area object left right v0 v1 d ihl ihr =>
    obtain ⟨ha, hd, hv0, hv1, hl, hr⟩ := hn
    unfold insertNode
    split_ifs with hlt
    · exact ⟨ha, hd, hv0, hv1, ihl v0 (dep + 1) hl, hr⟩
    · exact ⟨ha, hd, hv0, hv1, hl, ihr v1 (dep + 1) hr⟩

theorem kd_split_build (area : Rect) (objs : List OBJ_T) :
    (build area objs).root.Split area 0 := by
  induction objs using List.reverseRecOn with
  | nil => simp [build, SetArea, empty, KDNode.Split]
  | append_singleton objs ob ih =>
    rw [kd_root_build_snoc]
    exact kd_split_insertNode _ _ _ _ ih

/-- When the width `p - a` of the first half is computed exactly, the first
half ends where the second half begins. -/
theorem add_sub_exact {a p : F32} (h : F32.ExactSub p a) : a + (p - a) = p := by
  have h1 : (p - a).val = p.val - a.val := h
  have e : a.val + (p - a).val = p.val := by rw [h1]; ring
  rw [F32.add_val, e, F32.ofRat_val]

/-- When the far edge `a + s` and both widths are computed exactly, the widths
of the two halves add up to `s`. -/
theorem widths_sum_exact {a s p : F32} (h1 : F32.ExactSub p a) (h2 : F32.ExactAdd a s)
    (h3 : F32.ExactSub (a + s) p) : (p - a) + (a + s - p) = s := by
  have e1 : (p - a).val = p.val - a.val := h1
  have e2 : (a + s).val = a.val + s.val := h2
  have e3 : (a + s - p).val = (a + s).val - p.val := h3
  have e : (p - a).val + (a + s - p).val = s.val := by rw [e1, e3, e2]; ring
  rw [F32.add_val, e, F32.ofRat_val]

/-- C31 (as amended): in the k-d tree built by any insert sequence, every node
below a slot that hands down area `A` at depth `d` records `A` and `d`, has as
`_vRects[0]` and `_vRects[1]` the rects `A.leftRect(p)` and `A.rightRect(p)`
for even `d` and `A.lowerRect(p)` and `A.upperRect(p)` for odd `d`, with `p`
the position of its object, and each child sits below the half rect of its side
at depth `d + 1`; the four rects are the ones the claim spells out, in `float`
arithmetic; the second half begins at the split coordinate; the first half ends
at the split coordinate when its width is computed without rounding error, and
the widths of the two halves add up to the extent of `A` when the far edge of
`A` and both widths are computed without rounding error. -/
theorem kd_half_rects (area : Rect) (objs : List OBJ_T) :
    (build area objs).root.Split area 0 ∧
    (∀ (A : Rect) (p : Vec2),
      A.leftRect p = ⟨A.pos, ⟨p.x - A.pos.x, A.size.y⟩⟩ ∧
      A.rightRect p = ⟨⟨p.x, A.pos.y⟩, ⟨A.pos.x + A.size.x - p.x, A.size.y⟩⟩ ∧
      A.lowerRect p = ⟨A.pos, ⟨A.size.x, p.y - A.pos.y⟩⟩ ∧
      A.upperRect p = ⟨⟨A.pos.x, p.y⟩, ⟨A.size.x, A.pos.y + A.size.y - p.y⟩⟩ ∧
      (A.rightRect p).pos.x = p.x ∧ (A.upperRect p).pos.y = p.y ∧
      (F32.ExactSub p.x A.pos.x →
        (A.leftRect p).pos.x + (A.leftRect p).size.x = (A.rightRect p).pos.x) ∧
      (F32.ExactSub p.x A.pos.x → F32.ExactAdd A.pos.x A.size.x →
        F32.ExactSub (A.pos.x + A.size.x) p.x →
        (A.leftRect p).size.x + (A.rightRect p).size.x = A.size.x) ∧
      (F32.ExactSub p.y A.pos.y →
        (A.lowerRect p).pos.y + (A.lowerRect p).size.y = (A.upperRect p).pos.y) ∧
      (F32.ExactSub p.y A.pos.y → F32.ExactAdd A.pos.y A.size.y →
        F32.ExactSub (A.pos.y + A.size.y) p.y →
        (A.lowerRect p).size.y + (A.upperRect p).size.y = A.size.y)) ∧
    (∀ (ob : OBJ_T) (A : Rect) (d : Nat),
      insertNode KDNode.null A ob d =
        KDNode.mk A ob KDNode.null KDNode.null
          (if d % 2 = 0 then A.leftRect (SpatialObject.pos ob)
           else A.lowerRect (SpatialObject.pos ob))
          (if d % 2 = 0 then A.rightRect (SpatialObject.pos ob)
           else A.upperRect (SpatialObject.pos ob)) d) := by
  refine ⟨kd_split_build area objs, ?_, ?_⟩
  · intro A p
    refine ⟨rfl, rfl, rfl, rfl, rfl, rfl, ?_, ?_, ?_, ?_⟩
    · intro h; exact add_sub_exact h
    · intro h1 h2 h3; exact widths_sum_exact h1 h2 h3
    · intro h; exact add_sub_exact h
    · intro h1 h2 h3; exact widths_sum_exact h1 h2 h3
  · intro ob A d
    simp only [insertNode, KDNode.make]
    split_ifs <;> rfl

theorem closed_first_half {A : Rect} {p q : Vec2} {dep : Nat}
    (hq : A.ClosedHas q) (hlt : q.get (dep % 2) < p.get (dep % 2))
    (hreach : p.get (dep % 2) ≤
      (if dep % 2 = 0 then A.leftRect p else A.lowerRect p).pos.get (dep % 2) +
        (if dep % 2 = 0 then A.leftRect p else A.lowerRect p).size.get (dep % 2)) :
    (if dep % 2 = 0 then A.leftRect p else A.lowerRect p).ClosedHas q := by
  obtain ⟨h1, h2, h3, h4⟩ := hq
  by_cases h : dep % 2 = 0
  · simp only [h, Vec2.get, if_true, Rect.leftRect] at hlt hreach ⊢
    simp only [Rect.ClosedHas]
    simp only [F32.le_iff_ord, F32.lt_iff_ord] at *
    refine ⟨?_, ?_, ?_, ?_⟩ <;> omega
  · simp only [h, Vec2.get, if_false, Rect.lowerRect] at hlt hreach ⊢
    simp only [Rect.ClosedHas]
    simp only [F32.le_iff_ord, F32.lt_iff_ord] at *
    refine ⟨?_, ?_, ?_, ?_⟩ <;> omega

theorem closed_second_half {A : Rect} {p q : Vec2} {dep : Nat}
    (hq : A.ClosedHas q) (hge : ¬ q.get (dep % 2) < p.get (dep % 2))
    (hreach : A.pos.get (dep % 2) + A.size.get (dep % 2) ≤
      (if dep % 2 = 0 then A.rightRect p else A.upperRect p).pos.get (dep % 2) +
        (if dep % 2 = 0 then A.rightRect p else A.upperRect p).size.get (dep % 2)) :
    (if dep % 2 = 0 then A.rightRect p else A.upperRect p).ClosedHas q := by
  obtain ⟨h1, h2, h3, h4⟩ := hq
  by_cases h : dep % 2 = 0
  · simp only [h, Vec2.get, if_true, Rect.rightRect, not_lt] at hge hreach ⊢
    simp only [Rect.ClosedHas]
    simp only [F32.le_iff_ord, F32.lt_iff_ord] at *
    refine ⟨?_, ?_, ?_, ?_⟩ <;> omega
  · simp only [h, Vec2.get, if_false, Rect.upperRect, not_lt] at hge hreach ⊢
    simp only [Rect.ClosedHas]
    simp only [F32.le_iff_ord, F32.lt_iff_ord] at *
    refine ⟨?_, ?_, ?_, ?_⟩ <;> omega

theorem nonneg_halves {A : Rect} {p : Vec2} (dep : Nat) (hA : A.NonNegSize)
    (hp : A.ClosedHas p) :
    (if dep % 2 = 0 then A.leftRect p else A.lowerRect p).NonNegSize ∧
      (if dep % 2 = 0 then A.rightRect p else A.upperRect p).NonNegSize := by
  obtain ⟨h1, h2, h3, h4⟩ := hp
  obtain ⟨a1, a2⟩ := hA
  by_cases h : dep % 2 = 0
  · simp only [h, if_true, Rect.NonNegSize, Rect.leftRect, Rect.rightRect]
    exact ⟨⟨F32.sub_nonneg_of_le h1, a2⟩, F32.sub_nonneg_of_le h2, a2⟩
  · simp only [h, if_false, Rect.NonNegSize, Rect.lowerRect, Rect.upperRect]
    exact ⟨⟨a1, F32.sub_nonneg_of_le h3⟩, a1, F32.sub_nonneg_of_le h4⟩

theorem kd_closedInv_make (ob : OBJ_T) (A : Rect) (dep : Nat) (hA : A.NonNegSize)
    (hp : A.ClosedHas (SpatialObject.pos ob)) : (KDNode.make ob A dep).ClosedInv A := by
  have hn := nonneg_halves dep hA hp
  unfold KDNode.make
  by_cases hd : dep % 2 = 0
  · simp only [hd, if_true] at hn ⊢
    exact ⟨rfl, hp, hn.1, hn.2, by simp [KDNode.items], by simp [KDNode.items], trivial, trivial⟩
  · simp only [hd, if_false] at hn ⊢
    exact ⟨rfl, hp, hn.1, hn.2, by simp [KDNode.items], by simp [KDNode.items], trivial, trivial⟩

theorem kd_closedInv_insertNode (n : KDNode OBJ_T) (A : Rect) (ob : OBJ_T) (dep : Nat)
    (hs : n.Split A dep) (hc : n.ClosedInv A) (hA : A.NonNegSize)
    (hp : A.ClosedHas (SpatialObject.pos ob))
    (hr : (insertNode n A ob dep).halvesReach = true) :
    (insertNode n A ob dep).ClosedInv A := by
  induction n generalizing A dep with
  | null => exact kd_closedInv_make ob A dep hA hp
  | mk area object left right v0 v1 d ihl ihr =>
    obtain ⟨hA', hd, hv0, hv1, sl, sr⟩ := hs
    obtain ⟨ha, hpo, n0, n1, m0, m1, cl, cr⟩ := hc
    subst hd
    subst hA'
    unfold insertNode at hr ⊢
    split_ifs at hr ⊢ with hlt
    · simp only [KDNode.halvesReach, Bool.and_eq_true, decide_eq_true_eq] at hr
      obtain ⟨⟨⟨r0, _⟩, rl⟩, _⟩ := hr
      have hin : v0.ClosedHas (SpatialObject.pos ob) := by
        rw [hv0] at r0 ⊢
        exact closed_first_half hp hlt r0
      refine ⟨ha, hpo, n0, n1, ?_, m1, ihl v0 (d + 1) sl cl n0 hin rl, cr⟩
      intro o ho
      rcases (kd_mem_items_insertNode _ _ _ _ o).1 ho with ho | rfl
      · exact m0 o ho
      · exact hin
    · simp only [KDNode.halvesReach, Bool.and_eq_true, decide_eq_true_eq] at hr
      obtain ⟨⟨⟨_, r1⟩, _⟩, rr⟩ := hr
      have hin : v1.ClosedHas (SpatialObject.pos ob) := by
        rw [hv1] at r1 ⊢
        exact closed_second_half hp hlt r1
      refine ⟨ha, hpo, n0, n1, m0, ?_, cl, ihr v1 (d + 1) sr cr n1 hin rr⟩
      intro o ho
      rcases (kd_mem_items_insertNode _ _ _ _ o).1 ho with ho | rfl
      · exact m1 o ho
      · exact hin

/-- What `ClosedInv` says of the left subtree of a node. -/
theorem closedInv_left (n : KDNode OBJ_T) (A : Rect) (h : n.ClosedInv A) (v : Rect)
    (hv : n.vRects0 = some v) (o : OBJ_T) (ho : o ∈ n.left.items) :
    v.ClosedHas (SpatialObject.pos o) := by
  cases n with
  | null => simp [KDNode.vRects0] at hv
  | mk area object left right v0 v1 d =>
    obtain ⟨_, _, _, _, m0, _, _, _⟩ := h
    simp only [KDNode.vRects0, Option.some.injEq] at hv
    subst hv
    exact m0 o ho

end KDTree

namespace KDTree

/-- C31 (counterexample): over the domain `{{-2^24, 0}, {2^25, 100}}` the node
created for the circle at `(0.6, 50)` has a left half rect of width
`0.6 + 2^24`, which rounds to `2^24`: the left half ends at 0 and the right
half begins at `0.6`, so the two halves do not abut. -/
theorem kd_halves_do_not_abut :
    Example.domainWide.containsPoint Example.objSix.pos = true ∧
      (build Example.domainWide [Example.objSix]).root.vRects0
        = some (Example.domainWide.leftRect Example.objSix.pos) ∧
      (build Example.domainWide [Example.objSix]).root.vRects1
        = some (Example.domainWide.rightRect Example.objSix.pos) ∧
      (Example.domainWide.leftRect Example.objSix.pos).pos.x
        + (Example.domainWide.leftRect Example.objSix.pos).size.x = 0 ∧
      (Example.domainWide.rightRect Example.objSix.pos).pos.x = F32.ofRat (6 / 10) ∧
      (Example.domainWide.leftRect Example.objSix.pos).pos.x
        + (Example.domainWide.leftRect Example.objSix.pos).size.x
          ≠ (Example.domainWide.rightRect Example.objSix.pos).pos.x := by
  decide!

/-- C31 (as amended) at a concrete input: the domain `{{0, 0}, {100, 100}}` cut
at `(50, 50)`; the widths are computed exactly, the halves abut and their
widths add up to 100. -/
theorem kd_half_rects_witness :
    F32.ExactSub (50 : F32) 0 ∧ F32.ExactAdd (0 : F32) 100 ∧ F32.ExactSub ((0 : F32) + 100) 50 ∧
      (Example.domain.leftRect ⟨50, 50⟩).pos.x + (Example.domain.leftRect ⟨50, 50⟩).size.x
        = (Example.domain.rightRect ⟨50, 50⟩).pos.x ∧
      (Example.domain.leftRect ⟨50, 50⟩).size.x + (Example.domain.rightRect ⟨50, 50⟩).size.x
        = Example.domain.size.x :=
  ⟨by decide!, by decide!, by decide!,
    ((kd_half_rects Example.domain ([] : List CObject)).2.1 Example.domain ⟨50, 50⟩).2.2.2.2.2.2.1
      (by decide!),
    ((kd_half_rects Example.domain ([] : List CObject)).2.1 Example.domain
      ⟨50, 50⟩).2.2.2.2.2.2.2.1 (by decide!) (by decide!) (by decide!)⟩

end KDTree

/-! ## K-d tree: queries off the domain -/

namespace KDTree

variable {OBJ_T : Type} [SpatialObject OBJ_T]

/-- The first half rect has the origin of the area. -/
theorem half0_pos (A : Rect) (p : Vec2) (dep : Nat) :
    (if dep % 2 = 0 then A.leftRect p else A.lowerRect p).pos = A.pos := by
  split_ifs <;> rfl

/-- The origin of the second half rect is at or before every position that is
at or after the origin of the area and not before the split coordinate. -/
theorem half1_pos_le {A : Rect} {p q : Vec2} {dep : Nat}
    (hq : A.pos.x ≤ q.x ∧ A.pos.y ≤ q.y) (hge : ¬ q.get (dep % 2) < p.get (dep % 2)) :
    (if dep % 2 = 0 then A.rightRect p else A.upperRect p).pos.x ≤ q.x ∧
      (if dep % 2 = 0 then A.rightRect p else A.upperRect p).pos.y ≤ q.y := by
  by_cases h : dep % 2 = 0
  · simp only [h, Vec2.get, if_true, Rect.rightRect, not_lt] at hge ⊢
    exact ⟨hge, hq.2⟩
  · simp only [h, Vec2.get, if_false, Rect.upperRect, not_lt] at hge ⊢
    exact ⟨hq.1, hge⟩

/-- The origin of the second half rect is at or after the origin of the area,
when the split point is. -/
theorem le_half1_pos {A : Rect} {p : Vec2} (dep : Nat)
    (hp : A.pos.x ≤ p.x ∧ A.pos.y ≤ p.y) :
    A.pos.x ≤ (if dep % 2 = 0 then A.rightRect p else A.upperRect p).pos.x ∧
      A.pos.y ≤ (if dep % 2 = 0 then A.rightRect p else A.upperRect p).pos.y := by
  by_cases h : dep % 2 = 0
  · simp only [h, if_true, Rect.rightRect]
    exact ⟨hp.1, le_refl _⟩
  · simp only [h, if_false, Rect.upperRect]
    exact ⟨le_refl _, hp.2⟩

/-- The computed far corner of either half rect of an area cut at one of its
points is at or after the origin of the area. -/
theorem origin_le_half_far {A : Rect} {p : Vec2} (dep : Nat)
    (hp : A.containsPoint p = true) :
    (A.pos.x ≤ (if dep % 2 = 0 then A.leftRect p else A.lowerRect p).pos.x +
        (if dep % 2 = 0 then A.leftRect p else A.lowerRect p).size.x ∧
      A.pos.y ≤ (if dep % 2 = 0 then A.leftRect p else A.lowerRect p).pos.y +
        (if dep % 2 = 0 then A.leftRect p else A.lowerRect p).size.y) ∧
    (A.pos.x ≤ (if dep % 2 = 0 then A.rightRect p else A.upperRect p).pos.x +
        (if dep % 2 = 0 then A.rightRect p else A.upperRect p).size.x ∧
      A.pos.y ≤ (if dep % 2 = 0 then A.rightRect p else A.upperRect p).pos.y +
        (if dep % 2 = 0 then A.rightRect p else A.upperRect p).size.y) := by
  rw [Rect.containsPoint_eq_true] at hp
  obtain ⟨h1, h2, h3, h4⟩ := hp
  have fx : A.pos.x ≤ A.pos.x + A.size.x := le_of_lt (lt_of_le_of_lt h1 h3)
  have fy : A.pos.y ≤ A.pos.y + A.size.y := le_of_lt (lt_of_le_of_lt h2 h4)
  by_cases h : dep % 2 = 0
  · simp only [h, if_true, Rect.leftRect, Rect.rightRect]
    exact ⟨⟨F32.le_add_of_nonneg _ _ (F32.sub_nonneg_of_le h1), fy⟩,
      le_trans h1 (F32.le_add_of_nonneg _ _ (F32.sub_nonneg_of_le (le_of_lt h3))), fy⟩
  · simp only [h, if_false, Rect.lowerRect, Rect.upperRect]
    exact ⟨⟨fx, F32.le_add_of_nonneg _ _ (F32.sub_nonneg_of_le h2)⟩, fx,
      le_trans h2 (F32.le_add_of_nonneg _ _ (F32.sub_nonneg_of_le (le_of_lt h4)))⟩

theorem kd_originBelow_make (ob : OBJ_T) (A : Rect) (dep : Nat) :
    (KDNode.make ob A dep).OriginBelow := by
  unfold KDNode.make
  split_ifs <;> simp [KDNode.OriginBelow, KDNode.items]

theorem kd_originBelow_insertNode (n : KDNode OBJ_T) (A : Rect) (ob : OBJ_T) (dep : Nat)
    (hs : n.Split A dep) (hb : n.OriginBelow)
    (h : A.pos.x ≤ (SpatialObject.pos ob).x ∧ A.pos.y ≤ (SpatialObject.pos ob).y) :
    (insertNode n A ob dep).OriginBelow := by
  induction n generalizing A dep with
  | null => exact kd_originBelow_make ob A dep
  | mk area object left right v0 v1 d ihl ihr =>
    obtain ⟨_, _, hv0, hv1, sl, sr⟩ := hs
    obtain ⟨b0, b1, bl, br⟩ := hb
    unfold insertNode
    split_ifs with hlt
    · have hin : v0.pos.x ≤ (SpatialObject.pos ob).x ∧ v0.pos.y ≤ (SpatialObject.pos ob).y := by
        rw [hv0, half0_pos]; exact h
      refine ⟨?_, b1, ihl v0 (dep + 1) sl bl hin, br⟩
      intro o ho
      rcases (kd_mem_items_insertNode _ _ _ _ o).1 ho with ho | rfl
      · exact b0 o ho
      · exact hin
    · have hin : v1.pos.x ≤ (SpatialObject.pos ob).x ∧ v1.pos.y ≤ (SpatialObject.pos ob).y := by
        rw [hv1]; exact half1_pos_le h hlt
      refine ⟨b0, ?_, bl, ihr v1 (dep + 1) sr br hin⟩
      intro o ho
      rcases (kd_mem_items_insertNode _ _ _ _ o).1 ho with ho | rfl
      · exact b1 o ho
      · exact hin

theorem kd_originBelow_build (area : Rect) (objs : List OBJ_T)
    (h : ∀ o ∈ objs, area.pos.x ≤ (SpatialObject.pos o).x ∧ area.pos.y ≤ (SpatialObject.pos o).y) :
    (build area objs).root.OriginBelow := by
  induction objs using List.reverseRecOn with
  | nil => simp [build, SetArea, empty, KDNode.OriginBelow]
  | append_singleton objs ob ih =>
    rw [kd_root_build_snoc]
    exact kd_originBelow_insertNode _ _ _ _ (kd_split_build area objs)
      (ih fun o ho => h o (by simp [ho])) (h ob (by simp))

/-- A query that contains a rect reaches beyond every coordinate that is at or
before the far corner of the rect. -/
theorem le_far_of_contains {r v : Rect} {a : Vec2} (h : r.contains v = true)
    (ha : a.x ≤ v.pos.x + v.size.x ∧ a.y ≤ v.pos.y + v.size.y) :
    a.x ≤ r.pos.x + r.size.x ∧ a.y ≤ r.pos.y + r.size.y := by
  rw [Rect.contains_eq_true] at h
  exact ⟨le_of_lt (lt_of_le_of_lt ha.1 h.2.1), le_of_lt (lt_of_le_of_lt ha.2 h.2.2.2)⟩

/-- Every object the k-d `search` returns is stored in the tree, and either its
area is overlapped by the query or its position is at or after the origin of
the query while the query reaches the origin of the area at the top. -/
theorem kd_searchNode_near (n : KDNode OBJ_T) (A : Rect) (dep : Nat) (hs : n.Split A dep)
    (hb : n.OriginBelow)
    (hnear : ∀ o ∈ n.items,
      A.pos.x ≤ (SpatialObject.pos o).x ∧ A.pos.y ≤ (SpatialObject.pos o).y)
    (r : Rect)
    (hE : (∀ o ∈ n.items, A.containsPoint (SpatialObject.pos o) = true) ∨
      (A.pos.x ≤ r.pos.x + r.size.x ∧ A.pos.y ≤ r.pos.y + r.size.y))
    (o : OBJ_T) (ho : o ∈ searchNode n r) :
    o ∈ n.items ∧ (r.overlaps (GetArea o) = true ∨
      (r.pos.x ≤ (SpatialObject.pos o).x ∧ r.pos.y ≤ (SpatialObject.pos o).y ∧
        A.pos.x ≤ r.pos.x + r.size.x ∧ A.pos.y ≤ r.pos.y + r.size.y)) := by
  induction n generalizing A dep with
  | null => simp [searchNode] at ho
  | mk area object left right v0 v1 d ihl ihr =>
    obtain ⟨_, _, hv0, hv1, sl, sr⟩ := hs
    obtain ⟨b0, b1, bl, br⟩ := hb
    have hown := hnear object (by simp [KDNode.items])
    have hfar0 : r.contains v0 = true →
        A.pos.x ≤ r.pos.x + r.size.x ∧ A.pos.y ≤ r.pos.y + r.size.y := by
      intro hc
      rcases hE with hE | hE
      · apply le_far_of_contains hc
        rw [hv0]
        exact (origin_le_half_far dep (hE object (by simp [KDNode.items]))).1
      · exact hE
    have hfar1 : r.contains v1 = true →
        A.pos.x ≤ r.pos.x + r.size.x ∧ A.pos.y ≤ r.pos.y + r.size.y := by
      intro hc
      rcases hE with hE | hE
      · apply le_far_of_contains hc
        rw [hv1]
        exact (origin_le_half_far dep (hE object (by simp [KDNode.items]))).2
      · exact hE
    have e0 : v0.pos = A.pos := by rw [hv0, half0_pos]
    have e1 : A.pos.x ≤ v1.pos.x ∧ A.pos.y ≤ v1.pos.y := by
      rw [hv1]; exact le_half1_pos dep hown
    simp only [searchNode, List.mem_append] at ho
    simp only [KDNode.items, List.mem_cons, List.mem_append]
    rcases ho with ho | ho | ho
    · split_ifs at ho with h
      · simp only [List.mem_singleton] at ho
        subst ho
        exact ⟨Or.inl rfl, Or.inl h⟩
      · simp at ho
    · split_ifs at ho with h1 h2
      · have hc := h1
        rw [Rect.contains_eq_true] at hc
        obtain ⟨f1, f2⟩ := hfar0 h1
        exact ⟨Or.inr (Or.inl ho), Or.inr
          ⟨le_trans hc.1 (b0 o ho).1, le_trans hc.2.2.1 (b0 o ho).2, f1, f2⟩⟩
      · have hv := h2
        rw [Rect.overlaps_eq_true] at hv
        obtain ⟨m, k⟩ := ihl v0 (dep + 1) sl bl b0 (Or.inr ⟨hv.2.1, hv.2.2.2⟩) ho
        refine ⟨Or.inr (Or.inl m), ?_⟩
        rcases k with k | ⟨k1, k2, k3, k4⟩
        · exact Or.inl k
        · rw [e0] at k3 k4
          exact Or.inr ⟨k1, k2, k3, k4⟩
      · simp at ho
    · split_ifs at ho with h1 h2
      · have hc := h1
        rw [Rect.contains_eq_true] at hc
        obtain ⟨f1, f2⟩ := hfar1 h1
        exact ⟨Or.inr (Or.inr ho), Or.inr
          ⟨le_trans hc.1 (b1 o ho).1, le_trans hc.2.2.1 (b1 o ho).2, f1, f2⟩⟩
      · have hv := h2
        rw [Rect.overlaps_eq_true] at hv
        obtain ⟨m, k⟩ := ihr v1 (dep + 1) sr br b1 (Or.inr ⟨hv.2.1, hv.2.2.2⟩) ho
        refine ⟨Or.inr (Or.inr m), ?_⟩
        rcases k with k | ⟨k1, k2, k3, k4⟩
        · exact Or.inl k
        · exact Or.inr ⟨k1, k2, le_trans e1.1 k3, le_trans e1.2 k4⟩
      · simp at ho

/-- C14 (as amended): for every sequence of inserted objects whose positions lie
inside the domain and whose bounds lie inside the domain
(`domain.contains(bounds)`), `search(r)` of a query rect that does not overlap
the domain (`r.overlaps(domain)` false) returns the empty list. -/
theorem kd_search_off_domain (area : Rect) (objs : List OBJ_T) (r : Rect)
    (hpos : ∀ o ∈ objs, area.containsPoint (SpatialObject.pos o) = true)
    (hin : ∀ o ∈ objs, area.contains (GetArea o) = true)
    (hdis : r.overlaps area = false) : (build area objs).search r = [] := by
  rw [List.eq_nil_iff_forall_not_mem]
  intro o ho
  have hnear : ∀ o ∈ objs,
      area.pos.x ≤ (SpatialObject.pos o).x ∧ area.pos.y ≤ (SpatialObject.pos o).y := by
    intro o ho
    have := hpos o ho
    rw [Rect.containsPoint_eq_true] at this
    exact ⟨this.1, this.2.1⟩
  obtain ⟨h1, h2⟩ := kd_searchNode_near _ area 0 (kd_split_build area objs)
    (kd_originBelow_build area objs hnear)
    (fun o ho => hnear o ((kd_mem_items_build area objs o).1 ho)) r
    (Or.inl fun o ho => hpos o ((kd_mem_items_build area objs o).1 ho)) o ho
  have hobj := (kd_mem_items_build area objs o).1 h1
  have hov : r.overlaps area = true := by
    rcases h2 with h2 | ⟨k1, k2, k3, k4⟩
    · exact Rect.overlaps_of_overlaps_inside h2 (hin o hobj)
    · have hp := hpos o hobj
      rw [Rect.containsPoint_eq_true] at hp
      rw [Rect.overlaps_eq_true]
      exact ⟨lt_of_le_of_lt k1 hp.2.2.1, k3, lt_of_le_of_lt k2 hp.2.2.2, k4⟩
  rw [hdis] at hov
  exact Bool.noConfusion hov

end KDTree

namespace KDTree

/-- C14 (counterexample): the circle at `(1, 1)` with radius 5 has its position
inside the domain; the query `{{-10, -10}, {8, 8}}` ends before the domain
begins on both axes and still returns the circle. -/
theorem kd_search_off_domain_returns_object :
    (∀ o ∈ [Example.objNearCorner], Example.domain.containsPoint o.pos = true ∧ 0 ≤ o.r) ∧
      Example.queryOutside.pos.x + Example.queryOutside.size.x < Example.domain.pos.x ∧
      Example.queryOutside.pos.y + Example.queryOutside.size.y < Example.domain.pos.y ∧
      Example.queryOutside.overlaps Example.domain = false ∧
      Example.domain.overlaps Example.queryOutside = false ∧
      (build Example.domain [Example.objNearCorner]).search Example.queryOutside
        = [Example.objNearCorner] := by
  decide!

/-- C14 (as amended) at a concrete input: circles A and B have their bounds
inside the domain. -/
theorem kd_search_off_domain_witness :
    (∀ o ∈ [Example.objA, Example.objB],
        Example.domain.containsPoint (SpatialObject.pos o) = true) ∧
      (∀ o ∈ [Example.objA, Example.objB], Example.domain.contains (GetArea o) = true) ∧
      Example.queryOutside.overlaps Example.domain = false ∧
      (build Example.domain [Example.objA, Example.objB]).search Example.queryOutside = [] :=
  ⟨by decide!, by decide!, by decide!,
    kd_search_off_domain Example.domain [Example.objA, Example.objB] Example.queryOutside
      (by decide!) (by decide!) (by decide!)⟩

end KDTree

/-! ## Static quadtree: the built tree does not depend on the insert order -/

namespace Node

theorem permEq_isSome {T : Type} (n m : Node T) (h : PermEq n m) : n.isSome = m.isSome := by
  cases n <;> cases m <;> first | rfl | exact h.elim

theorem permEq_skeleton {T : Type} (n m : Node T) (h : PermEq n m) :
    n.skeleton = m.skeleton := by
  induction n generalizing m with
  | null =>
    cases m with
    | null => rfl
    | mk => exact h.elim
  | mk a d s0 s1 s2 s3 c0 c1 c2 c3 objs ih0 ih1 ih2 ih3 =>
    cases m with
    | null => exact h.elim
    | mk a1 d1 t0 t1 t2 t3 e0 e1 e2 e3 objs1 =>
      obtain ⟨rfl, rfl, rfl, rfl, rfl, rfl, _, k0, k1, k2, k3⟩ := h
      simp only [skeleton, ih0 _ k0, ih1 _ k1, ih2 _ k2, ih3 _ k3]

theorem permEq_items {T : Type} (n m : Node T) (h : PermEq n m) : n.items.Perm m.items := by
  induction n generalizing m with
  | null =>
    cases m with
    | null => exact List.Perm.refl _
    | mk => exact h.elim
  | mk a d s0 s1 s2 s3 c0 c1 c2 c3 objs ih0 ih1 ih2 ih3 =>
    cases m with
    | null => exact h.elim
    | mk a1 d1 t0 t1 t2 t3 e0 e1 e2 e3 objs1 =>
      obtain ⟨_, _, _, _, _, _, hp, k0, k1, k2, k3⟩ := h
      simp only [items]
      exact hp.append ((ih0 _ k0).append ((ih1 _ k1).append ((ih2 _ k2).append (ih3 _ k3))))

theorem permEq_child {T : Type} (n m : Node T) (h : PermEq n m) (i : Nat) :
    PermEq (child n i) (child m i) := by
  cases n with
  | null =>
    cases m with
    | null => trivial
    | mk => exact h.elim
  | mk a d s0 s1 s2 s3 c0 c1 c2 c3 objs =>
    cases m with
    | null => exact h.elim
    | mk a1 d1 t0 t1 t2 t3 e0 e1 e2 e3 objs1 =>
      obtain ⟨_, _, _, _, _, _, _, k0, k1, k2, k3⟩ := h
      simp only [child]
      split_ifs
      · exact k0
      · exact k1
      · exact k2
      · exact k3
      · trivial

theorem permEq_nodeAt {T : Type} (n m : Node T) (h : PermEq n m) (q : List Nat) :
    PermEq (nodeAt n q) (nodeAt m q) := by
  induction q generalizing n m with
  | nil => exact h
  | cons i q ih => exact ih _ _ (permEq_child n m h i)

theorem permEq_objects {T : Type} (n m : Node T) (h : PermEq n m) :
    n.objects.Perm m.objects := by
  cases n with
  | null =>
    cases m with
    | null => exact List.Perm.refl _
    | mk => exact h.elim
  | mk a d s0 s1 s2 s3 c0 c1 c2 c3 objs =>
    cases m with
    | null => exact h.elim
    | mk a1 d1 t0 t1 t2 t3 e0 e1 e2 e3 objs1 => exact h.2.2.2.2.2.2.1

theorem permEq_searchChild {T : Type} (r s : Rect) (c e : Node T) (d1 d2 : List T)
    (h : PermEq c e) (hd : d1.Perm d2) :
    (searchChild r s c d1).Perm (searchChild r s e d2) := by
  unfold searchChild
  rw [permEq_isSome c e h]
  split_ifs
  · exact permEq_items c e h
  · exact hd
  · exact List.Perm.refl _
  · exact List.Perm.refl _

end Node

namespace StaticQuadTree

variable {OBJ_T : Type} [SpatialObject OBJ_T]

theorem permEq_searchNode (n m : Node OBJ_T) (h : Node.PermEq n m) (r : Rect) :
    (searchNode n r).Perm (searchNode m r) := by
  induction n generalizing m with
  | null =>
    cases m with
    | null => exact List.Perm.refl _
    | mk => exact h.elim
  | mk a d s0 s1 s2 s3 c0 c1 c2 c3 objs ih0 ih1 ih2 ih3 =>
    cases m with
    | null => exact h.elim
    | mk a1 d1 t0 t1 t2 t3 e0 e1 e2 e3 objs1 =>
      obtain ⟨rfl, rfl, rfl, rfl, rfl, rfl, hp, k0, k1, k2, k3⟩ := h
      simp only [searchNode]
      split_ifs
      · exact (hp.filter _).append
          ((Node.permEq_searchChild _ _ _ _ _ _ k0 (ih0 _ k0)).append
            ((Node.permEq_searchChild _ _ _ _ _ _ k1 (ih1 _ k1)).append
              ((Node.permEq_searchChild _ _ _ _ _ _ k2 (ih2 _ k2)).append
                (Node.permEq_searchChild _ _ _ _ _ _ k3 (ih3 _ k3)))))
      · exact List.Perm.refl _

theorem canon_nil (k : Nat) (r : Rect) (d : Nat) :
    canon k r d ([] : List OBJ_T) = Node.null := by
  cases k <;> simp [canon]

theorem slot_eq_zero {r : Rect} {d : Nat} {o : OBJ_T}
    (h0 : ((Node.quad0 r).contains (GetArea o) && decide (d + 1 < MAX_DEPTH)) = true) :
    slot r d o = 0 := by
  unfold slot; rw [if_pos h0]

theorem slot_eq_one {r : Rect} {d : Nat} {o : OBJ_T}
    (h0 : ¬ ((Node.quad0 r).contains (GetArea o) && decide (d + 1 < MAX_DEPTH)) = true)
    (h1 : ((Node.quad1 r).contains (GetArea o) && decide (d + 1 < MAX_DEPTH)) = true) :
    slot r d o = 1 := by
  unfold slot; rw [if_neg h0, if_pos h1]

theorem slot_eq_two {r : Rect} {d : Nat} {o : OBJ_T}
    (h0 : ¬ ((Node.quad0 r).contains (GetArea o) && decide (d + 1 < MAX_DEPTH)) = true)
    (h1 : ¬ ((Node.quad1 r).contains (GetArea o) && decide (d + 1 < MAX_DEPTH)) = true)
    (h2 : ((Node.quad2 r).contains (GetArea o) && decide (d + 1 < MAX_DEPTH)) = true) :
    slot r d o = 2 := by
  unfold slot; rw [if_neg h0, if_neg h1, if_pos h2]

theorem slot_eq_three {r : Rect} {d : Nat} {o : OBJ_T}
    (h0 : ¬ ((Node.quad0 r).contains (GetArea o) && decide (d + 1 < MAX_DEPTH)) = true)
    (h1 : ¬ ((Node.quad1 r).contains (GetArea o) && decide (d + 1 < MAX_DEPTH)) = true)
    (h2 : ¬ ((Node.quad2 r).contains (GetArea o) && decide (d + 1 < MAX_DEPTH)) = true)
    (h3 : ((Node.quad3 r).contains (GetArea o) && decide (d + 1 < MAX_DEPTH)) = true) :
    slot r d o = 3 := by
  unfold slot; rw [if_neg h0, if_neg h1, if_neg h2, if_pos h3]

theorem slot_eq_four {r : Rect} {d : Nat} {o : OBJ_T}
    (h0 : ¬ ((Node.quad0 r).contains (GetArea o) && decide (d + 1 < MAX_DEPTH)) = true)
    (h1 : ¬ ((Node.quad1 r).contains (GetArea o) && decide (d + 1 < MAX_DEPTH)) = true)
    (h2 : ¬ ((Node.quad2 r).contains (GetArea o) && decide (d + 1 < MAX_DEPTH)) = true)
    (h3 : ¬ ((Node.quad3 r).contains (GetArea o) && decide (d + 1 < MAX_DEPTH)) = true) :
    slot r d o = 4 := by
  unfold slot; rw [if_neg h0, if_neg h1, if_neg h2, if_neg h3]

theorem insertNew_eq_canon (k : Nat) (r : Rect) (o : OBJ_T) (d : Nat) :
    insertNew k r o d = canon k r d [o] := by
  induction k generalizing r d with
  | zero => simp [insertNew, canon]
  | succ k ih =>
    simp only [insertNew, canon, List.isEmpty_cons, Bool.false_eq_true, if_false,
      List.filter_cons, List.filter_nil]
    by_cases h0 : ((Node.quad0 r).contains (GetArea o) && decide (d + 1 < MAX_DEPTH)) = true
    · rw [if_pos h0]
      simp [slot_eq_zero h0, canon_nil, ih]
    · rw [if_neg h0]
      by_cases h1 : ((Node.quad1 r).contains (GetArea o) && decide (d + 1 < MAX_DEPTH)) = true
      · rw [if_pos h1]
        simp [slot_eq_one h0 h1, canon_nil, ih]
      · rw [if_neg h1]
        by_cases h2 : ((Node.quad2 r).contains (GetArea o) && decide (d + 1 < MAX_DEPTH)) = true
        · rw [if_pos h2]
          simp [slot_eq_two h0 h1 h2, canon_nil, ih]
        · rw [if_neg h2]
          by_cases h3 :
              ((Node.quad3 r).contains (GetArea o) && decide (d + 1 < MAX_DEPTH)) = true
          · rw [if_pos h3]
            simp [slot_eq_three h0 h1 h2 h3, canon_nil, ih]
          · rw [if_neg h3]
            simp [slot_eq_four h0 h1 h2 h3, canon_nil]

/-- Inserting into the tree of `l` gives the tree of `l ++ [o]`. -/
theorem insertNode_canon (k : Nat) (r : Rect) (d : Nat) (l : List OBJ_T) (o : OBJ_T)
    (hk : MAX_DEPTH - d ≤ k) :
    insertNode (canon k r d l) r o d = canon k r d (l ++ [o]) := by
  induction k generalizing r d l with
  | zero =>
    have hd : ¬ d + 1 < MAX_DEPTH := by omega
    cases l with
    | nil =>
      have : MAX_DEPTH - d = 0 := by omega
      simp [canon, insertNode, this, insertNew]
    | cons x l => simp [canon, insertNode, hd]
  | succ k ih =>
    by_cases hl : l = []
    · subst hl
      rw [canon_nil]
      simp only [insertNode, List.nil_append]
      rw [insertNew_counter_irrelevant (MAX_DEPTH - d) (k + 1) r o d (le_refl _) hk]
      exact insertNew_eq_canon _ _ _ _
    · have he : l.isEmpty = false := by
        cases l with
        | nil => exact absurd rfl hl
        | cons x l => rfl
      have he2 : (l ++ [o]).isEmpty = false := by
        cases l <;> rfl
      simp only [canon, he, he2, Bool.false_eq_true, if_false, insertNode, List.filter_append]
      by_cases h0 : ((Node.quad0 r).contains (GetArea o) && decide (d + 1 < MAX_DEPTH)) = true
      · have hlt : d + 1 < MAX_DEPTH := by simp at h0; exact h0.2
        rw [if_pos h0, ih (Node.quad0 r) (d + 1) _ (by omega)]
        simp [List.filter_cons, slot_eq_zero h0]
      · rw [if_neg h0]
        by_cases h1 : ((Node.quad1 r).contains (GetArea o) && decide (d + 1 < MAX_DEPTH)) = true
        · have hlt : d + 1 < MAX_DEPTH := by simp at h1; exact h1.2
          rw [if_pos h1, ih (Node.quad1 r) (d + 1) _ (by omega)]
          simp [List.filter_cons, slot_eq_one h0 h1]
        · rw [if_neg h1]
          by_cases h2 :
              ((Node.quad2 r).contains (GetArea o) && decide (d + 1 < MAX_DEPTH)) = true
          · have hlt : d + 1 < MAX_DEPTH := by simp at h2; exact h2.2
            rw [if_pos h2, ih (Node.quad2 r) (d + 1) _ (by omega)]
            simp [List.filter_cons, slot_eq_two h0 h1 h2]
          · rw [if_neg h2]
            by_cases h3 :
                ((Node.quad3 r).contains (GetArea o) && decide (d + 1 < MAX_DEPTH)) = true
            · have hlt : d + 1 < MAX_DEPTH := by simp at h3; exact h3.2
              rw [if_pos h3, ih (Node.quad3 r) (d + 1) _ (by omega)]
              simp [List.filter_cons, slot_eq_three h0 h1 h2 h3]
            · rw [if_neg h3]
              simp [List.filter_cons, slot_eq_four h0 h1 h2 h3]

theorem root_build_eq_canon (area : Rect) (objs : List OBJ_T) :
    (build area objs).root = canon MAX_DEPTH area 0 objs := by
  induction objs using List.reverseRecOn with
  | nil => rw [canon_nil]; rfl
  | append_singleton objs obj ih =>
    rw [root_build_snoc, ih]
    exact insertNode_canon _ _ _ _ _ (by simp)

theorem canon_permEq (k : Nat) (r : Rect) (d : Nat) (l1 l2 : List OBJ_T) (h : l1.Perm l2) :
    Node.PermEq (canon k r d l1) (canon k r d l2) := by
  induction k generalizing r d l1 l2 with
  | zero =>
    cases l1 with
    | nil => rw [← h.nil_eq]; simp [canon, Node.PermEq]
    | cons x l1 =>
      cases l2 with
      | nil => exact absurd h.eq_nil (by simp)
      | cons y l2 =>
        simp only [canon, List.isEmpty_cons, Bool.false_eq_true, if_false]
        exact ⟨rfl, rfl, rfl, rfl, rfl, rfl, h, trivial, trivial, trivial, trivial⟩
  | succ k ih =>
    cases l1 with
    | nil => rw [← h.nil_eq]; simp [canon, Node.PermEq]
    | cons x l1 =>
      cases l2 with
      | nil => exact absurd h.eq_nil (by simp)
      | cons y l2 =>
        simp only [canon, List.isEmpty_cons, Bool.false_eq_true, if_false]
        exact ⟨rfl, rfl, rfl, rfl, rfl, rfl, h.filter _, ih _ _ _ _ (h.filter _),
          ih _ _ _ _ (h.filter _), ih _ _ _ _ (h.filter _), ih _ _ _ _ (h.filter _)⟩

theorem permEq_build (area : Rect) (l1 l2 : List OBJ_T) (h : l1.Perm l2) :
    Node.PermEq (build area l1).root (build area l2).root := by
  rw [root_build_eq_canon, root_build_eq_canon]
  exact canon_permEq _ _ _ _ _ h

/-- C35: for every domain and every two insert sequences that are permutations
of each other, the two static quadtrees have the same nodes (areas, depths,
sub-areas, child slots), node by node object lists that are permutations of
each other, and for every query rect `r` the results of `search(r)` are
permutations of each other (for the empty sequence both calls read through the
null root and have no result). -/
theorem search_order_independent (area : Rect) (l1 l2 : List OBJ_T) (h : l1.Perm l2) :
    (build area l1).root.skeleton = (build area l2).root.skeleton ∧
    (∀ q, (Node.nodeAt (build area l1).root q).objects.Perm
      (Node.nodeAt (build area l2).root q).objects) ∧
    (∀ r, (l1 = [] ∧ search (build area l1) r = none ∧ search (build area l2) r = none) ∨
      ∃ res1 res2, search (build area l1) r = some res1 ∧
        search (build area l2) r = some res2 ∧ res1.Perm res2) := by
  have hp := permEq_build area l1 l2 h
  refine ⟨Node.permEq_skeleton _ _ hp, fun q => Node.permEq_objects _ _
    (Node.permEq_nodeAt _ _ hp q), fun r => ?_⟩
  by_cases hl : l1 = []
  · subst hl
    rw [← h.nil_eq]
    exact Or.inl ⟨rfl, rfl, rfl⟩
  · right
    have h1 : (build area l1).root.isSome = true := isSome_root_build area l1 hl
    have h2 : (build area l2).root.isSome = true := by
      rw [← Node.permEq_isSome _ _ hp]; exact h1
    exact ⟨_, _, by simp [search, h1], by simp [search, h2], permEq_searchNode _ _ hp r⟩

/-- C35 at a concrete input: three circles inserted in two orders; the query
over the whole domain returns them in different orders. -/
theorem search_order_independent_witness :
    [Example.objA, Example.objB, Example.objNearCorner].Perm
        [Example.objNearCorner, Example.objB, Example.objA] ∧
      search (build Example.domain [Example.objA, Example.objB, Example.objNearCorner])
        Example.queryAll = some [Example.objNearCorner, Example.objA, Example.objB] ∧
      search (build Example.domain [Example.objNearCorner, Example.objB, Example.objA])
        Example.queryAll = some [Example.objNearCorner, Example.objA, Example.objB] ∧
      (build Example.domain [Example.objA, Example.objB, Example.objNearCorner]).root.skeleton
        = (build Example.domain
            [Example.objNearCorner, Example.objB, Example.objA]).root.skeleton :=
  ⟨by decide!, by decide!, by decide!,
    (search_order_independent Example.domain
      [Example.objA, Example.objB, Example.objNearCorner]
      [Example.objNearCorner, Example.objB, Example.objA] (by decide!)).1⟩

end StaticQuadTree

end TreeDisplay
